import Mathlib

/-!
# gstt: the bounded FIFO message tracker

A shallow embedding of `network/abstract.go`, `network/singlemap/singlemap_tracker.go`
and `network/syncmap/syncmap_tracker.go`, together with the part of Go's `container/list`,
of the built-in `map` and of `sync.Map` that the trackers call. The methods are run
sequentially; the locks `listMU` appear only in the section on concurrent `Add` calls, as
the bounds of the atomic steps that are interleaved there.

Conventions of the embedding:
* a Go call either panics or returns: `Except Panic _`;
* a pointer `*list.Element` is an `Option list.Element` (`none` is the nil pointer); the
  identity of an element is the address it was allocated at;
* a `*network.Message` handed to `Add` is a non-nil pointer to a message that the caller
  does not mutate afterwards; it is represented by the message value;
* a nil slice is `none`, a non-nil slice `some xs`; `make` panics on a capacity that is
  negative or above the limit of the allocator, as the run-time function `makeslice` does;
* an `error` value is `Option network.error`, `none` being the nil error.
-/

/-! ## Package `network` (abstract.go) -/

namespace network

/-- Message is received from peers in a p2p network. -/
structure Message where
  ID : String
  PeerID : String
  Data : List UInt8
  deriving DecidableEq, Repr

/-- A Go error value made by `errors.New`: it carries its text. -/
structure error where
  text : String
  deriving DecidableEq, Repr

/-- ErrMessageNotFound is returned by a tracker when no message has the given id. -/
def ErrMessageNotFound : error := ⟨"message not found"⟩

end network

/-! ## Run-time values and panics -/

/-- The run-time panics the tracker code can raise. -/
inductive Panic where
  | nilDereference
  | interfaceConversion
  | makeslice
  deriving DecidableEq, Repr

/-- The values of Go's `any` that the trackers store: the nil interface, a non-nil
`*network.Message`, a non-nil `*list.Element` (its address and its `Value`), and the nil
`*list.Element`. -/
inductive GoAny where
  | nil : GoAny
  | message : network.Message → GoAny
  | element : Nat → GoAny → GoAny
  | nilElement : GoAny
  deriving DecidableEq, Repr

/-- The type assertion `v.(*network.Message)`. -/
def GoAny.assertMessage : GoAny → Except Panic network.Message
  | .message m => .ok m
  | _ => .error .interfaceConversion

/-- Lean's lists, under a name that stays usable next to Go's `list.List`. -/
abbrev Sequence (α : Type) : Type := List α

/-! ## Package `container/list` -/

/-- Element is an element of a linked list: the address it lives at and its `Value`. -/
structure list.Element where
  addr : Nat
  Value : GoAny
  deriving DecidableEq, Repr

/-- A doubly linked list, as the sequence of its elements front to back, and the number
of elements allocated so far (the address of the next one). -/
structure list.List where
  elems : Sequence list.Element
  allocated : Nat
  deriving DecidableEq, Repr

/-- The pointer type `*list.Element`; `none` is the nil pointer. -/
abbrev ElementPtr : Type := Option list.Element

/-- New returns an initialized list. -/
def list.New : list.List := ⟨[], 0⟩

/-- Len returns the number of elements of list l. -/
def list.List.Len (l : list.List) : Int := l.elems.length

/-- Front returns the first element of list l or nil if the list is empty. -/
def list.List.Front (l : list.List) : Option list.Element := l.elems.head?

/-- Back returns the last element of list l or nil if the list is empty. -/
def list.List.Back (l : list.List) : Option list.Element := l.elems.getLast?

/-- The test `e.list == l` of `Remove`: the element at the address of `e` is linked in `l`. -/
def list.List.owns (l : list.List) (e : list.Element) : Bool :=
  l.elems.any (fun x => x.addr == e.addr)

/-- Remove removes e from l if e is an element of list l. It returns the element value
e.Value. The element must not be nil: reading `e.list` of a nil pointer panics. -/
def list.List.Remove (l : list.List) (e : Option list.Element) :
    Except Panic (list.List × GoAny) :=
  match e with
  | none => .error .nilDereference
  | some e =>
    if l.owns e then
      .ok ({ l with elems := l.elems.eraseP (fun x => x.addr == e.addr) }, e.Value)
    else
      .ok (l, e.Value)

/-- PushBack inserts a new element e with value v at the back of list l and returns e. -/
def list.List.PushBack (l : list.List) (v : GoAny) : list.List × list.Element :=
  ({ elems := l.elems ++ [⟨l.allocated, v⟩], allocated := l.allocated + 1 },
   ⟨l.allocated, v⟩)

/-- The type assertion `v.(*list.Element)`. -/
def GoAny.assertElement : GoAny → Except Panic (Option list.Element)
  | .element a v => .ok (some ⟨a, v⟩)
  | .nilElement => .ok none
  | _ => .error .interfaceConversion

/-- A `*list.Element` stored in an `any`. -/
def GoAny.ofElement : Option list.Element → GoAny
  | some e => .element e.addr e.Value
  | none => .nilElement

/-- Reading the field `Value` through a `*list.Element`. -/
def list.Element.deref : Option list.Element → Except Panic GoAny
  | some e => .ok e.Value
  | none => .error .nilDereference

/-! ## Maps keyed by strings (the built-in `map` and `sync.Map`, used sequentially) -/

/-- The entries of a map with string keys; at most the first entry of a key is live. -/
abbrev GoMap (V : Type) : Type := List (String × V)

/-- The lookup `v, ok := m[k]` resp. `m.Load(k)`: `none` stands for `ok = false`. -/
def GoMap.load {V : Type} (m : GoMap V) (k : String) : Option V :=
  match m with
  | [] => none
  | (k', v) :: rest => if k' = k then some v else GoMap.load rest k

/-- The statement `delete(m, k)` resp. `m.Delete(k)`. -/
def GoMap.delete {V : Type} (m : GoMap V) (k : String) : GoMap V :=
  m.filter (fun p => decide (p.1 ≠ k))

/-- The statement `m[k] = v` resp. `m.Store(k, v)`. -/
def GoMap.store {V : Type} (m : GoMap V) (k : String) (v : V) : GoMap V :=
  (k, v) :: GoMap.delete m k

/-! ## Slices of messages: `make` and the loop of `Messages` -/

/-- The largest capacity `make([]*network.Message, 0, n)` accepts: `2^45`. The run-time
function `makeslice` panics when the size of the array, 8 bytes per pointer, exceeds its
limit `maxAlloc`, which is `2^48` bytes on the 64-bit platforms. -/
def maxCap : Int := 35184372088832

/-- The allocation `make([]*network.Message, 0, n)`: it panics (`makeslice: cap out of
range`) on a negative capacity and on a capacity above `maxCap`. Below that limit the
allocation is taken to succeed: running out of memory is a fatal error of the process, not
a panic, and is not modelled. -/
def makeMessages (n : Int) : Except Panic (List network.Message) :=
  if n < 0 ∨ maxCap < n then .error .makeslice else .ok []

/-- The loop `for e := l.Front(); e != nil; e = e.Next() { messages = append(messages,
e.Value.(*network.Message)) }` over the elements that are still to be visited. -/
def appendMessages : Sequence list.Element → List network.Message →
    Except Panic (List network.Message)
  | [], messages => .ok messages
  | e :: rest, messages =>
    match e.Value.assertMessage with
    | .ok m => appendMessages rest (messages ++ [m])
    | .error p => .error p

/-! ## Package `singlemap` (singlemap_tracker.go) -/

namespace singlemap

/-- The tracker with a built-in map as index; `messages` is the cached listing. -/
structure Tracker where
  length : Int
  list : list.List
  listMap : GoMap ElementPtr
  messages : Option (List network.Message)
  deriving DecidableEq, Repr

/-- Add will add a message to the tracker, deleting the oldest message if necessary. -/
def Tracker.Add (t : Tracker) (message : network.Message) :
    Except Panic (Tracker × Option network.error) :=
  -- if message already exists, do nothing
  match t.listMap.load message.ID with
  | some _ => .ok (t, none)
  | none => do
    -- if list is full, remove oldest message
    let t ← (if t.list.Len ≥ t.length then do
        let oldest := t.list.Front
        let (l, _) ← t.list.Remove oldest
        let v ← list.Element.deref oldest
        let m ← v.assertMessage
        pure { t with list := l, listMap := t.listMap.delete m.ID }
      else pure t)
    let l := (t.list.PushBack (.message message)).1
    pure ({ t with list := l, listMap := t.listMap.store message.ID l.Back,
                   messages := none }, none)

/-- Delete will delete message from tracker. -/
def Tracker.Delete (t : Tracker) (id : String) :
    Except Panic (Tracker × Option network.error) :=
  match t.listMap.load id with
  | some e => do
    let (l, _) ← t.list.Remove e
    pure ({ t with list := l, listMap := t.listMap.delete id, messages := none }, none)
  | none => .ok (t, some network.ErrMessageNotFound)

/-- Message Get returns a message for a given ID. Message is retained in tracker. -/
def Tracker.Message (t : Tracker) (id : String) :
    Except Panic (Option network.Message × Option network.error) :=
  match t.listMap.load id with
  | some e => do
    let v ← list.Element.deref e
    let m ← v.assertMessage
    pure (some m, none)
  | none => .ok (none, some network.ErrMessageNotFound)

/-- Messages returns all messages in the tracker. -/
def Tracker.Messages (t : Tracker) : Except Panic (Tracker × List network.Message) :=
  match t.messages with
  | some messages => .ok (t, messages)
  | none => do
    let messages ← makeMessages t.length
    let messages ← appendMessages t.list.elems messages
    pure ({ t with messages := some messages }, messages)

end singlemap

/-! ## Package `syncmap` (syncmap_tracker.go) -/

namespace syncmap

/-- The tracker with a `sync.Map` as index, whose values are of type `any`. -/
structure Tracker where
  length : Int
  list : list.List
  listMap : GoMap GoAny
  messages : Option (List network.Message)
  deriving DecidableEq, Repr

/-- Add will add a message to the tracker, deleting the oldest message if necessary. -/
def Tracker.Add (t : Tracker) (message : network.Message) :
    Except Panic (Tracker × Option network.error) :=
  -- if message already exists, do nothing
  match t.listMap.load message.ID with
  | some _ => .ok (t, none)
  | none => do
    -- if list is full, remove oldest message
    let t ← (if t.list.Len ≥ t.length then do
        let oldest := t.list.Front
        let (l, _) ← t.list.Remove oldest
        let v ← list.Element.deref oldest
        let m ← v.assertMessage
        pure { t with list := l, listMap := t.listMap.delete m.ID }
      else pure t)
    let l := (t.list.PushBack (.message message)).1
    pure ({ t with list := l, listMap := t.listMap.store message.ID (.ofElement l.Back),
                   messages := none }, none)

/-- Delete will delete message from tracker. -/
def Tracker.Delete (t : Tracker) (id : String) :
    Except Panic (Tracker × Option network.error) :=
  match t.listMap.load id with
  | some e => do
    let e ← e.assertElement
    let (l, _) ← t.list.Remove e
    pure ({ t with list := l, listMap := t.listMap.delete id, messages := none }, none)
  | none => .ok (t, some network.ErrMessageNotFound)

/-- Message Get returns a message for a given ID. Message is retained in tracker. -/
def Tracker.Message (t : Tracker) (id : String) :
    Except Panic (Option network.Message × Option network.error) :=
  match t.listMap.load id with
  | some e => do
    let e ← e.assertElement
    let v ← list.Element.deref e
    let m ← v.assertMessage
    pure (some m, none)
  | none => .ok (none, some network.ErrMessageNotFound)

/-- Messages returns messages in FIFO order. -/
def Tracker.Messages (t : Tracker) : Except Panic (Tracker × List network.Message) :=
  match t.messages with
  | some messages => .ok (t, messages)
  | none => do
    let messages ← makeMessages t.list.Len
    let messages ← appendMessages t.list.elems messages
    pure ({ t with messages := some messages }, messages)

end syncmap

/-! ## The interface `network.MessageTracker` and its two implementations -/

/-- MessageTracker tracks a configurable fixed amount of messages: an interface value
holds one of the two implementing trackers. -/
inductive network.MessageTracker where
  | singlemap (t : singlemap.Tracker)
  | syncmap (t : syncmap.Tracker)
  deriving DecidableEq, Repr

/-- The constructor of singlemap_tracker.go; a negative size hint of a map is ignored. -/
def singlemap.NewMessageTracker (length : Int) : network.MessageTracker :=
  .singlemap { length := length, list := list.New, listMap := [], messages := none }

/-- The constructor of syncmap_tracker.go. -/
def syncmap.NewMessageTracker (length : Int) : network.MessageTracker :=
  .syncmap { length := length, list := list.New, listMap := [], messages := none }

namespace network

/-- Method `Add` of the interface, dispatched on the implementation. -/
def MessageTracker.Add (mt : MessageTracker) (message : network.Message) :
    Except Panic (MessageTracker × Option error) :=
  match mt with
  | .singlemap t => (t.Add message).map (fun r => (.singlemap r.1, r.2))
  | .syncmap t => (t.Add message).map (fun r => (.syncmap r.1, r.2))

/-- Method `Delete` of the interface. -/
def MessageTracker.Delete (mt : MessageTracker) (id : String) :
    Except Panic (MessageTracker × Option error) :=
  match mt with
  | .singlemap t => (t.Delete id).map (fun r => (.singlemap r.1, r.2))
  | .syncmap t => (t.Delete id).map (fun r => (.syncmap r.1, r.2))

/-- Method `Message` of the interface; it does not write to the tracker. -/
def MessageTracker.Message (mt : MessageTracker) (id : String) :
    Except Panic (Option network.Message × Option error) :=
  match mt with
  | .singlemap t => t.Message id
  | .syncmap t => t.Message id

/-- Method `Messages` of the interface; it may fill the cached listing. -/
def MessageTracker.Messages (mt : MessageTracker) :
    Except Panic (MessageTracker × List network.Message) :=
  match mt with
  | .singlemap t => (t.Messages).map (fun r => (.singlemap r.1, r.2))
  | .syncmap t => (t.Messages).map (fun r => (.syncmap r.1, r.2))

end network

/-- The constructors the shared test suite runs over (message_tracker_test.go). -/
def getTrackerMethods : List (Int → network.MessageTracker) :=
  [singlemap.NewMessageTracker, syncmap.NewMessageTracker]

/-- The message generator of message_tracker_test.go, the number given in decimal. -/
def generateMessage (n : Nat) : network.Message :=
  { ID := "someID" ++ toString n, PeerID := "somePeerID" ++ toString n, Data := [0, 1, 1] }

/-! ## Sequential runs of calls -/

/-- A call of one of the four methods. -/
inductive Call where
  | Add (message : network.Message)
  | Delete (id : String)
  | Message (id : String)
  | Messages
  deriving DecidableEq, Repr

/-- What a call returned. -/
inductive Ret where
  | Add (err : Option network.error)
  | Delete (err : Option network.error)
  | Message (message : Option network.Message) (err : Option network.error)
  | Messages (messages : List network.Message)
  deriving DecidableEq, Repr

/-- One call on a tracker: the tracker afterwards and what was returned, or a panic. -/
def network.MessageTracker.call (mt : network.MessageTracker) :
    Call → Except Panic (network.MessageTracker × Ret)
  | .Add message => (mt.Add message).map (fun r => (r.1, .Add r.2))
  | .Delete id => (mt.Delete id).map (fun r => (r.1, .Delete r.2))
  | .Message id => (mt.Message id).map (fun r => (mt, .Message r.1 r.2))
  | .Messages => (mt.Messages).map (fun r => (r.1, .Messages r.2))

/-- A sequence of calls, one after the other; the first panic ends the run. -/
def network.MessageTracker.run (mt : network.MessageTracker) :
    List Call → Except Panic (network.MessageTracker × List Ret)
  | [] => .ok (mt, [])
  | c :: rest =>
    match mt.call c with
    | .error p => .error p
    | .ok (mt1, r) =>
      match network.MessageTracker.run mt1 rest with
      | .error p => .error p
      | .ok (mt2, rs) => .ok (mt2, r :: rs)

/-- The states a tracker can be in after a sequence of calls on `mt0` that all returned. -/
def Reachable (mt0 mt : network.MessageTracker) : Prop :=
  ∃ calls rets, mt0.run calls = .ok (mt, rets)

/-- The listing `Messages()` of a tracker, without the tracker afterwards. -/
def network.MessageTracker.listing (mt : network.MessageTracker) :
    Except Panic (List network.Message) :=
  mt.Messages.map (fun r => r.2)

/-! ## What a tracker holds, and the invariant of its representation -/

/-- The message an element holds, if its `Value` is one. -/
def list.Element.message? (e : list.Element) : Option network.Message :=
  match e.Value with
  | .message m => some m
  | _ => none

/-- Whether an element holds a message with the given id. -/
def list.Element.holdsID (id : String) (e : list.Element) : Bool :=
  match e.Value with
  | .message m => decide (m.ID = id)
  | _ => false

/-- The messages held by a sequence of elements, front to back. -/
def heldIn (es : Sequence list.Element) : List network.Message :=
  es.filterMap list.Element.message?

/-- The invariant of the linked list of a tracker of capacity `C`: every value is a
message, addresses are distinct and below the allocation mark, ids are distinct, and the
list is no longer than the capacity allows. -/
structure ListInv (C : Int) (l : list.List) : Prop where
  values : ∀ e ∈ l.elems, ∃ m, e.Value = GoAny.message m
  addrs : (l.elems.map (fun e => e.addr)).Nodup
  fresh : ∀ e ∈ l.elems, e.addr < l.allocated
  ids : ((heldIn l.elems).map (fun m => m.ID)).Nodup
  bound : (l.elems.length : Int) ≤ max C 0

/-- The invariant of an index whose values are made from elements by `wrap`: looking up
an id gives the element of the list that holds a message with this id. -/
def IndexInv {V : Type} (wrap : list.Element → V) (index : GoMap V)
    (es : Sequence list.Element) : Prop :=
  ∀ id, index.load id = (es.find? (list.Element.holdsID id)).map wrap

/-- The invariant of a cached listing: when present it is the traversal of the list, and
the capacity `n` that `Messages` gives to `make` is one that `make` accepts (the listing
was made by a `Messages` call that returned). -/
def CacheInv (messages : Option (List network.Message)) (es : Sequence list.Element)
    (n : Int) : Prop :=
  ∀ xs, messages = some xs → xs = heldIn es ∧ 0 ≤ n ∧ n ≤ maxCap

/-- The invariant of a `singlemap.Tracker`. -/
structure singlemap.Tracker.Inv (t : singlemap.Tracker) : Prop where
  list : ListInv t.length t.list
  index : IndexInv (fun e => (some e : ElementPtr)) t.listMap t.list.elems
  cache : CacheInv t.messages t.list.elems t.length

/-- The invariant of a `syncmap.Tracker`. -/
structure syncmap.Tracker.Inv (t : syncmap.Tracker) : Prop where
  list : ListInv t.length t.list
  index : IndexInv (fun e => GoAny.element e.addr e.Value) t.listMap t.list.elems
  cache : CacheInv t.messages t.list.elems t.list.Len

/-- The invariant of a tracker behind the interface. -/
def network.MessageTracker.Inv : network.MessageTracker → Prop
  | .singlemap t => t.Inv
  | .syncmap t => t.Inv

/-- The messages a tracker holds, oldest first (read off the linked list). -/
def network.MessageTracker.held : network.MessageTracker → List network.Message
  | .singlemap t => heldIn t.list.elems
  | .syncmap t => heldIn t.list.elems

/-- The capacity a tracker was built with (its field `length`). -/
def network.MessageTracker.capacity : network.MessageTracker → Int
  | .singlemap t => t.length
  | .syncmap t => t.length

/-- Whether the tracker is a `singlemap.Tracker`. -/
def network.MessageTracker.isSinglemap : network.MessageTracker → Bool
  | .singlemap _ => true
  | .syncmap _ => false

/-- The capacity `Messages` asks `make` for when it builds the listing: the capacity of
the tracker in `singlemap` (`make(.., 0, t.length)`), the current length of the list in
`syncmap` (`make(.., 0, t.list.Len())`). -/
def network.MessageTracker.makeArg : network.MessageTracker → Int
  | .singlemap t => t.length
  | .syncmap t => t.list.Len

/-- The allocation of `Messages` is one that `make` accepts. -/
def network.MessageTracker.fits (mt : network.MessageTracker) : Prop :=
  0 ≤ mt.makeArg ∧ mt.makeArg ≤ maxCap

/-! ## The bounded FIFO sequence both trackers represent

The sequence of held messages with the four operations on it. It is the abstraction the
proofs go through: each method of each tracker is shown to act on `held` as the operation
here does. -/

namespace Fifo

/-- Whether a message with the given id is in the sequence. -/
def has (xs : List network.Message) (id : String) : Bool :=
  xs.any (fun x => decide (x.ID = id))

/-- Adding to a sequence of capacity `C`: nothing for a known id, otherwise the message
goes to the back, after the front one was dropped when the length has reached `C`;
dropping from the empty sequence is the nil dereference of the code. -/
def add (C : Int) (xs : List network.Message) (m : network.Message) :
    Except Panic (List network.Message) :=
  if has xs m.ID then .ok xs
  else if C ≤ (xs.length : Int) then
    match xs with
    | [] => .error .nilDereference
    | _ :: rest => .ok (rest ++ [m])
  else .ok (xs ++ [m])

/-- Deleting by id: the one message with this id is dropped, or not-found is reported. -/
def delete (xs : List network.Message) (id : String) :
    List network.Message × Option network.error :=
  if has xs id then (xs.eraseP (fun x => decide (x.ID = id)), none)
  else (xs, some network.ErrMessageNotFound)

/-- Getting by id. -/
def get (xs : List network.Message) (id : String) :
    Option network.Message × Option network.error :=
  match xs.find? (fun x => decide (x.ID = id)) with
  | some m => (some m, none)
  | none => (none, some network.ErrMessageNotFound)

/-- One call on the sequence. -/
def step (C : Int) (xs : List network.Message) :
    Call → Except Panic (List network.Message × Ret)
  | .Add m => (add C xs m).map (fun ys => (ys, .Add none))
  | .Delete id => .ok ((delete xs id).1, .Delete (delete xs id).2)
  | .Message id => .ok (xs, .Message (get xs id).1 (get xs id).2)
  | .Messages => .ok (xs, .Messages xs)

/-- A sequence of calls on the sequence. -/
def run (C : Int) (xs : List network.Message) :
    List Call → Except Panic (List network.Message × List Ret)
  | [] => .ok (xs, [])
  | c :: rest =>
    match step C xs c with
    | .error p => .error p
    | .ok (ys, r) =>
      match run C ys rest with
      | .error p => .error p
      | .ok (zs, rs) => .ok (zs, r :: rs)

end Fifo

/-! ## Reads and writes -/

/-- The calls that may change what a tracker holds: `Add` and `Delete`. -/
def Call.isWrite : Call → Bool
  | .Add _ => true
  | .Delete _ => true
  | .Message _ => false
  | .Messages => false

/-- Of the results of a run, those of its `Add` and `Delete` calls, in order. -/
def writeRets : List Call → List Ret → List Ret
  | c :: calls, r :: rets =>
    if c.isWrite then r :: writeRets calls rets else writeRets calls rets
  | _, _ => []

/-- What a run shows of its writes: the results of the `Add` and `Delete` calls and the
listing `Messages()` taken after the last call. -/
def network.MessageTracker.observe (mt : network.MessageTracker) (calls : List Call) :
    Except Panic (List Ret × List network.Message) :=
  match mt.run calls with
  | .error p => .error p
  | .ok (mt1, rets) =>
    match mt1.listing with
    | .error p => .error p
    | .ok xs => .ok (writeRets calls rets, xs)

/-- What a run shows of its writes, on the FIFO sequence. -/
def Fifo.observe (C : Int) (xs : List network.Message) (calls : List Call) :
    Except Panic (List Ret × List network.Message) :=
  match Fifo.run C xs calls with
  | .error p => .error p
  | .ok (ys, rets) => .ok (writeRets calls rets, ys)

/-! ## What the dereferences and type assertions rely on -/

/-- The facts the code relies on where it dereferences `Front()` and asserts types: when
the eviction test `t.list.Len() >= t.length` holds the list has a front element, every
`Value` in the list is a `*network.Message`, and every value in the index is a non-nil
`*list.Element` whose `Value` is a `*network.Message`. -/
def network.MessageTracker.WellTyped : network.MessageTracker → Prop
  | .singlemap t =>
    (t.list.Len ≥ t.length → t.list.Front ≠ none) ∧
    (∀ e ∈ t.list.elems, ∃ m, e.Value.assertMessage = .ok m) ∧
    (∀ k p, t.listMap.load k = some p →
      ∃ e m, p = some e ∧ e.Value.assertMessage = .ok m)
  | .syncmap t =>
    (t.list.Len ≥ t.length → t.list.Front ≠ none) ∧
    (∀ e ∈ t.list.elems, ∃ m, e.Value.assertMessage = .ok m) ∧
    (∀ k v, t.listMap.load k = some v →
      ∃ e m, v.assertElement = .ok (some e) ∧ e.Value.assertMessage = .ok m)

/-- The results the methods are meant to give: `Add` a nil error, `Delete` a nil error or
`ErrMessageNotFound`, `Message` a message with a nil error or no message with
`ErrMessageNotFound`. -/
def Ret.expected : Ret → Prop
  | .Add err => err = none
  | .Delete err => err = none ∨ err = some network.ErrMessageNotFound
  | .Message message err =>
    (message ≠ none ∧ err = none) ∨ (message = none ∧ err = some network.ErrMessageNotFound)
  | .Messages _ => True

/-! ## The fields of a tracker, read through the interface -/

/-- The field `messages` of a tracker, the cached listing; `none` when it is nil. -/
def network.MessageTracker.cached : network.MessageTracker → Option (List network.Message)
  | .singlemap t => t.messages
  | .syncmap t => t.messages

/-- The elements of the linked list of a tracker, front to back. -/
def network.MessageTracker.elements : network.MessageTracker → Sequence list.Element
  | .singlemap t => t.list.elems
  | .syncmap t => t.list.elems

/-- The front-to-back traversal of the linked list, as the loop of `Messages` makes it. -/
def network.MessageTracker.traversal (mt : network.MessageTracker) :
    Except Panic (List network.Message) :=
  appendMessages mt.elements []

/-- What the index `listMap` maps an id to: `none` when the id is no key, otherwise the
`*list.Element` stored under it, read the way `Delete` and `Message` read it (for
`syncmap` through the assertion `e.(*list.Element)`, which may panic). -/
def network.MessageTracker.indexed (mt : network.MessageTracker) (id : String) :
    Option (Except Panic ElementPtr) :=
  match mt with
  | .singlemap t => (t.listMap.load id).map Except.ok
  | .syncmap t => (t.listMap.load id).map GoAny.assertElement

/-! ## The caller writes to the slice that `Messages()` returned

`Messages()` returns the slice held in the field `messages` (`return t.messages`, resp.
`t.messages = messages; return messages`): the caller's slice and the field have the same
backing array and length until `Add` or `Delete` sets the field to nil. An assignment
`msgs[i] = p` by the caller is therefore a write to the field. -/

/-- The caller assigns `ys`, element by element, to the slice the last `Messages()` call
returned, the field `messages` being still that slice. A nil field means that the caller's
slice is no longer shared, and a slice cannot be assigned beyond its length. -/
def singlemap.Tracker.callerWrites (t : singlemap.Tracker) (ys : List network.Message) :
    singlemap.Tracker :=
  match t.messages with
  | some xs => if ys.length = xs.length then { t with messages := some ys } else t
  | none => t

/-- The caller assigns `ys` to the slice the last `Messages()` call returned. -/
def syncmap.Tracker.callerWrites (t : syncmap.Tracker) (ys : List network.Message) :
    syncmap.Tracker :=
  match t.messages with
  | some xs => if ys.length = xs.length then { t with messages := some ys } else t
  | none => t

/-- The caller assigns `ys` to the slice the last `Messages()` call returned. -/
def network.MessageTracker.callerWrites (mt : network.MessageTracker)
    (ys : List network.Message) : network.MessageTracker :=
  match mt with
  | .singlemap t => .singlemap (t.callerWrites ys)
  | .syncmap t => .syncmap (t.callerWrites ys)

/-! ## Concurrent `Add` calls, as interleavings of atomic steps

`singlemap.Tracker.Add` holds the lock `listMU` from its first statement to its return: it
is one atomic step. `syncmap.Tracker.Add` looks the id up in the `sync.Map` first, without
the lock, and then runs the rest under the lock: two atomic steps. -/

/-- The part of `syncmap.Tracker.Add` that runs under the lock (from `t.listMU.Lock()` to
the return). -/
def syncmap.Tracker.addLocked (t : syncmap.Tracker) (message : network.Message) :
    Except Panic syncmap.Tracker := do
  -- if list is full, remove oldest message
  let t ← (if t.list.Len ≥ t.length then do
      let oldest := t.list.Front
      let (l, _) ← t.list.Remove oldest
      let v ← list.Element.deref oldest
      let m ← v.assertMessage
      pure { t with list := l, listMap := t.listMap.delete m.ID }
    else pure t)
  let l := (t.list.PushBack (.message message)).1
  pure { t with list := l, listMap := t.listMap.store message.ID (.ofElement l.Back),
                messages := none }

/-- Where a goroutine that runs `Add` stands: before its first step, after the lookup
that found the id absent (`syncmap` only), or returned. -/
inductive Phase where
  | start
  | checked
  | done
  deriving DecidableEq, Repr

/-- A goroutine that runs `Add(message)`. -/
structure Goroutine where
  message : network.Message
  phase : Phase
  deriving DecidableEq, Repr

/-- One atomic step of a goroutine on the shared tracker. A goroutine that has returned
does not move. -/
def network.MessageTracker.stepAdd (mt : network.MessageTracker) (g : Goroutine) :
    Except Panic (network.MessageTracker × Goroutine) :=
  match g.phase, mt with
  | .done, _ => .ok (mt, g)
  | _, .singlemap t =>
    (t.Add g.message).map (fun r => (.singlemap r.1, { g with phase := .done }))
  | .start, .syncmap t =>
    match t.listMap.load g.message.ID with
    | some _ => .ok (mt, { g with phase := .done })
    | none => .ok (mt, { g with phase := .checked })
  | .checked, .syncmap t =>
    (t.addLocked g.message).map (fun t1 => (.syncmap t1, { g with phase := .done }))

/-- An interleaving: the schedule names, step by step, the goroutine that moves next (a
number that names no goroutine moves nothing). The first panic ends the run. -/
def runSchedule (mt : network.MessageTracker) (gs : List Goroutine) :
    List Nat → Except Panic (network.MessageTracker × List Goroutine)
  | [] => .ok (mt, gs)
  | i :: rest =>
    match gs[i]? with
    | none => runSchedule mt gs rest
    | some g =>
      match mt.stepAdd g with
      | .error p => .error p
      | .ok (mt1, g1) => runSchedule mt1 (gs.set i g1) rest

/-- The goroutines of concurrent `Add` calls, one per message, none started. -/
def goroutines (ms : List network.Message) : List Goroutine :=
  ms.map (fun m => { message := m, phase := .start })

/-- How far a goroutine has come: the number of atomic steps behind it, a goroutine that
has returned counting as 2. -/
def Phase.rank : Phase → Nat
  | .start => 0
  | .checked => 1
  | .done => 2

/-- The messages of the goroutines that have returned. -/
def doneMessages (gs : List Goroutine) : List network.Message :=
  (gs.filter (fun g => decide (g.phase = Phase.done))).map Goroutine.message

/-! ## Lemmas on maps -/

theorem GoMap.load_delete {V : Type} (m : GoMap V) (k k' : String) :
    (GoMap.delete m k).load k' = if k' = k then none else m.load k' := by
  induction m with
  | nil => simp [GoMap.delete, GoMap.load]
  | cons p rest ih =>
    obtain ⟨a, v⟩ := p
    simp only [GoMap.delete] at ih ⊢
    by_cases h : a = k
    · subst h
      simp only [List.filter, ne_eq, not_true_eq_false, decide_False, ih, GoMap.load]
      by_cases h2 : k' = a
      · simp [h2]
      · have h3 : ¬ a = k' := fun h => h2 h.symm
        simp [h2, h3]
    · simp only [List.filter, ne_eq, h, not_false_eq_true, decide_True, GoMap.load, ih]
      by_cases h2 : a = k'
      · subst h2
        simp [h]
      · simp [h2]

theorem GoMap.load_store {V : Type} (m : GoMap V) (k k' : String) (v : V) :
    (GoMap.store m k v).load k' = if k' = k then some v else m.load k' := by
  simp only [GoMap.store, GoMap.load, GoMap.load_delete]
  by_cases h : k = k'
  · subst h; simp
  · have h3 : ¬ k' = k := fun h' => h h'.symm
    simp [h, h3]

theorem list.Element.message?_of_value {e : list.Element} {m : network.Message}
    (h : e.Value = GoAny.message m) : e.message? = some m := by
  simp [list.Element.message?, h]

theorem list.Element.holdsID_of_value {e : list.Element} {m : network.Message}
    (h : e.Value = GoAny.message m) (id : String) : e.holdsID id = decide (m.ID = id) := by
  simp [list.Element.holdsID, h]

theorem heldIn_nil : heldIn [] = [] := rfl

theorem heldIn_cons_message (e : list.Element) (es : Sequence list.Element)
    (m : network.Message) (h : e.Value = GoAny.message m) :
    heldIn (e :: es) = m :: heldIn es := by
  simp [heldIn, List.filterMap_cons, list.Element.message?_of_value h]

theorem heldIn_append (es fs : Sequence list.Element) :
    heldIn (es ++ fs) = heldIn es ++ heldIn fs := by
  simp [heldIn, List.filterMap_append]

theorem heldIn_length (es : Sequence list.Element)
    (hv : ∀ e ∈ es, ∃ m, e.Value = GoAny.message m) :
    (heldIn es).length = es.length := by
  induction es with
  | nil => rfl
  | cons e es ih =>
    obtain ⟨m, hm⟩ := hv e (List.mem_cons_self _ _)
    rw [heldIn_cons_message e es m hm]
    simp [ih (fun x hx => hv x (List.mem_cons_of_mem _ hx))]

theorem appendMessages_eq (es : Sequence list.Element)
    (hv : ∀ e ∈ es, ∃ m, e.Value = GoAny.message m) (acc : List network.Message) :
    appendMessages es acc = .ok (acc ++ heldIn es) := by
  induction es generalizing acc with
  | nil => simp [appendMessages, heldIn_nil]
  | cons e es ih =>
    obtain ⟨m, hm⟩ := hv e (List.mem_cons_self _ _)
    rw [heldIn_cons_message e es m hm]
    simp [appendMessages, hm, GoAny.assertMessage,
      ih (fun x hx => hv x (List.mem_cons_of_mem _ hx))]

theorem find?_heldIn (es : Sequence list.Element)
    (hv : ∀ e ∈ es, ∃ m, e.Value = GoAny.message m) (id : String) :
    (heldIn es).find? (fun x => decide (x.ID = id)) =
      (es.find? (list.Element.holdsID id)).bind list.Element.message? := by
  induction es with
  | nil => rfl
  | cons e es ih =>
    obtain ⟨m, hm⟩ := hv e (List.mem_cons_self _ _)
    rw [heldIn_cons_message e es m hm]
    simp only [List.find?_cons, list.Element.holdsID_of_value hm]
    by_cases h : m.ID = id
    · simp [h, list.Element.message?_of_value hm]
    · simp [h, ih (fun x hx => hv x (List.mem_cons_of_mem _ hx))]

theorem has_heldIn (es : Sequence list.Element)
    (hv : ∀ e ∈ es, ∃ m, e.Value = GoAny.message m) (id : String) :
    Fifo.has (heldIn es) id = (es.find? (list.Element.holdsID id)).isSome := by
  induction es with
  | nil => rfl
  | cons e es ih =>
    obtain ⟨m, hm⟩ := hv e (List.mem_cons_self _ _)
    rw [heldIn_cons_message e es m hm]
    have ih' := ih (fun x hx => hv x (List.mem_cons_of_mem _ hx))
    simp only [Fifo.has] at ih' ⊢
    simp only [List.any_cons, List.find?_cons, list.Element.holdsID_of_value hm, ih']
    by_cases h : m.ID = id
    · simp [h]
    · simp [h]

theorem has_iff (xs : List network.Message) (id : String) :
    Fifo.has xs id = true ↔ ∃ x ∈ xs, x.ID = id := by
  simp [Fifo.has]

theorem has_eq_false_iff (xs : List network.Message) (id : String) :
    Fifo.has xs id = false ↔ ∀ x ∈ xs, x.ID ≠ id := by
  simp [Fifo.has]

/-! ## The index follows the list -/

theorem IndexInv.store_back {V : Type} {wrap : list.Element → V} {index : GoMap V}
    {es : Sequence list.Element} (h : IndexInv wrap index es) (a : Nat) (m : network.Message)
    (hnew : es.find? (list.Element.holdsID m.ID) = none) :
    IndexInv wrap (index.store m.ID (wrap ⟨a, GoAny.message m⟩))
      (es ++ [⟨a, GoAny.message m⟩]) := by
  intro id
  rw [GoMap.load_store, List.find?_append]
  by_cases hid : id = m.ID
  · subst hid
    simp [hnew, list.Element.holdsID]
  · have hid' : ¬ m.ID = id := fun h' => hid h'.symm
    simp [hid, h id, list.Element.holdsID, hid']

theorem IndexInv.popFront {V : Type} {wrap : list.Element → V} {index : GoMap V}
    {o : list.Element} {rest : Sequence list.Element} (h : IndexInv wrap index (o :: rest))
    (mo : network.Message) (ho : o.Value = GoAny.message mo)
    (hrest : rest.find? (list.Element.holdsID mo.ID) = none) :
    IndexInv wrap (index.delete mo.ID) rest := by
  intro id
  rw [GoMap.load_delete]
  by_cases hid : id = mo.ID
  · subst hid
    simp [hrest]
  · have hid' : ¬ mo.ID = id := fun h' => hid h'.symm
    simp [hid, h id, List.find?_cons, list.Element.holdsID_of_value ho, hid']

theorem find?_holdsID_none_of_nodup (o : list.Element) (rest : Sequence list.Element)
    (mo : network.Message) (ho : o.Value = GoAny.message mo)
    (hv : ∀ e ∈ rest, ∃ m, e.Value = GoAny.message m)
    (hids : ((heldIn (o :: rest)).map (fun m => m.ID)).Nodup) :
    rest.find? (list.Element.holdsID mo.ID) = none := by
  rw [heldIn_cons_message o rest mo ho, List.map_cons, List.nodup_cons] at hids
  rw [List.find?_eq_none]
  intro e he hh
  obtain ⟨m, hm⟩ := hv e he
  rw [list.Element.holdsID_of_value hm] at hh
  have hmid : m.ID = mo.ID := by simpa using hh
  apply hids.1
  rw [← hmid]
  apply List.mem_map_of_mem
  simp only [heldIn, List.mem_filterMap]
  exact ⟨e, he, list.Element.message?_of_value hm⟩

/-- Unlinking the element an id is indexed under: the shape of the list around it. -/
theorem eraseP_of_find? (es : Sequence list.Element) (id : String) (e : list.Element)
    (hfind : es.find? (list.Element.holdsID id) = some e)
    (haddrs : (es.map (fun e => e.addr)).Nodup) :
    ∃ pre post, es = pre ++ e :: post ∧ (∀ x ∈ pre, list.Element.holdsID id x = false) ∧
      list.Element.holdsID id e = true ∧
      es.eraseP (fun x => x.addr == e.addr) = pre ++ post := by
  rw [List.find?_eq_some] at hfind
  obtain ⟨he, pre, post, hes, hpre⟩ := hfind
  refine ⟨pre, post, hes, ?_, he, ?_⟩
  · intro x hx
    simpa using hpre x hx
  · subst hes
    rw [List.eraseP_append_right]
    · simp
    · intro x hx hxe
      simp only [List.map_append, List.map_cons] at haddrs
      have hdis := (List.nodup_append.mp haddrs).2.2
      have h1 : x.addr ∈ pre.map (fun e => e.addr) := List.mem_map_of_mem _ hx
      have h2 : x.addr ∈ e.addr :: post.map (fun e => e.addr) := by
        have : x.addr = e.addr := by simpa using hxe
        rw [this]; exact List.mem_cons_self _ _
      exact hdis h1 h2

theorem IndexInv.erase {V : Type} {wrap : list.Element → V} {index : GoMap V}
    {pre post : Sequence list.Element} {e : list.Element} {id : String}
    (h : IndexInv wrap index (pre ++ e :: post))
    (hpre : ∀ x ∈ pre, list.Element.holdsID id x = false)
    (he : list.Element.holdsID id e = true)
    (hpost : post.find? (list.Element.holdsID id) = none) :
    IndexInv wrap (index.delete id) (pre ++ post) := by
  intro id'
  rw [GoMap.load_delete]
  by_cases hid : id' = id
  · subst hid
    have h1 : pre.find? (list.Element.holdsID id') = none := by
      rw [List.find?_eq_none]
      intro x hx; simp [hpre x hx]
    simp [List.find?_append, h1, hpost]
  · have he' : list.Element.holdsID id' e = false := by
      unfold list.Element.holdsID at he ⊢
      split at he
      · next m hm =>
        have : m.ID = id := by simpa using he
        have hne : ¬ m.ID = id' := by rw [this]; exact fun h' => hid h'.symm
        simp [hne]
      · simp at he
    simp [hid, h id', List.find?_append, List.find?_cons, he']

theorem heldIn_erase (pre post : Sequence list.Element) (e : list.Element) (id : String)
    (hv : ∀ x ∈ pre ++ e :: post, ∃ m, x.Value = GoAny.message m)
    (hpre : ∀ x ∈ pre, list.Element.holdsID id x = false)
    (he : list.Element.holdsID id e = true) :
    heldIn (pre ++ post) =
      (heldIn (pre ++ e :: post)).eraseP (fun x => decide (x.ID = id)) := by
  obtain ⟨m, hm⟩ := hv e (by simp)
  rw [heldIn_append, heldIn_append, heldIn_cons_message e post m hm,
    List.eraseP_append_right]
  · rw [List.eraseP_cons_of_pos]
    rw [list.Element.holdsID_of_value hm] at he
    exact he
  · intro x hx
    simp only [heldIn, List.mem_filterMap] at hx
    obtain ⟨y, hy, hyx⟩ := hx
    obtain ⟨my, hmy⟩ := hv y (by simp [hy])
    rw [list.Element.message?_of_value hmy] at hyx
    have := hpre y hy
    rw [list.Element.holdsID_of_value hmy] at this
    cases hyx
    simpa using this

/-! ## The list invariant is kept -/

theorem ListInv.new (C : Int) : ListInv C list.New := by
  constructor <;> simp [list.New, heldIn]

theorem ListInv.sublist {C : Int} {l : list.List} (h : ListInv C l)
    (es : Sequence list.Element) (hs : List.Sublist es l.elems) :
    ListInv C { l with elems := es } where
  values := fun e he => h.values e (hs.subset he)
  addrs := h.addrs.sublist (hs.map _)
  fresh := fun e he => h.fresh e (hs.subset he)
  ids := h.ids.sublist ((hs.filterMap _).map _)
  bound := le_trans (by exact_mod_cast hs.length_le) h.bound

theorem ListInv.pushBack {C : Int} {l : list.List} (h : ListInv C l) (m : network.Message)
    (hnew : l.elems.find? (list.Element.holdsID m.ID) = none)
    (hroom : (l.elems.length : Int) + 1 ≤ max C 0) :
    ListInv C (l.PushBack (GoAny.message m)).1 where
  values := by
    intro e he
    simp only [list.List.PushBack, List.mem_append, List.mem_singleton] at he
    rcases he with he | he
    · exact h.values e he
    · exact ⟨m, by rw [he]⟩
  addrs := by
    simp only [list.List.PushBack, List.map_append, List.map_cons, List.map_nil]
    rw [List.nodup_append]
    refine ⟨h.addrs, by simp, ?_⟩
    intro a ha hb
    simp only [List.mem_map] at ha
    obtain ⟨e, he, hea⟩ := ha
    have := h.fresh e he
    simp only [List.mem_singleton] at hb
    omega
  fresh := by
    intro e he
    simp only [list.List.PushBack, List.mem_append, List.mem_singleton] at he ⊢
    rcases he with he | he
    · have := h.fresh e he; omega
    · rw [he]; simp
  ids := by
    simp only [list.List.PushBack, heldIn_append]
    rw [heldIn_cons_message _ [] m rfl, heldIn_nil, List.map_append, List.nodup_append]
    refine ⟨h.ids, by simp, ?_⟩
    intro a ha hb
    simp only [List.map_cons, List.map_nil, List.mem_singleton] at hb
    subst hb
    simp only [List.mem_map] at ha
    obtain ⟨x, hx, hxa⟩ := ha
    have hfind := find?_heldIn l.elems h.values m.ID
    rw [hnew] at hfind
    simp only [Option.bind_none, Option.none_bind, List.find?_eq_none] at hfind
    exact hfind x hx (by simpa using hxa)
  bound := by
    simp only [list.List.PushBack, List.length_append, List.length_singleton]
    push_cast
    exact hroom

/-! ## `singlemap`: each method against the FIFO sequence -/

theorem singlemap.Tracker.Add_ok_singlemap (t : singlemap.Tracker) (h : t.Inv) (m : network.Message)
    (ys : List network.Message)
    (hs : Fifo.add t.length (heldIn t.list.elems) m = .ok ys) :
    ∃ t', t.Add m = .ok (t', none) ∧ t'.Inv ∧ heldIn t'.list.elems = ys ∧
      t'.length = t.length := by
  have hhas := has_heldIn t.list.elems h.list.values m.ID
  have hload := h.index m.ID
  have hlen := heldIn_length t.list.elems h.list.values
  unfold Fifo.add at hs
  split at hs
  · -- the id is known: nothing happens
    next hk =>
    rw [hk] at hhas
    obtain ⟨e, he⟩ := Option.isSome_iff_exists.mp hhas.symm
    rw [he] at hload
    refine ⟨t, ?_, h, ?_, rfl⟩
    · simp [singlemap.Tracker.Add, hload]
    · cases hs; rfl
  · next hk =>
    have hk' : Fifo.has (heldIn t.list.elems) m.ID = false := by simpa using hk
    rw [hk'] at hhas
    have hnone : t.list.elems.find? (list.Element.holdsID m.ID) = none := by
      cases hf : t.list.elems.find? (list.Element.holdsID m.ID) with
      | none => rfl
      | some e => rw [hf] at hhas; simp at hhas
    rw [hnone] at hload
    simp only [Option.map_none'] at hload
    split at hs
    · -- the list is full: the front element goes
      next hfull =>
      rw [hlen] at hfull
      cases hes : t.list.elems with
      | nil => rw [hes] at hs; simp [heldIn] at hs
      | cons o rest =>
        obtain ⟨mo, hmo⟩ := h.list.values o (by rw [hes]; exact List.mem_cons_self _ _)
        have hvrest : ∀ e ∈ rest, ∃ m, e.Value = GoAny.message m := fun e he =>
          h.list.values e (by rw [hes]; exact List.mem_cons_of_mem _ he)
        have hids := h.list.ids
        rw [hes] at hids hnone hfull
        have hrest := find?_holdsID_none_of_nodup o rest mo hmo hvrest hids
        rw [hes, heldIn_cons_message o rest mo hmo] at hs
        simp only [Except.ok.injEq] at hs
        have hsub : ListInv t.length { t.list with elems := rest } :=
          h.list.sublist rest (by rw [hes]; exact List.sublist_cons_self _ _)
        have hnone' : rest.find? (list.Element.holdsID m.ID) = none := by
          rw [List.find?_cons] at hnone
          split at hnone
          · simp at hnone
          · exact hnone
        have hb := h.list.bound
        rw [hes] at hb
        simp only [List.length_cons, Nat.cast_add, Nat.cast_one] at hb hfull
        have hpush := hsub.pushBack m hnone' (by simp only []; omega)
        have hidx := h.index
        rw [hes] at hidx
        have hidx' := (hidx.popFront mo hmo hrest).store_back t.list.allocated m hnone'
        refine ⟨{ t with
            list := ((list.List.mk rest t.list.allocated).PushBack (GoAny.message m)).1,
            listMap := (t.listMap.delete mo.ID).store m.ID
              (some ⟨t.list.allocated, GoAny.message m⟩),
            messages := none }, ?_, ⟨hpush, ?_, ?_⟩, ?_, rfl⟩
        · simp [singlemap.Tracker.Add, hload, list.List.Len, list.List.Front, hes, hfull,
            list.List.Remove, list.List.owns, list.Element.deref, hmo, GoAny.assertMessage,
            list.List.PushBack, list.List.Back, bind, Except.bind, pure, Except.pure]
        · exact hidx'
        · intro xs hxs; simp at hxs
        · simp only [list.List.PushBack, heldIn_append]
          rw [heldIn_cons_message _ [] m rfl, heldIn_nil, hs]
    · -- there is room
      next hroom =>
      rw [hlen] at hroom
      simp only [Except.ok.injEq] at hs
      have hpush := h.list.pushBack m hnone (by omega)
      have hidx' := h.index.store_back t.list.allocated m hnone
      refine ⟨{ t with
          list := (t.list.PushBack (GoAny.message m)).1,
          listMap := t.listMap.store m.ID (some ⟨t.list.allocated, GoAny.message m⟩),
          messages := none }, ?_, ⟨hpush, ?_, ?_⟩, ?_, rfl⟩
      · have : ¬ t.length ≤ t.list.Len := by simpa [list.List.Len] using hroom
        simp [singlemap.Tracker.Add, hload, this, list.List.PushBack, list.List.Back,
          bind, Except.bind, pure, Except.pure]
      · exact hidx'
      · intro xs hxs; simp at hxs
      · simp only [list.List.PushBack, heldIn_append]
        rw [heldIn_cons_message _ [] m rfl, heldIn_nil, hs]

theorem singlemap.Tracker.Add_error_singlemap (t : singlemap.Tracker) (h : t.Inv)
    (m : network.Message) (p : Panic)
    (hs : Fifo.add t.length (heldIn t.list.elems) m = .error p) : t.Add m = .error p := by
  have hhas := has_heldIn t.list.elems h.list.values m.ID
  have hload := h.index m.ID
  have hlen := heldIn_length t.list.elems h.list.values
  unfold Fifo.add at hs
  split at hs
  · cases hs
  · next hk =>
    have hk' : Fifo.has (heldIn t.list.elems) m.ID = false := by simpa using hk
    rw [hk'] at hhas
    have hnone : t.list.elems.find? (list.Element.holdsID m.ID) = none := by
      cases hf : t.list.elems.find? (list.Element.holdsID m.ID) with
      | none => rfl
      | some e => rw [hf] at hhas; simp at hhas
    rw [hnone] at hload
    simp only [Option.map_none'] at hload
    split at hs
    · next hfull =>
      rw [hlen] at hfull
      cases hes : t.list.elems with
      | nil =>
        rw [hes] at hs hfull
        simp only [heldIn_nil, Except.error.injEq] at hs
        subst hs
        simp only [List.length_nil, Nat.cast_zero] at hfull
        simp [singlemap.Tracker.Add, hload, list.List.Len, list.List.Front, hes, hfull,
          list.List.Remove, bind, Except.bind]
      | cons o rest =>
        obtain ⟨mo, hmo⟩ := h.list.values o (by rw [hes]; exact List.mem_cons_self _ _)
        rw [hes, heldIn_cons_message o rest mo hmo] at hs
        cases hs
    · cases hs

theorem singlemap.Tracker.Delete_eq_singlemap (t : singlemap.Tracker) (h : t.Inv) (id : String) :
    ∃ t', t.Delete id = .ok (t', (Fifo.delete (heldIn t.list.elems) id).2) ∧ t'.Inv ∧
      heldIn t'.list.elems = (Fifo.delete (heldIn t.list.elems) id).1 ∧
      t'.length = t.length ∧ (Fifo.has (heldIn t.list.elems) id = false → t' = t) := by
  have hhas := has_heldIn t.list.elems h.list.values id
  have hload := h.index id
  cases hf : t.list.elems.find? (list.Element.holdsID id) with
  | none =>
    rw [hf] at hhas hload
    simp only [Option.isSome_none] at hhas
    simp only [Option.map_none'] at hload
    refine ⟨t, ?_, h, ?_, rfl, fun _ => rfl⟩
    · simp [singlemap.Tracker.Delete, hload, Fifo.delete, hhas]
    · simp [Fifo.delete, hhas]
  | some e =>
    rw [hf] at hhas hload
    simp only [Option.isSome_some] at hhas
    simp only [Option.map_some'] at hload
    obtain ⟨pre, post, hes, hpre, he, herase⟩ :=
      eraseP_of_find? t.list.elems id e hf h.list.addrs
    have hmem : e ∈ t.list.elems := by rw [hes]; simp
    have howns : t.list.owns e = true := by
      simp only [list.List.owns, List.any_eq_true]
      exact ⟨e, hmem, by simp⟩
    have hsub : List.Sublist (pre ++ post) t.list.elems := by
      rw [hes]
      exact List.Sublist.append (List.Sublist.refl _) (List.sublist_cons_self _ _)
    have hv := h.list.values
    rw [hes] at hv
    obtain ⟨me, hme⟩ := hv e (by simp)
    have hpost : post.find? (list.Element.holdsID id) = none := by
      have hids := h.list.ids
      rw [hes, heldIn_append, List.map_append] at hids
      have hids' := (List.nodup_append.mp hids).2.1
      have := find?_holdsID_none_of_nodup e post me hme
        (fun x hx => hv x (by simp [hx])) hids'
      rw [list.Element.holdsID_of_value hme] at he
      have hid : me.ID = id := by simpa using he
      rw [hid] at this
      exact this
    have hidx := h.index
    rw [hes] at hidx
    refine ⟨{ t with list := { t.list with elems := pre ++ post },
                     listMap := t.listMap.delete id, messages := none },
      ?_, ⟨h.list.sublist _ hsub, hidx.erase hpre he hpost, ?_⟩, ?_, rfl, ?_⟩
    · simp [singlemap.Tracker.Delete, hload, list.List.Remove, howns, herase, Fifo.delete,
        hhas, bind, Except.bind, pure, Except.pure]
    · intro xs hxs; simp at hxs
    · simp only [Fifo.delete, hhas, if_true]
      rw [hes]
      exact heldIn_erase pre post e id hv hpre he
    · intro hno; rw [hno] at hhas; cases hhas

theorem singlemap.Tracker.Message_eq_singlemap (t : singlemap.Tracker) (h : t.Inv) (id : String) :
    t.Message id = .ok (Fifo.get (heldIn t.list.elems) id) := by
  have hfind := find?_heldIn t.list.elems h.list.values id
  have hload := h.index id
  cases hf : t.list.elems.find? (list.Element.holdsID id) with
  | none =>
    rw [hf] at hfind hload
    simp only [Option.map_none'] at hload
    simp only [Option.none_bind] at hfind
    simp [singlemap.Tracker.Message, hload, Fifo.get, hfind]
  | some e =>
    rw [hf] at hfind hload
    simp only [Option.map_some'] at hload
    obtain ⟨me, hme⟩ := h.list.values e (List.mem_of_find?_eq_some hf)
    simp only [Option.some_bind, list.Element.message?_of_value hme] at hfind
    simp [singlemap.Tracker.Message, hload, Fifo.get, hfind, list.Element.deref, hme,
      GoAny.assertMessage, bind, Except.bind, pure, Except.pure]

theorem singlemap.Tracker.Messages_eq_singlemap (t : singlemap.Tracker) (h : t.Inv) :
    ((0 ≤ t.length ∧ t.length ≤ maxCap) ∧
      ∃ t', t.Messages = .ok (t', heldIn t.list.elems) ∧ t'.Inv ∧
        heldIn t'.list.elems = heldIn t.list.elems ∧ t'.length = t.length) ∨
    (¬ (0 ≤ t.length ∧ t.length ≤ maxCap) ∧ t.Messages = .error .makeslice) := by
  cases hc : t.messages with
  | some xs =>
    left
    refine ⟨(h.cache xs hc).2, t, ?_, h, rfl, rfl⟩
    simp [singlemap.Tracker.Messages, hc, (h.cache xs hc).1]
  | none =>
    by_cases hfit : 0 ≤ t.length ∧ t.length ≤ maxCap
    · left
      have hno : ¬ (t.length < 0 ∨ maxCap < t.length) := by omega
      refine ⟨hfit, { t with messages := some (heldIn t.list.elems) }, ?_,
        ⟨h.list, h.index, ?_⟩, rfl, rfl⟩
      · simp [singlemap.Tracker.Messages, hc, makeMessages, hno,
          appendMessages_eq t.list.elems h.list.values, bind, Except.bind, pure, Except.pure]
      · intro xs hxs
        simp only [Option.some.injEq] at hxs
        exact ⟨hxs.symm, hfit⟩
    · right
      have hyes : t.length < 0 ∨ maxCap < t.length := by omega
      refine ⟨hfit, ?_⟩
      simp [singlemap.Tracker.Messages, hc, makeMessages, hyes, bind, Except.bind]

/-! ## `syncmap`: each method against the FIFO sequence -/

theorem syncmap.Tracker.Add_ok_syncmap (t : syncmap.Tracker) (h : t.Inv) (m : network.Message)
    (ys : List network.Message)
    (hs : Fifo.add t.length (heldIn t.list.elems) m = .ok ys) :
    ∃ t', t.Add m = .ok (t', none) ∧ t'.Inv ∧ heldIn t'.list.elems = ys ∧
      t'.length = t.length := by
  have hhas := has_heldIn t.list.elems h.list.values m.ID
  have hload := h.index m.ID
  have hlen := heldIn_length t.list.elems h.list.values
  unfold Fifo.add at hs
  split at hs
  · -- the id is known: nothing happens
    next hk =>
    rw [hk] at hhas
    obtain ⟨e, he⟩ := Option.isSome_iff_exists.mp hhas.symm
    rw [he] at hload
    refine ⟨t, ?_, h, ?_, rfl⟩
    · simp [syncmap.Tracker.Add, hload]
    · cases hs; rfl
  · next hk =>
    have hk' : Fifo.has (heldIn t.list.elems) m.ID = false := by simpa using hk
    rw [hk'] at hhas
    have hnone : t.list.elems.find? (list.Element.holdsID m.ID) = none := by
      cases hf : t.list.elems.find? (list.Element.holdsID m.ID) with
      | none => rfl
      | some e => rw [hf] at hhas; simp at hhas
    rw [hnone] at hload
    simp only [Option.map_none'] at hload
    split at hs
    · -- the list is full: the front element goes
      next hfull =>
      rw [hlen] at hfull
      cases hes : t.list.elems with
      | nil => rw [hes] at hs; simp [heldIn] at hs
      | cons o rest =>
        obtain ⟨mo, hmo⟩ := h.list.values o (by rw [hes]; exact List.mem_cons_self _ _)
        have hvrest : ∀ e ∈ rest, ∃ m, e.Value = GoAny.message m := fun e he =>
          h.list.values e (by rw [hes]; exact List.mem_cons_of_mem _ he)
        have hids := h.list.ids
        rw [hes] at hids hnone hfull
        have hrest := find?_holdsID_none_of_nodup o rest mo hmo hvrest hids
        rw [hes, heldIn_cons_message o rest mo hmo] at hs
        simp only [Except.ok.injEq] at hs
        have hsub : ListInv t.length { t.list with elems := rest } :=
          h.list.sublist rest (by rw [hes]; exact List.sublist_cons_self _ _)
        have hnone' : rest.find? (list.Element.holdsID m.ID) = none := by
          rw [List.find?_cons] at hnone
          split at hnone
          · simp at hnone
          · exact hnone
        have hb := h.list.bound
        rw [hes] at hb
        simp only [List.length_cons, Nat.cast_add, Nat.cast_one] at hb hfull
        have hpush := hsub.pushBack m hnone' (by simp only []; omega)
        have hidx := h.index
        rw [hes] at hidx
        have hidx' := (hidx.popFront mo hmo hrest).store_back t.list.allocated m hnone'
        refine ⟨{ t with
            list := ((list.List.mk rest t.list.allocated).PushBack (GoAny.message m)).1,
            listMap := (t.listMap.delete mo.ID).store m.ID
              (GoAny.element t.list.allocated (GoAny.message m)),
            messages := none }, ?_, ⟨hpush, ?_, ?_⟩, ?_, rfl⟩
        · simp [syncmap.Tracker.Add, hload, list.List.Len, list.List.Front, hes, hfull,
            list.List.Remove, list.List.owns, list.Element.deref, hmo, GoAny.assertMessage,
            list.List.PushBack, list.List.Back, GoAny.ofElement, bind, Except.bind, pure, Except.pure]
        · exact hidx'
        · intro xs hxs; simp at hxs
        · simp only [list.List.PushBack, heldIn_append]
          rw [heldIn_cons_message _ [] m rfl, heldIn_nil, hs]
    · -- there is room
      next hroom =>
      rw [hlen] at hroom
      simp only [Except.ok.injEq] at hs
      have hpush := h.list.pushBack m hnone (by omega)
      have hidx' := h.index.store_back t.list.allocated m hnone
      refine ⟨{ t with
          list := (t.list.PushBack (GoAny.message m)).1,
          listMap := t.listMap.store m.ID (GoAny.element t.list.allocated (GoAny.message m)),
          messages := none }, ?_, ⟨hpush, ?_, ?_⟩, ?_, rfl⟩
      · have : ¬ t.length ≤ t.list.Len := by simpa [list.List.Len] using hroom
        simp [syncmap.Tracker.Add, hload, this, list.List.PushBack, list.List.Back,
          GoAny.ofElement, bind, Except.bind, pure, Except.pure]
      · exact hidx'
      · intro xs hxs; simp at hxs
      · simp only [list.List.PushBack, heldIn_append]
        rw [heldIn_cons_message _ [] m rfl, heldIn_nil, hs]

theorem syncmap.Tracker.Add_error_syncmap (t : syncmap.Tracker) (h : t.Inv)
    (m : network.Message) (p : Panic)
    (hs : Fifo.add t.length (heldIn t.list.elems) m = .error p) : t.Add m = .error p := by
  have hhas := has_heldIn t.list.elems h.list.values m.ID
  have hload := h.index m.ID
  have hlen := heldIn_length t.list.elems h.list.values
  unfold Fifo.add at hs
  split at hs
  · cases hs
  · next hk =>
    have hk' : Fifo.has (heldIn t.list.elems) m.ID = false := by simpa using hk
    rw [hk'] at hhas
    have hnone : t.list.elems.find? (list.Element.holdsID m.ID) = none := by
      cases hf : t.list.elems.find? (list.Element.holdsID m.ID) with
      | none => rfl
      | some e => rw [hf] at hhas; simp at hhas
    rw [hnone] at hload
    simp only [Option.map_none'] at hload
    split at hs
    · next hfull =>
      rw [hlen] at hfull
      cases hes : t.list.elems with
      | nil =>
        rw [hes] at hs hfull
        simp only [heldIn_nil, Except.error.injEq] at hs
        subst hs
        simp only [List.length_nil, Nat.cast_zero] at hfull
        simp [syncmap.Tracker.Add, hload, list.List.Len, list.List.Front, hes, hfull,
          list.List.Remove, bind, Except.bind]
      | cons o rest =>
        obtain ⟨mo, hmo⟩ := h.list.values o (by rw [hes]; exact List.mem_cons_self _ _)
        rw [hes, heldIn_cons_message o rest mo hmo] at hs
        cases hs
    · cases hs

theorem syncmap.Tracker.Delete_eq_syncmap (t : syncmap.Tracker) (h : t.Inv) (id : String) :
    ∃ t', t.Delete id = .ok (t', (Fifo.delete (heldIn t.list.elems) id).2) ∧ t'.Inv ∧
      heldIn t'.list.elems = (Fifo.delete (heldIn t.list.elems) id).1 ∧
      t'.length = t.length ∧ (Fifo.has (heldIn t.list.elems) id = false → t' = t) := by
  have hhas := has_heldIn t.list.elems h.list.values id
  have hload := h.index id
  cases hf : t.list.elems.find? (list.Element.holdsID id) with
  | none =>
    rw [hf] at hhas hload
    simp only [Option.isSome_none] at hhas
    simp only [Option.map_none'] at hload
    refine ⟨t, ?_, h, ?_, rfl, fun _ => rfl⟩
    · simp [syncmap.Tracker.Delete, hload, Fifo.delete, hhas]
    · simp [Fifo.delete, hhas]
  | some e =>
    rw [hf] at hhas hload
    simp only [Option.isSome_some] at hhas
    simp only [Option.map_some'] at hload
    obtain ⟨pre, post, hes, hpre, he, herase⟩ :=
      eraseP_of_find? t.list.elems id e hf h.list.addrs
    have hmem : e ∈ t.list.elems := by rw [hes]; simp
    have howns : t.list.owns e = true := by
      simp only [list.List.owns, List.any_eq_true]
      exact ⟨e, hmem, by simp⟩
    have hsub : List.Sublist (pre ++ post) t.list.elems := by
      rw [hes]
      exact List.Sublist.append (List.Sublist.refl _) (List.sublist_cons_self _ _)
    have hv := h.list.values
    rw [hes] at hv
    obtain ⟨me, hme⟩ := hv e (by simp)
    have hpost : post.find? (list.Element.holdsID id) = none := by
      have hids := h.list.ids
      rw [hes, heldIn_append, List.map_append] at hids
      have hids' := (List.nodup_append.mp hids).2.1
      have := find?_holdsID_none_of_nodup e post me hme
        (fun x hx => hv x (by simp [hx])) hids'
      rw [list.Element.holdsID_of_value hme] at he
      have hid : me.ID = id := by simpa using he
      rw [hid] at this
      exact this
    have hidx := h.index
    rw [hes] at hidx
    refine ⟨{ t with list := { t.list with elems := pre ++ post },
                     listMap := t.listMap.delete id, messages := none },
      ?_, ⟨h.list.sublist _ hsub, hidx.erase hpre he hpost, ?_⟩, ?_, rfl, ?_⟩
    · simp [syncmap.Tracker.Delete, hload, GoAny.assertElement, list.List.Remove, howns, herase, Fifo.delete,
        hhas, bind, Except.bind, pure, Except.pure]
    · intro xs hxs; simp at hxs
    · simp only [Fifo.delete, hhas, if_true]
      rw [hes]
      exact heldIn_erase pre post e id hv hpre he
    · intro hno; rw [hno] at hhas; cases hhas

theorem syncmap.Tracker.Message_eq_syncmap (t : syncmap.Tracker) (h : t.Inv) (id : String) :
    t.Message id = .ok (Fifo.get (heldIn t.list.elems) id) := by
  have hfind := find?_heldIn t.list.elems h.list.values id
  have hload := h.index id
  cases hf : t.list.elems.find? (list.Element.holdsID id) with
  | none =>
    rw [hf] at hfind hload
    simp only [Option.map_none'] at hload
    simp only [Option.none_bind] at hfind
    simp [syncmap.Tracker.Message, hload, Fifo.get, hfind]
  | some e =>
    rw [hf] at hfind hload
    simp only [Option.map_some'] at hload
    obtain ⟨me, hme⟩ := h.list.values e (List.mem_of_find?_eq_some hf)
    simp only [Option.some_bind, list.Element.message?_of_value hme] at hfind
    simp [syncmap.Tracker.Message, hload, Fifo.get, hfind, GoAny.assertElement, list.Element.deref, hme,
      GoAny.assertMessage, bind, Except.bind, pure, Except.pure]

theorem syncmap.Tracker.Messages_eq_syncmap (t : syncmap.Tracker) (h : t.Inv) :
    ((0 ≤ t.list.Len ∧ t.list.Len ≤ maxCap) ∧
      ∃ t', t.Messages = .ok (t', heldIn t.list.elems) ∧ t'.Inv ∧
        heldIn t'.list.elems = heldIn t.list.elems ∧ t'.length = t.length) ∨
    (¬ (0 ≤ t.list.Len ∧ t.list.Len ≤ maxCap) ∧ t.Messages = .error .makeslice) := by
  cases hc : t.messages with
  | some xs =>
    left
    refine ⟨(h.cache xs hc).2, t, ?_, h, rfl, rfl⟩
    simp [syncmap.Tracker.Messages, hc, (h.cache xs hc).1]
  | none =>
    by_cases hfit : 0 ≤ t.list.Len ∧ t.list.Len ≤ maxCap
    · left
      have hno : ¬ (t.list.Len < 0 ∨ maxCap < t.list.Len) := by omega
      refine ⟨hfit, { t with messages := some (heldIn t.list.elems) }, ?_,
        ⟨h.list, h.index, ?_⟩, rfl, rfl⟩
      · simp [syncmap.Tracker.Messages, hc, makeMessages, hno,
          appendMessages_eq t.list.elems h.list.values, bind, Except.bind, pure, Except.pure]
      · intro xs hxs
        simp only [Option.some.injEq] at hxs
        exact ⟨hxs.symm, hfit⟩
    · right
      have hyes : t.list.Len < 0 ∨ maxCap < t.list.Len := by omega
      refine ⟨hfit, ?_⟩
      simp [syncmap.Tracker.Messages, hc, makeMessages, hyes, bind, Except.bind]

/-! ## The interface: each method against the FIFO sequence -/

theorem getTrackerMethods_cases (creator : Int → network.MessageTracker)
    (hc : creator ∈ getTrackerMethods) :
    creator = singlemap.NewMessageTracker ∨ creator = syncmap.NewMessageTracker := by
  simpa [getTrackerMethods] using hc

theorem network.MessageTracker.new_inv (creator : Int → network.MessageTracker)
    (hc : creator ∈ getTrackerMethods) (C : Int) :
    (creator C).Inv ∧ (creator C).held = [] ∧ (creator C).capacity = C := by
  rcases getTrackerMethods_cases creator hc with h | h <;> subst h
  · refine ⟨⟨ListInv.new C, ?_, ?_⟩, rfl, rfl⟩
    · intro id; rfl
    · intro xs hxs; cases hxs
  · refine ⟨⟨ListInv.new C, ?_, ?_⟩, rfl, rfl⟩
    · intro id; rfl
    · intro xs hxs; cases hxs

theorem network.MessageTracker.Add_ok (mt : network.MessageTracker) (h : mt.Inv)
    (m : network.Message) (ys : List network.Message)
    (hs : Fifo.add mt.capacity mt.held m = .ok ys) :
    ∃ mt', mt.Add m = .ok (mt', none) ∧ mt'.Inv ∧ mt'.held = ys ∧
      mt'.capacity = mt.capacity := by
  cases mt with
  | singlemap t =>
    obtain ⟨t', h1, h2, h3, h4⟩ := singlemap.Tracker.Add_ok_singlemap t h m ys hs
    exact ⟨.singlemap t', by simp [network.MessageTracker.Add, h1, Except.map], h2, h3, h4⟩
  | syncmap t =>
    obtain ⟨t', h1, h2, h3, h4⟩ := syncmap.Tracker.Add_ok_syncmap t h m ys hs
    exact ⟨.syncmap t', by simp [network.MessageTracker.Add, h1, Except.map], h2, h3, h4⟩

theorem network.MessageTracker.Add_error (mt : network.MessageTracker) (h : mt.Inv)
    (m : network.Message) (p : Panic)
    (hs : Fifo.add mt.capacity mt.held m = .error p) : mt.Add m = .error p := by
  cases mt with
  | singlemap t =>
    simp [network.MessageTracker.Add, singlemap.Tracker.Add_error_singlemap t h m p hs, Except.map]
  | syncmap t =>
    simp [network.MessageTracker.Add, syncmap.Tracker.Add_error_syncmap t h m p hs, Except.map]

theorem network.MessageTracker.Delete_eq (mt : network.MessageTracker) (h : mt.Inv)
    (id : String) :
    ∃ mt', mt.Delete id = .ok (mt', (Fifo.delete mt.held id).2) ∧ mt'.Inv ∧
      mt'.held = (Fifo.delete mt.held id).1 ∧ mt'.capacity = mt.capacity ∧
      (Fifo.has mt.held id = false → mt' = mt) := by
  cases mt with
  | singlemap t =>
    obtain ⟨t', h1, h2, h3, h4, h5⟩ := singlemap.Tracker.Delete_eq_singlemap t h id
    refine ⟨.singlemap t', ?_, h2, h3, h4, fun hn => by rw [h5 hn]⟩
    simp [network.MessageTracker.Delete, h1, Except.map, network.MessageTracker.held]
  | syncmap t =>
    obtain ⟨t', h1, h2, h3, h4, h5⟩ := syncmap.Tracker.Delete_eq_syncmap t h id
    refine ⟨.syncmap t', ?_, h2, h3, h4, fun hn => by rw [h5 hn]⟩
    simp [network.MessageTracker.Delete, h1, Except.map, network.MessageTracker.held]

theorem network.MessageTracker.Message_eq (mt : network.MessageTracker) (h : mt.Inv)
    (id : String) : mt.Message id = .ok (Fifo.get mt.held id) := by
  cases mt with
  | singlemap t => exact singlemap.Tracker.Message_eq_singlemap t h id
  | syncmap t => exact syncmap.Tracker.Message_eq_syncmap t h id

theorem network.MessageTracker.Messages_eq (mt : network.MessageTracker) (h : mt.Inv) :
    (mt.fits ∧ ∃ mt', mt.Messages = .ok (mt', mt.held) ∧ mt'.Inv ∧ mt'.held = mt.held ∧
      mt'.capacity = mt.capacity ∧ mt'.isSinglemap = mt.isSinglemap) ∨
    (¬ mt.fits ∧ mt.Messages = .error .makeslice) := by
  cases mt with
  | singlemap t =>
    rcases singlemap.Tracker.Messages_eq_singlemap t h with
      ⟨hf, t', h1, h2, h3, h4⟩ | ⟨h1, h2⟩
    · left
      exact ⟨hf, .singlemap t',
        by simp [network.MessageTracker.Messages, h1, Except.map, network.MessageTracker.held],
        h2, h3, h4, rfl⟩
    · right
      exact ⟨h1, by simp [network.MessageTracker.Messages, h2, Except.map]⟩
  | syncmap t =>
    rcases syncmap.Tracker.Messages_eq_syncmap t h with
      ⟨hf, t', h1, h2, h3, h4⟩ | ⟨h1, h2⟩
    · left
      exact ⟨hf, .syncmap t',
        by simp [network.MessageTracker.Messages, h1, Except.map, network.MessageTracker.held],
        h2, h3, h4, rfl⟩
    · right
      exact ⟨h1, by simp [network.MessageTracker.Messages, h2, Except.map]⟩

theorem network.MessageTracker.Messages_ok (mt : network.MessageTracker) (h : mt.Inv)
    (hf : mt.fits) :
    ∃ mt', mt.Messages = .ok (mt', mt.held) ∧ mt'.Inv ∧ mt'.held = mt.held ∧
      mt'.capacity = mt.capacity := by
  rcases mt.Messages_eq h with ⟨_, mt', h1, h2, h3, h4, _⟩ | ⟨h1, _⟩
  · exact ⟨mt', h1, h2, h3, h4⟩
  · exact absurd hf h1

theorem network.MessageTracker.listing_ok (mt : network.MessageTracker) (h : mt.Inv)
    (hf : mt.fits) : mt.listing = .ok mt.held := by
  obtain ⟨mt', h1, _⟩ := mt.Messages_ok h hf
  simp [network.MessageTracker.listing, h1, Except.map]

theorem network.MessageTracker.listing_error (mt : network.MessageTracker) (h : mt.Inv)
    (hf : ¬ mt.fits) : mt.listing = .error .makeslice := by
  rcases mt.Messages_eq h with ⟨h1, _⟩ | ⟨_, h1⟩
  · exact absurd h1 hf
  · simp [network.MessageTracker.listing, h1, Except.map]

theorem network.MessageTracker.listing_sound (mt : network.MessageTracker) (h : mt.Inv)
    (xs : List network.Message) (hx : mt.listing = .ok xs) : xs = mt.held := by
  rcases mt.Messages_eq h with ⟨_, mt', h1, _⟩ | ⟨_, h1⟩
  · simp [network.MessageTracker.listing, h1, Except.map] at hx
    exact hx.symm
  · simp [network.MessageTracker.listing, h1, Except.map] at hx

theorem network.MessageTracker.fits_of_listing (mt : network.MessageTracker) (h : mt.Inv)
    (xs : List network.Message) (hx : mt.listing = .ok xs) : mt.fits := by
  by_cases hf : mt.fits
  · exact hf
  · rw [mt.listing_error h hf] at hx
    cases hx

theorem network.MessageTracker.held_length_le (mt : network.MessageTracker) (h : mt.Inv) :
    (mt.held.length : Int) ≤ max mt.capacity 0 := by
  cases mt with
  | singlemap t =>
    simp only [network.MessageTracker.held, network.MessageTracker.capacity,
      heldIn_length t.list.elems h.list.values]
    exact h.list.bound
  | syncmap t =>
    simp only [network.MessageTracker.held, network.MessageTracker.capacity,
      heldIn_length t.list.elems h.list.values]
    exact h.list.bound

theorem network.MessageTracker.held_nodup (mt : network.MessageTracker) (h : mt.Inv) :
    (mt.held.map (fun m => m.ID)).Nodup := by
  cases mt with
  | singlemap t => exact h.list.ids
  | syncmap t => exact h.list.ids

/-! ## Calls and runs against the FIFO sequence -/

theorem network.MessageTracker.makeArg_eq (mt : network.MessageTracker) (h : mt.Inv) :
    mt.makeArg = if mt.isSinglemap then mt.capacity else (mt.held.length : Int) := by
  cases mt with
  | singlemap t => rfl
  | syncmap t =>
    simp only [network.MessageTracker.makeArg, network.MessageTracker.isSinglemap,
      network.MessageTracker.held, heldIn_length t.list.elems h.list.values, list.List.Len]
    rfl

theorem network.MessageTracker.fits_of_capacity (mt : network.MessageTracker) (h : mt.Inv)
    (hC : 0 ≤ mt.capacity ∧ mt.capacity ≤ maxCap) : mt.fits := by
  have hb := mt.held_length_le h
  unfold network.MessageTracker.fits
  rw [mt.makeArg_eq h]
  split <;> omega

theorem network.MessageTracker.fits_of_fits (mt mt' : network.MessageTracker) (h : mt.Inv)
    (h' : mt'.Inv) (hf : mt.fits) (hk : mt'.isSinglemap = mt.isSinglemap)
    (hc : mt'.capacity = mt.capacity) (hl : mt'.held.length ≤ mt.held.length) :
    mt'.fits := by
  unfold network.MessageTracker.fits at hf ⊢
  rw [mt.makeArg_eq h] at hf
  rw [mt'.makeArg_eq h', hk, hc]
  split at hf
  · next hs => simp only [hs, if_true]; exact hf
  · next hs =>
    simp only [hs]
    simp only [Bool.false_eq_true, if_false]
    omega

theorem network.MessageTracker.Add_kind (mt mt' : network.MessageTracker)
    (m : network.Message) (e : Option network.error) (h : mt.Add m = .ok (mt', e)) :
    mt'.isSinglemap = mt.isSinglemap := by
  cases mt with
  | singlemap t =>
    simp only [network.MessageTracker.Add] at h
    cases ht : t.Add m with
    | error p => simp [ht, Except.map] at h
    | ok r =>
      simp only [ht, Except.map, Except.ok.injEq, Prod.mk.injEq] at h
      rw [← h.1]; rfl
  | syncmap t =>
    simp only [network.MessageTracker.Add] at h
    cases ht : t.Add m with
    | error p => simp [ht, Except.map] at h
    | ok r =>
      simp only [ht, Except.map, Except.ok.injEq, Prod.mk.injEq] at h
      rw [← h.1]; rfl

theorem network.MessageTracker.Delete_kind (mt mt' : network.MessageTracker)
    (id : String) (e : Option network.error) (h : mt.Delete id = .ok (mt', e)) :
    mt'.isSinglemap = mt.isSinglemap := by
  cases mt with
  | singlemap t =>
    simp only [network.MessageTracker.Delete] at h
    cases ht : t.Delete id with
    | error p => simp [ht, Except.map] at h
    | ok r =>
      simp only [ht, Except.map, Except.ok.injEq, Prod.mk.injEq] at h
      rw [← h.1]; rfl
  | syncmap t =>
    simp only [network.MessageTracker.Delete] at h
    cases ht : t.Delete id with
    | error p => simp [ht, Except.map] at h
    | ok r =>
      simp only [ht, Except.map, Except.ok.injEq, Prod.mk.injEq] at h
      rw [← h.1]; rfl

theorem network.MessageTracker.Messages_kind (mt mt' : network.MessageTracker)
    (xs : List network.Message) (h : mt.Messages = .ok (mt', xs)) :
    mt'.isSinglemap = mt.isSinglemap := by
  cases mt with
  | singlemap t =>
    simp only [network.MessageTracker.Messages] at h
    cases ht : t.Messages with
    | error p => simp [ht, Except.map] at h
    | ok r =>
      simp only [ht, Except.map, Except.ok.injEq, Prod.mk.injEq] at h
      rw [← h.1]; rfl
  | syncmap t =>
    simp only [network.MessageTracker.Messages] at h
    cases ht : t.Messages with
    | error p => simp [ht, Except.map] at h
    | ok r =>
      simp only [ht, Except.map, Except.ok.injEq, Prod.mk.injEq] at h
      rw [← h.1]; rfl

theorem network.MessageTracker.call_kind (mt mt' : network.MessageTracker) (c : Call)
    (r : Ret) (h : mt.call c = .ok (mt', r)) : mt'.isSinglemap = mt.isSinglemap := by
  cases c with
  | Add m =>
    simp only [network.MessageTracker.call] at h
    cases ha : mt.Add m with
    | error p => simp [ha, Except.map] at h
    | ok res =>
      simp only [ha, Except.map, Except.ok.injEq, Prod.mk.injEq] at h
      rw [← h.1]
      exact mt.Add_kind res.1 m res.2 ha
  | Delete id =>
    simp only [network.MessageTracker.call] at h
    cases ha : mt.Delete id with
    | error p => simp [ha, Except.map] at h
    | ok res =>
      simp only [ha, Except.map, Except.ok.injEq, Prod.mk.injEq] at h
      rw [← h.1]
      exact mt.Delete_kind res.1 id res.2 ha
  | Message id =>
    simp only [network.MessageTracker.call] at h
    cases ha : mt.Message id with
    | error p => simp [ha, Except.map] at h
    | ok res =>
      simp only [ha, Except.map, Except.ok.injEq, Prod.mk.injEq] at h
      rw [← h.1]
  | Messages =>
    simp only [network.MessageTracker.call] at h
    cases ha : mt.Messages with
    | error p => simp [ha, Except.map] at h
    | ok res =>
      simp only [ha, Except.map, Except.ok.injEq, Prod.mk.injEq] at h
      rw [← h.1]
      exact mt.Messages_kind res.1 res.2 ha

theorem network.MessageTracker.call_ok (mt : network.MessageTracker) (h : mt.Inv)
    (c : Call) (ys : List network.Message) (r : Ret)
    (hs : Fifo.step mt.capacity mt.held c = .ok (ys, r))
    (hm : c = Call.Messages → mt.fits) :
    ∃ mt', mt.call c = .ok (mt', r) ∧ mt'.Inv ∧ mt'.held = ys ∧
      mt'.capacity = mt.capacity := by
  cases c with
  | Add m =>
    simp only [Fifo.step] at hs
    cases ha : Fifo.add mt.capacity mt.held m with
    | error p => simp [ha, Except.map] at hs
    | ok zs =>
      simp only [ha, Except.map, Except.ok.injEq, Prod.mk.injEq] at hs
      obtain ⟨mt', h1, h2, h3, h4⟩ := mt.Add_ok h m zs ha
      refine ⟨mt', ?_, h2, by rw [h3, hs.1], h4⟩
      simp [network.MessageTracker.call, h1, Except.map, hs.2]
  | Delete id =>
    simp only [Fifo.step, Except.ok.injEq, Prod.mk.injEq] at hs
    obtain ⟨mt', h1, h2, h3, h4, _⟩ := mt.Delete_eq h id
    refine ⟨mt', ?_, h2, by rw [h3, hs.1], h4⟩
    simp [network.MessageTracker.call, h1, Except.map, hs.2]
  | Message id =>
    simp only [Fifo.step, Except.ok.injEq, Prod.mk.injEq] at hs
    refine ⟨mt, ?_, h, hs.1, rfl⟩
    simp [network.MessageTracker.call, mt.Message_eq h id, Except.map, hs.2]
  | Messages =>
    simp only [Fifo.step, Except.ok.injEq, Prod.mk.injEq] at hs
    obtain ⟨mt', h1, h2, h3, h4⟩ := mt.Messages_ok h (hm rfl)
    refine ⟨mt', ?_, h2, by rw [h3, hs.1], h4⟩
    simp [network.MessageTracker.call, h1, Except.map, hs.2]

theorem network.MessageTracker.call_error (mt : network.MessageTracker) (h : mt.Inv)
    (c : Call) (p : Panic) (hs : Fifo.step mt.capacity mt.held c = .error p) :
    mt.call c = .error p := by
  cases c with
  | Add m =>
    simp only [Fifo.step] at hs
    cases ha : Fifo.add mt.capacity mt.held m with
    | error q =>
      simp only [ha, Except.map, Except.error.injEq] at hs
      subst hs
      simp [network.MessageTracker.call, mt.Add_error h m q ha, Except.map]
    | ok zs => simp [ha, Except.map] at hs
  | Delete id => simp [Fifo.step] at hs
  | Message id => simp [Fifo.step] at hs
  | Messages => simp [Fifo.step] at hs

theorem network.MessageTracker.call_sound (mt mt' : network.MessageTracker) (h : mt.Inv)
    (c : Call) (r : Ret) (hc : mt.call c = .ok (mt', r)) :
    mt'.Inv ∧ mt'.capacity = mt.capacity ∧
      Fifo.step mt.capacity mt.held c = .ok (mt'.held, r) := by
  by_cases hm : c = Call.Messages
  · subst hm
    rcases mt.Messages_eq h with ⟨_, mt1, h1, h2, h3, h4, _⟩ | ⟨_, h1⟩
    · simp only [network.MessageTracker.call, h1, Except.map, Except.ok.injEq,
        Prod.mk.injEq] at hc
      obtain ⟨hc1, hc2⟩ := hc
      subst hc1
      refine ⟨h2, h4, ?_⟩
      simp [Fifo.step, h3, hc2]
    · simp [network.MessageTracker.call, h1, Except.map] at hc
  · cases hs : Fifo.step mt.capacity mt.held c with
    | error p =>
      rw [mt.call_error h c p hs] at hc
      cases hc
    | ok res =>
      obtain ⟨ys, r'⟩ := res
      obtain ⟨mt1, h1, h2, h3, h4⟩ := mt.call_ok h c ys r' hs (fun hh => absurd hh hm)
      rw [h1] at hc
      simp only [Except.ok.injEq, Prod.mk.injEq] at hc
      obtain ⟨hc1, hc2⟩ := hc
      subst hc1; subst hc2
      exact ⟨h2, h4, by rw [h3]⟩

theorem network.MessageTracker.run_sound (calls : List Call) (mt mt' : network.MessageTracker)
    (h : mt.Inv) (rets : List Ret) (hr : mt.run calls = .ok (mt', rets)) :
    mt'.Inv ∧ mt'.capacity = mt.capacity ∧
      Fifo.run mt.capacity mt.held calls = .ok (mt'.held, rets) := by
  induction calls generalizing mt rets with
  | nil =>
    simp only [network.MessageTracker.run, Except.ok.injEq, Prod.mk.injEq] at hr
    obtain ⟨h1, h2⟩ := hr
    subst h1; subst h2
    exact ⟨h, rfl, rfl⟩
  | cons c rest ih =>
    simp only [network.MessageTracker.run] at hr
    cases hc : mt.call c with
    | error p => simp [hc] at hr
    | ok res =>
      obtain ⟨mt1, r⟩ := res
      simp only [hc] at hr
      cases hrest : mt1.run rest with
      | error p => simp [hrest] at hr
      | ok res2 =>
        obtain ⟨mt2, rs⟩ := res2
        simp only [hrest, Except.ok.injEq, Prod.mk.injEq] at hr
        obtain ⟨hr1, hr2⟩ := hr
        subst hr1; subst hr2
        obtain ⟨i1, c1, s1⟩ := mt.call_sound mt1 h c r hc
        obtain ⟨i2, c2, s2⟩ := ih mt1 i1 rs hrest
        refine ⟨i2, by rw [c2, c1], ?_⟩
        rw [c1] at s2
        simp [Fifo.run, s1, s2]

theorem network.MessageTracker.run_ok (calls : List Call) (mt : network.MessageTracker)
    (h : mt.Inv) (hC : Call.Messages ∈ calls → 0 ≤ mt.capacity ∧ mt.capacity ≤ maxCap)
    (ys : List network.Message) (rets : List Ret)
    (hs : Fifo.run mt.capacity mt.held calls = .ok (ys, rets)) :
    ∃ mt', mt.run calls = .ok (mt', rets) ∧ mt'.Inv ∧ mt'.held = ys ∧
      mt'.capacity = mt.capacity := by
  induction calls generalizing mt rets with
  | nil =>
    simp only [Fifo.run, Except.ok.injEq, Prod.mk.injEq] at hs
    exact ⟨mt, by simp [network.MessageTracker.run, hs.2], h, hs.1, rfl⟩
  | cons c rest ih =>
    simp only [Fifo.run] at hs
    cases hc : Fifo.step mt.capacity mt.held c with
    | error p => simp [hc] at hs
    | ok res =>
      obtain ⟨zs, r⟩ := res
      simp only [hc] at hs
      cases hrest : Fifo.run mt.capacity zs rest with
      | error p => simp [hrest] at hs
      | ok res2 =>
        obtain ⟨ws, rs⟩ := res2
        simp only [hrest, Except.ok.injEq, Prod.mk.injEq] at hs
        obtain ⟨hs1, hs2⟩ := hs
        subst hs1; subst hs2
        obtain ⟨mt1, h1, h2, h3, h4⟩ := mt.call_ok h c zs r hc
          (fun hm => mt.fits_of_capacity h (hC (by rw [hm]; exact List.mem_cons_self _ _)))
        rw [← h3, ← h4] at hrest
        obtain ⟨mt2, k1, k2, k3, k4⟩ := ih mt1 h2
          (fun hm => by rw [h4]; exact hC (List.mem_cons_of_mem _ hm)) rs hrest
        exact ⟨mt2, by simp [network.MessageTracker.run, h1, k1], k2, k3, by rw [k4, h4]⟩

theorem network.MessageTracker.run_error (calls : List Call) (mt : network.MessageTracker)
    (h : mt.Inv) (hC : Call.Messages ∈ calls → 0 ≤ mt.capacity ∧ mt.capacity ≤ maxCap)
    (p : Panic)
    (hs : Fifo.run mt.capacity mt.held calls = .error p) : mt.run calls = .error p := by
  induction calls generalizing mt with
  | nil => simp [Fifo.run] at hs
  | cons c rest ih =>
    simp only [Fifo.run] at hs
    cases hc : Fifo.step mt.capacity mt.held c with
    | error q =>
      simp only [hc, Except.error.injEq] at hs
      subst hs
      simp [network.MessageTracker.run, mt.call_error h c q hc]
    | ok res =>
      obtain ⟨zs, r⟩ := res
      simp only [hc] at hs
      obtain ⟨mt1, h1, h2, h3, h4⟩ := mt.call_ok h c zs r hc
        (fun hm => mt.fits_of_capacity h (hC (by rw [hm]; exact List.mem_cons_self _ _)))
      cases hrest : Fifo.run mt.capacity zs rest with
      | error q =>
        simp only [hrest, Except.error.injEq] at hs
        subst hs
        rw [← h3, ← h4] at hrest
        have := ih mt1 h2 (fun hm => by rw [h4]; exact hC (List.mem_cons_of_mem _ hm)) hrest
        simp [network.MessageTracker.run, h1, this]
      | ok res2 =>
        obtain ⟨ws, rs⟩ := res2
        simp [hrest] at hs

theorem Reachable.inv (creator : Int → network.MessageTracker)
    (hc : creator ∈ getTrackerMethods) (C : Int) (mt : network.MessageTracker)
    (hr : Reachable (creator C) mt) : mt.Inv ∧ mt.capacity = C := by
  obtain ⟨calls, rets, hrun⟩ := hr
  obtain ⟨h0, _, c0⟩ := network.MessageTracker.new_inv creator hc C
  obtain ⟨h1, h2, _⟩ := network.MessageTracker.run_sound calls (creator C) mt h0 rets hrun
  exact ⟨h1, by rw [h2, c0]⟩

/-! ## Facts about the FIFO sequence -/

theorem Fifo.add_new (C : Int) (hC : 1 ≤ C) (xs : List network.Message)
    (hlen : (xs.length : Int) ≤ C) (m : network.Message) (hnew : Fifo.has xs m.ID = false) :
    Fifo.add C xs m = .ok ((xs ++ [m]).drop (xs.length + 1 - C.toNat)) := by
  unfold Fifo.add
  simp only [hnew, Bool.false_eq_true, if_false]
  split
  · next hfull =>
    cases xs with
    | nil => simp at hfull; omega
    | cons x rest =>
      simp only [List.length_cons, Nat.cast_add, Nat.cast_one] at hfull hlen ⊢
      have : rest.length + 1 + 1 - C.toNat = 1 := by omega
      simp [this]
  · next hroom =>
    have : xs.length + 1 - C.toNat = 0 := by omega
    simp [this]

theorem Fifo.add_total (C : Int) (hC : 1 ≤ C) (xs : List network.Message)
    (m : network.Message) : ∃ ys, Fifo.add C xs m = .ok ys := by
  unfold Fifo.add
  split
  · exact ⟨_, rfl⟩
  · split
    · next hfull =>
      cases xs with
      | nil => simp at hfull; omega
      | cons x rest => exact ⟨_, rfl⟩
    · exact ⟨_, rfl⟩

theorem Fifo.run_returns (C : Int) (hC : 1 ≤ C) (calls : List Call)
    (xs : List network.Message) : ∃ ys rets, Fifo.run C xs calls = .ok (ys, rets) := by
  induction calls generalizing xs with
  | nil => exact ⟨xs, [], rfl⟩
  | cons c rest ih =>
    have hstep : ∃ zs r, Fifo.step C xs c = .ok (zs, r) := by
      cases c with
      | Add m =>
        obtain ⟨zs, hz⟩ := Fifo.add_total C hC xs m
        exact ⟨zs, Ret.Add none, by simp [Fifo.step, hz, Except.map]⟩
      | Delete id => exact ⟨_, _, rfl⟩
      | Message id => exact ⟨_, _, rfl⟩
      | Messages => exact ⟨_, _, rfl⟩
    obtain ⟨zs, r, hz⟩ := hstep
    obtain ⟨ys, rs, hy⟩ := ih zs
    exact ⟨ys, r :: rs, by simp [Fifo.run, hz, hy]⟩

theorem Fifo.run_adds (C : Int) (hC : 1 ≤ C) (ms : List network.Message)
    (xs : List network.Message) (hlen : (xs.length : Int) ≤ C)
    (hd : ((xs ++ ms).map (fun m => m.ID)).Nodup) :
    ∃ rets, Fifo.run C xs (ms.map Call.Add) =
      .ok ((xs ++ ms).drop ((xs ++ ms).length - C.toNat), rets) := by
  induction ms generalizing xs with
  | nil =>
    have : xs.length - C.toNat = 0 := by omega
    exact ⟨[], by simp [Fifo.run, this]⟩
  | cons m rest ih =>
    have hnew : Fifo.has xs m.ID = false := by
      rw [has_eq_false_iff]
      intro x hx hxm
      rw [List.map_append, List.nodup_append] at hd
      exact hd.2.2 (List.mem_map_of_mem _ hx) (by rw [hxm]; simp)
    have hadd := Fifo.add_new C hC xs hlen m hnew
    have hlen' : (((xs ++ [m]).drop (xs.length + 1 - C.toNat)).length : Int) ≤ C := by
      simp only [List.length_drop, List.length_append, List.length_singleton]
      omega
    have hsub : List.Sublist ((xs ++ [m]).drop (xs.length + 1 - C.toNat) ++ rest)
        (xs ++ m :: rest) := by
      have : xs ++ m :: rest = (xs ++ [m]) ++ rest := by simp
      rw [this]
      exact List.Sublist.append (List.drop_sublist _ _) (List.Sublist.refl _)
    obtain ⟨rets, hrun⟩ := ih _ hlen' (hd.sublist (hsub.map _))
    refine ⟨Ret.Add none :: rets, ?_⟩
    simp only [List.map_cons, Fifo.run, Fifo.step, hadd, Except.map, hrun]
    congr 2
    have hle : xs.length + 1 - C.toNat ≤ (xs ++ [m]).length := by
      simp only [List.length_append, List.length_singleton]; omega
    rw [← List.drop_append_of_le_length hle, List.drop_drop]
    have : xs ++ [m] ++ rest = xs ++ m :: rest := by simp
    rw [this]
    congr 1
    simp only [List.length_append, List.length_drop, List.length_cons, List.length_singleton,
      List.length_nil]
    omega

theorem find?_of_mem_nodup (xs : List network.Message)
    (hd : (xs.map (fun m => m.ID)).Nodup) (x : network.Message) (hx : x ∈ xs) :
    xs.find? (fun y => decide (y.ID = x.ID)) = some x := by
  induction xs with
  | nil => cases hx
  | cons a rest ih =>
    rw [List.map_cons, List.nodup_cons] at hd
    rw [List.find?_cons]
    rcases List.mem_cons.mp hx with h | h
    · subst h; simp
    · have hne : ¬ a.ID = x.ID := by
        intro he
        apply hd.1
        rw [he]
        exact List.mem_map_of_mem _ h
      simp [hne, ih hd.2 h]

theorem mem_of_find? (xs : List network.Message) (id : String) (m : network.Message)
    (h : xs.find? (fun y => decide (y.ID = id)) = some m) : m ∈ xs ∧ m.ID = id := by
  refine ⟨List.mem_of_find?_eq_some h, ?_⟩
  have := List.find?_some h
  simpa using this

theorem Fifo.get_of_mem (xs : List network.Message)
    (hd : (xs.map (fun m => m.ID)).Nodup) (x : network.Message) (hx : x ∈ xs) :
    Fifo.get xs x.ID = (some x, none) := by
  simp [Fifo.get, find?_of_mem_nodup xs hd x hx]

theorem Fifo.get_of_not_has (xs : List network.Message) (id : String)
    (h : ∀ x ∈ xs, x.ID ≠ id) : Fifo.get xs id = (none, some network.ErrMessageNotFound) := by
  have : xs.find? (fun y => decide (y.ID = id)) = none := by
    rw [List.find?_eq_none]
    intro x hx
    simpa using h x hx
  simp [Fifo.get, this]

theorem eraseP_of_mem_nodup (xs : List network.Message)
    (hd : (xs.map (fun m => m.ID)).Nodup) (x : network.Message) (hx : x ∈ xs) :
    ∃ pre post, xs = pre ++ x :: post ∧
      xs.eraseP (fun y => decide (y.ID = x.ID)) = pre ++ post ∧
      ∀ y ∈ pre ++ post, y.ID ≠ x.ID := by
  obtain ⟨pre, post, hxs⟩ := List.append_of_mem hx
  subst hxs
  simp only [List.map_append, List.map_cons] at hd
  have hpre : ∀ y ∈ pre, y.ID ≠ x.ID := by
    intro y hy he
    have := (List.nodup_append.mp hd).2.2 (List.mem_map_of_mem (fun m => m.ID) hy)
      (by rw [he]; exact List.mem_cons_self _ _)
    exact this
  have hpost : ∀ y ∈ post, y.ID ≠ x.ID := by
    intro y hy he
    have h2 := (List.nodup_cons.mp (List.nodup_append.mp hd).2.1).1
    apply h2
    rw [← he]
    exact List.mem_map_of_mem (fun m => m.ID) hy
  refine ⟨pre, post, rfl, ?_, ?_⟩
  · rw [List.eraseP_append_right]
    · simp
    · intro y hy
      simpa using hpre y hy
  · intro y hy
    rcases List.mem_append.mp hy with h | h
    · exact hpre y h
    · exact hpost y h

/-- A reachable tracker whose listing is not empty has a positive capacity. -/
theorem network.MessageTracker.capacity_pos_of_mem (mt : network.MessageTracker)
    (h : mt.Inv) (x : network.Message) (hx : x ∈ mt.held) : 1 ≤ mt.capacity := by
  have hb := mt.held_length_le h
  have : 0 < mt.held.length := List.length_pos_of_mem hx
  omega

theorem network.MessageTracker.run_total (mt : network.MessageTracker) (h : mt.Inv)
    (hC : 1 ≤ mt.capacity) (calls : List Call)
    (hM : Call.Messages ∈ calls → mt.capacity ≤ maxCap) :
    ∃ mt' rets, mt.run calls = .ok (mt', rets) ∧ mt'.Inv ∧ mt'.capacity = mt.capacity ∧
      Fifo.run mt.capacity mt.held calls = .ok (mt'.held, rets) := by
  obtain ⟨ys, rets, hrun⟩ := Fifo.run_returns mt.capacity hC calls mt.held
  obtain ⟨mt', h1, h2, h3, h4⟩ := network.MessageTracker.run_ok calls mt h
    (fun hm => ⟨by omega, hM hm⟩) ys rets hrun
  exact ⟨mt', rets, h1, h2, h4, by rw [h3]; exact hrun⟩

theorem Fifo.run_length (C : Int) (calls : List Call) (xs ys : List network.Message)
    (rets : List Ret) (h : Fifo.run C xs calls = .ok (ys, rets)) :
    rets.length = calls.length := by
  induction calls generalizing xs rets with
  | nil =>
    simp only [Fifo.run, Except.ok.injEq, Prod.mk.injEq] at h
    rw [← h.2]
    rfl
  | cons c rest ih =>
    simp only [Fifo.run] at h
    cases hc : Fifo.step C xs c with
    | error p => simp [hc] at h
    | ok res =>
      obtain ⟨zs, r⟩ := res
      simp only [hc] at h
      cases hrest : Fifo.run C zs rest with
      | error p => simp [hrest] at h
      | ok res2 =>
        obtain ⟨ws, rs⟩ := res2
        simp only [hrest, Except.ok.injEq, Prod.mk.injEq] at h
        obtain ⟨h1, h2⟩ := h
        subst h1; subst h2
        simp [ih zs rs hrest]

theorem Fifo.step_expected (C : Int) (c : Call) (xs ys : List network.Message) (r : Ret)
    (h : Fifo.step C xs c = .ok (ys, r)) : r.expected := by
  cases c with
  | Add m =>
    simp only [Fifo.step] at h
    cases ha : Fifo.add C xs m with
    | error p => simp [ha, Except.map] at h
    | ok zs =>
      simp only [ha, Except.map, Except.ok.injEq, Prod.mk.injEq] at h
      rw [← h.2]
      simp [Ret.expected]
  | Delete id =>
    simp only [Fifo.step, Except.ok.injEq, Prod.mk.injEq] at h
    rw [← h.2]
    simp only [Ret.expected, Fifo.delete]
    split <;> simp
  | Message id =>
    simp only [Fifo.step, Except.ok.injEq, Prod.mk.injEq] at h
    rw [← h.2]
    simp only [Ret.expected, Fifo.get]
    split <;> simp
  | Messages =>
    simp only [Fifo.step, Except.ok.injEq, Prod.mk.injEq] at h
    rw [← h.2]
    simp [Ret.expected]

theorem Fifo.run_expected (C : Int) (calls : List Call) (xs ys : List network.Message)
    (rets : List Ret) (h : Fifo.run C xs calls = .ok (ys, rets)) :
    ∀ r ∈ rets, r.expected := by
  induction calls generalizing xs rets with
  | nil =>
    simp only [Fifo.run, Except.ok.injEq, Prod.mk.injEq] at h
    rw [← h.2]
    simp
  | cons c rest ih =>
    simp only [Fifo.run] at h
    cases hc : Fifo.step C xs c with
    | error p => simp [hc] at h
    | ok res =>
      obtain ⟨zs, r⟩ := res
      simp only [hc] at h
      cases hrest : Fifo.run C zs rest with
      | error p => simp [hrest] at h
      | ok res2 =>
        obtain ⟨ws, rs⟩ := res2
        simp only [hrest, Except.ok.injEq, Prod.mk.injEq] at h
        obtain ⟨h1, h2⟩ := h
        subst h1; subst h2
        intro r' hr'
        rcases List.mem_cons.mp hr' with h1 | h1
        · rw [h1]; exact Fifo.step_expected C c xs zs r hc
        · exact ih zs rs hrest r' h1

theorem IndexInv.load_some {V : Type} {wrap : list.Element → V} {index : GoMap V}
    {es : Sequence list.Element} (h : IndexInv wrap index es) (k : String) (v : V)
    (hl : index.load k = some v) : ∃ e, e ∈ es ∧ v = wrap e := by
  rw [h k] at hl
  cases hf : es.find? (list.Element.holdsID k) with
  | none => simp [hf] at hl
  | some e =>
    simp only [hf, Option.map_some', Option.some.injEq] at hl
    exact ⟨e, List.mem_of_find?_eq_some hf, hl.symm⟩

theorem network.MessageTracker.wellTyped (mt : network.MessageTracker) (h : mt.Inv)
    (hC : 1 ≤ mt.capacity) : mt.WellTyped := by
  cases mt with
  | singlemap t =>
    refine ⟨?_, ?_, ?_⟩
    · intro hfull
      simp only [network.MessageTracker.capacity] at hC
      simp only [list.List.Len, ge_iff_le] at hfull
      cases hes : t.list.elems with
      | nil => rw [hes] at hfull; simp at hfull; omega
      | cons o rest => simp [list.List.Front, hes]
    · intro e he
      obtain ⟨m, hm⟩ := h.list.values e he
      exact ⟨m, by simp [hm, GoAny.assertMessage]⟩
    · intro k p hl
      obtain ⟨e, he, hp⟩ := h.index.load_some k p hl
      obtain ⟨m, hm⟩ := h.list.values e he
      exact ⟨e, m, hp, by simp [hm, GoAny.assertMessage]⟩
  | syncmap t =>
    refine ⟨?_, ?_, ?_⟩
    · intro hfull
      simp only [network.MessageTracker.capacity] at hC
      simp only [list.List.Len, ge_iff_le] at hfull
      cases hes : t.list.elems with
      | nil => rw [hes] at hfull; simp at hfull; omega
      | cons o rest => simp [list.List.Front, hes]
    · intro e he
      obtain ⟨m, hm⟩ := h.list.values e he
      exact ⟨m, by simp [hm, GoAny.assertMessage]⟩
    · intro k v hl
      obtain ⟨e, he, hp⟩ := h.index.load_some k v hl
      obtain ⟨m, hm⟩ := h.list.values e he
      exact ⟨e, m, by simp [hp, GoAny.assertElement], by simp [hm, GoAny.assertMessage]⟩

theorem Fifo.step_read (C : Int) (c : Call) (hc : c.isWrite = false)
    (xs : List network.Message) : ∃ r, Fifo.step C xs c = .ok (xs, r) := by
  cases c with
  | Add m => simp [Call.isWrite] at hc
  | Delete id => simp [Call.isWrite] at hc
  | Message id => exact ⟨_, rfl⟩
  | Messages => exact ⟨_, rfl⟩

theorem Fifo.observe_writes (C : Int) (calls : List Call) (xs : List network.Message) :
    Fifo.observe C xs calls = Fifo.observe C xs (calls.filter Call.isWrite) := by
  induction calls generalizing xs with
  | nil => rfl
  | cons c rest ih =>
    cases hw : c.isWrite with
    | false =>
      obtain ⟨r, hr⟩ := Fifo.step_read C c hw xs
      rw [List.filter_cons_of_neg (by simp [hw]), ← ih xs]
      simp only [Fifo.observe, Fifo.run, hr]
      cases hrest : Fifo.run C xs rest with
      | error p => rfl
      | ok res => simp [writeRets, hw]
    | true =>
      rw [List.filter_cons_of_pos (by simp [hw])]
      simp only [Fifo.observe, Fifo.run]
      cases hc : Fifo.step C xs c with
      | error p => rfl
      | ok res =>
        obtain ⟨zs, r⟩ := res
        have := ih zs
        simp only [Fifo.observe] at this
        simp only []
        cases h1 : Fifo.run C zs rest with
        | error p =>
          rw [h1] at this
          cases h2 : Fifo.run C zs (rest.filter Call.isWrite) with
          | error q => rw [h2] at this; simpa using this
          | ok res2 => rw [h2] at this; simp at this
        | ok res1 =>
          rw [h1] at this
          cases h2 : Fifo.run C zs (rest.filter Call.isWrite) with
          | error q => rw [h2] at this; simp at this
          | ok res2 =>
            rw [h2] at this
            simp only [Except.ok.injEq, Prod.mk.injEq] at this
            simp [writeRets, hw, this.1, this.2]

theorem network.MessageTracker.observe_eq (mt : network.MessageTracker) (h : mt.Inv)
    (hC : 0 ≤ mt.capacity ∧ mt.capacity ≤ maxCap) (calls : List Call) :
    mt.observe calls = Fifo.observe mt.capacity mt.held calls := by
  cases hrun : Fifo.run mt.capacity mt.held calls with
  | error p =>
    simp [network.MessageTracker.observe, Fifo.observe, hrun,
      network.MessageTracker.run_error calls mt h (fun _ => hC) p hrun]
  | ok res =>
    obtain ⟨ys, rets⟩ := res
    obtain ⟨mt', h1, h2, h3, h4⟩ :=
      network.MessageTracker.run_ok calls mt h (fun _ => hC) ys rets hrun
    simp [network.MessageTracker.observe, Fifo.observe, hrun, h1,
      mt'.listing_ok h2 (mt'.fits_of_capacity h2 (by rw [h4]; exact hC)), h3]

theorem network.MessageTracker.run_rets_eq (mt : network.MessageTracker) (h : mt.Inv)
    (calls : List Call)
    (hC : Call.Messages ∈ calls → 0 ≤ mt.capacity ∧ mt.capacity ≤ maxCap) :
    (mt.run calls).map (fun r => r.2) =
      (Fifo.run mt.capacity mt.held calls).map (fun r => r.2) := by
  cases hrun : Fifo.run mt.capacity mt.held calls with
  | error p =>
    simp [Except.map, network.MessageTracker.run_error calls mt h hC p hrun]
  | ok res =>
    obtain ⟨ys, rets⟩ := res
    obtain ⟨mt', h1, h2, h3, h4⟩ := network.MessageTracker.run_ok calls mt h hC ys rets hrun
    simp [Except.map, h1]

/-! ## More facts about the FIFO sequence and its representation -/

theorem Fifo.add_room (C : Int) (xs : List network.Message) (m : network.Message)
    (hnew : Fifo.has xs m.ID = false) (hroom : (xs.length : Int) < C) :
    Fifo.add C xs m = .ok (xs ++ [m]) := by
  have : ¬ C ≤ (xs.length : Int) := by omega
  simp [Fifo.add, hnew, this]

theorem Fifo.add_full (C : Int) (hC : 1 ≤ C) (xs : List network.Message)
    (m : network.Message) (hnew : Fifo.has xs m.ID = false)
    (hfull : C ≤ (xs.length : Int)) : Fifo.add C xs m = .ok (xs.tail ++ [m]) := by
  cases xs with
  | nil => simp at hfull; omega
  | cons x rest =>
    simp only [List.length_cons, Nat.cast_add, Nat.cast_one] at hfull
    simp [Fifo.add, hnew, hfull]

theorem network.MessageTracker.traversal_eq (mt : network.MessageTracker) (h : mt.Inv) :
    mt.traversal = .ok mt.held := by
  cases mt with
  | singlemap t =>
    simpa [network.MessageTracker.traversal, network.MessageTracker.elements,
      network.MessageTracker.held] using appendMessages_eq t.list.elems h.list.values []
  | syncmap t =>
    simpa [network.MessageTracker.traversal, network.MessageTracker.elements,
      network.MessageTracker.held] using appendMessages_eq t.list.elems h.list.values []

theorem network.MessageTracker.indexed_eq (mt : network.MessageTracker) (h : mt.Inv)
    (id : String) :
    mt.indexed id =
      (mt.elements.find? (list.Element.holdsID id)).map (fun e => Except.ok (some e)) := by
  cases mt with
  | singlemap t =>
    simp only [network.MessageTracker.indexed, network.MessageTracker.elements, h.index id,
      Option.map_map]
    rfl
  | syncmap t =>
    simp only [network.MessageTracker.indexed, network.MessageTracker.elements, h.index id,
      Option.map_map]
    rfl

theorem holdsID_iff (e : list.Element) (id : String) :
    e.holdsID id = true ↔ ∃ m, e.Value = GoAny.message m ∧ m.ID = id := by
  unfold list.Element.holdsID
  split
  · next m hm => simp [hm]
  · next hno =>
    simp only [Bool.false_eq_true, false_iff, not_exists, not_and]
    intro m hm
    exact absurd hm (hno m)

theorem singlemap.Tracker.Messages_cached_singlemap (t t1 : singlemap.Tracker)
    (xs : List network.Message) (h : t.Messages = .ok (t1, xs)) : t1.messages = some xs := by
  unfold singlemap.Tracker.Messages at h
  split at h
  · next ms hms =>
    simp only [Except.ok.injEq, Prod.mk.injEq] at h
    rw [← h.1, ← h.2, hms]
  · cases h1 : makeMessages t.length with
    | error p => simp [h1, bind, Except.bind] at h
    | ok a =>
      cases h2 : appendMessages t.list.elems a with
      | error p => simp [h1, h2, bind, Except.bind] at h
      | ok b =>
        simp only [h1, h2, bind, Except.bind, pure, Except.pure, Except.ok.injEq,
          Prod.mk.injEq] at h
        rw [← h.1, ← h.2]

theorem syncmap.Tracker.Messages_cached_syncmap (t t1 : syncmap.Tracker)
    (xs : List network.Message) (h : t.Messages = .ok (t1, xs)) : t1.messages = some xs := by
  unfold syncmap.Tracker.Messages at h
  split at h
  · next ms hms =>
    simp only [Except.ok.injEq, Prod.mk.injEq] at h
    rw [← h.1, ← h.2, hms]
  · cases h1 : makeMessages t.list.Len with
    | error p => simp [h1, bind, Except.bind] at h
    | ok a =>
      cases h2 : appendMessages t.list.elems a with
      | error p => simp [h1, h2, bind, Except.bind] at h
      | ok b =>
        simp only [h1, h2, bind, Except.bind, pure, Except.pure, Except.ok.injEq,
          Prod.mk.injEq] at h
        rw [← h.1, ← h.2]

theorem network.MessageTracker.Messages_cached (mt mt1 : network.MessageTracker)
    (xs : List network.Message) (h : mt.Messages = .ok (mt1, xs)) : mt1.cached = some xs := by
  cases mt with
  | singlemap t =>
    simp only [network.MessageTracker.Messages] at h
    cases ht : t.Messages with
    | error p => simp [ht, Except.map] at h
    | ok r =>
      obtain ⟨t1, ys⟩ := r
      simp only [ht, Except.map, Except.ok.injEq, Prod.mk.injEq] at h
      rw [← h.1, ← h.2]
      exact singlemap.Tracker.Messages_cached_singlemap t t1 ys ht
  | syncmap t =>
    simp only [network.MessageTracker.Messages] at h
    cases ht : t.Messages with
    | error p => simp [ht, Except.map] at h
    | ok r =>
      obtain ⟨t1, ys⟩ := r
      simp only [ht, Except.map, Except.ok.injEq, Prod.mk.injEq] at h
      rw [← h.1, ← h.2]
      exact syncmap.Tracker.Messages_cached_syncmap t t1 ys ht

/-! ## Writes of the caller to the returned slice -/

theorem singlemap.Tracker.Add_messages_singlemap (t : singlemap.Tracker)
    (c : Option (List network.Message)) (m : network.Message)
    (hload : t.listMap.load m.ID = none) :
    ({ t with messages := c } : singlemap.Tracker).Add m = t.Add m := by
  simp only [singlemap.Tracker.Add, hload]
  by_cases hfull : t.list.Len ≥ t.length
  · simp only [hfull, if_true]
    cases hF : t.list.Front with
    | none => simp [list.List.Remove, bind, Except.bind]
    | some o =>
      cases hv : o.Value.assertMessage with
      | error p =>
        by_cases ho : t.list.owns o = true <;>
          simp [list.List.Remove, list.Element.deref, hv, ho, bind, Except.bind]
      | ok mo =>
        by_cases ho : t.list.owns o = true <;>
          simp [list.List.Remove, list.Element.deref, hv, ho, bind, Except.bind, pure,
            Except.pure]
  · simp only [hfull, if_false]
    rfl

theorem singlemap.Tracker.Delete_messages_singlemap (t : singlemap.Tracker)
    (c : Option (List network.Message)) (id : String) (e : ElementPtr)
    (hload : t.listMap.load id = some e) :
    ({ t with messages := c } : singlemap.Tracker).Delete id = t.Delete id := by
  simp only [singlemap.Tracker.Delete, hload]

theorem singlemap.Tracker.Message_messages_singlemap (t : singlemap.Tracker)
    (c : Option (List network.Message)) (id : String) :
    ({ t with messages := c } : singlemap.Tracker).Message id = t.Message id := rfl

theorem syncmap.Tracker.Add_messages_syncmap (t : syncmap.Tracker)
    (c : Option (List network.Message)) (m : network.Message)
    (hload : t.listMap.load m.ID = none) :
    ({ t with messages := c } : syncmap.Tracker).Add m = t.Add m := by
  simp only [syncmap.Tracker.Add, hload]
  by_cases hfull : t.list.Len ≥ t.length
  · simp only [hfull, if_true]
    cases hF : t.list.Front with
    | none => simp [list.List.Remove, bind, Except.bind]
    | some o =>
      cases hv : o.Value.assertMessage with
      | error p =>
        by_cases ho : t.list.owns o = true <;>
          simp [list.List.Remove, list.Element.deref, hv, ho, bind, Except.bind]
      | ok mo =>
        by_cases ho : t.list.owns o = true <;>
          simp [list.List.Remove, list.Element.deref, hv, ho, bind, Except.bind, pure,
            Except.pure]
  · simp only [hfull, if_false]
    rfl

theorem syncmap.Tracker.Delete_messages_syncmap (t : syncmap.Tracker)
    (c : Option (List network.Message)) (id : String) (v : GoAny)
    (hload : t.listMap.load id = some v) :
    ({ t with messages := c } : syncmap.Tracker).Delete id = t.Delete id := by
  simp only [syncmap.Tracker.Delete, hload]

theorem syncmap.Tracker.Message_messages_syncmap (t : syncmap.Tracker)
    (c : Option (List network.Message)) (id : String) :
    ({ t with messages := c } : syncmap.Tracker).Message id = t.Message id := rfl

theorem network.MessageTracker.held_callerWrites (mt : network.MessageTracker)
    (ys : List network.Message) : (mt.callerWrites ys).held = mt.held := by
  cases mt with
  | singlemap t =>
    simp only [network.MessageTracker.callerWrites, singlemap.Tracker.callerWrites,
      network.MessageTracker.held]
    split
    · split <;> rfl
    · rfl
  | syncmap t =>
    simp only [network.MessageTracker.callerWrites, syncmap.Tracker.callerWrites,
      network.MessageTracker.held]
    split
    · split <;> rfl
    · rfl

theorem network.MessageTracker.traversal_callerWrites (mt : network.MessageTracker)
    (ys : List network.Message) : (mt.callerWrites ys).traversal = mt.traversal := by
  cases mt with
  | singlemap t =>
    simp only [network.MessageTracker.callerWrites, singlemap.Tracker.callerWrites,
      network.MessageTracker.traversal, network.MessageTracker.elements]
    split
    · split <;> rfl
    · rfl
  | syncmap t =>
    simp only [network.MessageTracker.callerWrites, syncmap.Tracker.callerWrites,
      network.MessageTracker.traversal, network.MessageTracker.elements]
    split
    · split <;> rfl
    · rfl

theorem network.MessageTracker.Message_callerWrites (mt : network.MessageTracker)
    (ys : List network.Message) (id : String) :
    (mt.callerWrites ys).Message id = mt.Message id := by
  cases mt with
  | singlemap t =>
    simp only [network.MessageTracker.callerWrites, singlemap.Tracker.callerWrites,
      network.MessageTracker.Message]
    split
    · split <;> rfl
    · rfl
  | syncmap t =>
    simp only [network.MessageTracker.callerWrites, syncmap.Tracker.callerWrites,
      network.MessageTracker.Message]
    split
    · split <;> rfl
    · rfl

theorem network.MessageTracker.Messages_callerWrites (mt : network.MessageTracker)
    (xs ys : List network.Message) (hc : mt.cached = some xs)
    (hl : ys.length = xs.length) :
    (mt.callerWrites ys).Messages = .ok (mt.callerWrites ys, ys) := by
  cases mt with
  | singlemap t =>
    simp only [network.MessageTracker.cached] at hc
    simp [network.MessageTracker.callerWrites, singlemap.Tracker.callerWrites, hc, hl,
      network.MessageTracker.Messages, singlemap.Tracker.Messages, Except.map]
  | syncmap t =>
    simp only [network.MessageTracker.cached] at hc
    simp [network.MessageTracker.callerWrites, syncmap.Tracker.callerWrites, hc, hl,
      network.MessageTracker.Messages, syncmap.Tracker.Messages, Except.map]

theorem network.MessageTracker.Add_callerWrites (mt : network.MessageTracker) (h : mt.Inv)
    (ys : List network.Message) (m : network.Message)
    (hnew : Fifo.has mt.held m.ID = false) : (mt.callerWrites ys).Add m = mt.Add m := by
  cases mt with
  | singlemap t =>
    have hload : t.listMap.load m.ID = none := by
      have h1 := has_heldIn t.list.elems h.list.values m.ID
      simp only [network.MessageTracker.held] at hnew
      rw [hnew] at h1
      rw [h.index m.ID]
      cases hf : t.list.elems.find? (list.Element.holdsID m.ID) with
      | none => rfl
      | some e => rw [hf] at h1; simp at h1
    simp only [network.MessageTracker.callerWrites, singlemap.Tracker.callerWrites,
      network.MessageTracker.Add]
    split
    · split
      · rw [singlemap.Tracker.Add_messages_singlemap t _ m hload]
      · rfl
    · rfl
  | syncmap t =>
    have hload : t.listMap.load m.ID = none := by
      have h1 := has_heldIn t.list.elems h.list.values m.ID
      simp only [network.MessageTracker.held] at hnew
      rw [hnew] at h1
      rw [h.index m.ID]
      cases hf : t.list.elems.find? (list.Element.holdsID m.ID) with
      | none => rfl
      | some e => rw [hf] at h1; simp at h1
    simp only [network.MessageTracker.callerWrites, syncmap.Tracker.callerWrites,
      network.MessageTracker.Add]
    split
    · split
      · rw [syncmap.Tracker.Add_messages_syncmap t _ m hload]
      · rfl
    · rfl

theorem network.MessageTracker.Delete_callerWrites (mt : network.MessageTracker) (h : mt.Inv)
    (ys : List network.Message) (id : String)
    (hheld : Fifo.has mt.held id = true) : (mt.callerWrites ys).Delete id = mt.Delete id := by
  cases mt with
  | singlemap t =>
    have hload : ∃ e, t.listMap.load id = some e := by
      have h1 := has_heldIn t.list.elems h.list.values id
      simp only [network.MessageTracker.held] at hheld
      rw [hheld] at h1
      rw [h.index id]
      cases hf : t.list.elems.find? (list.Element.holdsID id) with
      | none => rw [hf] at h1; simp at h1
      | some e => exact ⟨some e, rfl⟩
    obtain ⟨e, he⟩ := hload
    simp only [network.MessageTracker.callerWrites, singlemap.Tracker.callerWrites,
      network.MessageTracker.Delete]
    split
    · split
      · rw [singlemap.Tracker.Delete_messages_singlemap t _ id e he]
      · rfl
    · rfl
  | syncmap t =>
    have hload : ∃ v, t.listMap.load id = some v := by
      have h1 := has_heldIn t.list.elems h.list.values id
      simp only [network.MessageTracker.held] at hheld
      rw [hheld] at h1
      rw [h.index id]
      cases hf : t.list.elems.find? (list.Element.holdsID id) with
      | none => rw [hf] at h1; simp at h1
      | some e => exact ⟨_, rfl⟩
    obtain ⟨v, hv⟩ := hload
    simp only [network.MessageTracker.callerWrites, syncmap.Tracker.callerWrites,
      network.MessageTracker.Delete]
    split
    · split
      · rw [syncmap.Tracker.Delete_messages_syncmap t _ id v hv]
      · rfl
    · rfl

/-! ## Interleavings of concurrent `Add` calls -/

theorem syncmap.Tracker.Add_eq_addLocked (t : syncmap.Tracker) (m : network.Message)
    (hload : t.listMap.load m.ID = none) :
    t.Add m = (t.addLocked m).map (fun t1 => (t1, none)) := by
  simp only [syncmap.Tracker.Add, syncmap.Tracker.addLocked, hload]
  by_cases hfull : t.list.Len ≥ t.length
  · simp only [hfull, if_true]
    cases hF : t.list.Front with
    | none => simp [list.List.Remove, bind, Except.bind, Except.map]
    | some o =>
      cases hv : o.Value.assertMessage with
      | error p =>
        by_cases ho : t.list.owns o = true <;>
          simp [list.List.Remove, list.Element.deref, hv, ho, bind, Except.bind, Except.map]
      | ok mo =>
        by_cases ho : t.list.owns o = true <;>
          simp [list.List.Remove, list.Element.deref, hv, ho, bind, Except.bind, pure,
            Except.pure, Except.map]
  · simp only [hfull, if_false]
    rfl

theorem network.MessageTracker.stepAdd_done (mt : network.MessageTracker) (g : Goroutine)
    (hg : g.phase = Phase.done) : mt.stepAdd g = .ok (mt, g) := by
  unfold network.MessageTracker.stepAdd
  rw [hg]
  cases mt <;> rfl

theorem network.MessageTracker.stepAdd_spec (mt : network.MessageTracker) (h : mt.Inv)
    (g : Goroutine) (hnd : g.phase ≠ Phase.done)
    (hnew : Fifo.has mt.held g.message.ID = false)
    (hroom : (mt.held.length : Int) < mt.capacity) :
    ∃ mt' g', mt.stepAdd g = .ok (mt', g') ∧ mt'.Inv ∧ mt'.capacity = mt.capacity ∧
      g'.message = g.message ∧ g.phase.rank + 1 ≤ g'.phase.rank ∧
      ((g'.phase = Phase.done ∧ mt'.held = mt.held ++ [g.message]) ∨
        (g'.phase ≠ Phase.done ∧ mt'.held = mt.held)) := by
  have hadd := Fifo.add_room mt.capacity mt.held g.message hnew hroom
  have hrank : g.phase.rank + 1 ≤ Phase.done.rank := by
    cases hp : g.phase with
    | start => simp [Phase.rank]
    | checked => simp [Phase.rank]
    | done => exact absurd hp hnd
  cases mt with
  | singlemap t =>
    obtain ⟨t', h1, h2, h3, h4⟩ := singlemap.Tracker.Add_ok_singlemap t h g.message _ hadd
    refine ⟨.singlemap t', { g with phase := .done }, ?_, h2, h4, rfl, hrank,
      Or.inl ⟨rfl, h3⟩⟩
    unfold network.MessageTracker.stepAdd
    cases hp : g.phase with
    | start => simp [h1, Except.map]
    | checked => simp [h1, Except.map]
    | done => exact absurd hp hnd
  | syncmap t =>
    have hload : t.listMap.load g.message.ID = none := by
      have h1 := has_heldIn t.list.elems h.list.values g.message.ID
      simp only [network.MessageTracker.held] at hnew
      rw [hnew] at h1
      rw [h.index g.message.ID]
      cases hf : t.list.elems.find? (list.Element.holdsID g.message.ID) with
      | none => rfl
      | some e => rw [hf] at h1; simp at h1
    cases hp : g.phase with
    | start =>
      refine ⟨.syncmap t, { g with phase := .checked }, ?_, h, rfl, rfl, ?_,
        Or.inr ⟨by simp, rfl⟩⟩
      · unfold network.MessageTracker.stepAdd
        simp [hp, hload]
      · simp [hp, Phase.rank]
    | checked =>
      obtain ⟨t', h1, h2, h3, h4⟩ := syncmap.Tracker.Add_ok_syncmap t h g.message _ hadd
      rw [syncmap.Tracker.Add_eq_addLocked t g.message hload] at h1
      have h1' : t.addLocked g.message = .ok t' := by
        cases ha : t.addLocked g.message with
        | error p => simp [ha, Except.map] at h1
        | ok t1 =>
          simp only [ha, Except.map, Except.ok.injEq, Prod.mk.injEq, and_true] at h1
          rw [h1]
      refine ⟨.syncmap t', { g with phase := .done }, ?_, h2, h4, rfl, ?_, Or.inl ⟨rfl, h3⟩⟩
      · unfold network.MessageTracker.stepAdd
        simp [hp, h1', Except.map]
      · simp [hp, Phase.rank]
    | done => exact absurd hp hnd

theorem doneMessages_append (a b : List Goroutine) :
    doneMessages (a ++ b) = doneMessages a ++ doneMessages b := by
  simp [doneMessages]

theorem doneMessages_cons_done (g : Goroutine) (gs : List Goroutine)
    (h : g.phase = Phase.done) : doneMessages (g :: gs) = g.message :: doneMessages gs := by
  simp [doneMessages, h]

theorem doneMessages_cons_other (g : Goroutine) (gs : List Goroutine)
    (h : g.phase ≠ Phase.done) : doneMessages (g :: gs) = doneMessages gs := by
  simp [doneMessages, h]

theorem doneMessages_length_le (gs : List Goroutine) :
    (doneMessages gs).length ≤ gs.length := by
  simp only [doneMessages, List.length_map]
  exact List.length_filter_le _ _

theorem mem_doneMessages (x : network.Message) (gs : List Goroutine)
    (h : x ∈ doneMessages gs) : ∃ g ∈ gs, g.message = x := by
  simp only [doneMessages, List.mem_map, List.mem_filter] at h
  obtain ⟨g, ⟨hg, _⟩, hx⟩ := h
  exact ⟨g, hg, hx⟩

theorem doneMessages_of_all_done (gs : List Goroutine)
    (h : ∀ g ∈ gs, g.phase = Phase.done) : doneMessages gs = gs.map Goroutine.message := by
  simp only [doneMessages]
  rw [List.filter_eq_self.mpr]
  intro g hg
  simp [h g hg]

theorem Phase.rank_le (p : Phase) : p.rank ≤ 2 := by
  cases p <;> simp [Phase.rank]

theorem Phase.rank_done (p : Phase) (h : 2 ≤ p.rank) : p = Phase.done := by
  cases p <;> simp [Phase.rank] at h ⊢

theorem runSchedule_inv (C : Int) (ms : List network.Message)
    (hd : (ms.map (fun m => m.ID)).Nodup) (hk : (ms.length : Int) ≤ C) (sched : List Nat)
    (mt : network.MessageTracker) (gs : List Goroutine) (h : mt.Inv)
    (hcap : mt.capacity = C) (hms : gs.map Goroutine.message = ms)
    (hperm : mt.held.Perm (doneMessages gs)) :
    ∃ mt' gs', runSchedule mt gs sched = .ok (mt', gs') ∧ mt'.Inv ∧ mt'.capacity = C ∧
      gs'.map Goroutine.message = ms ∧ mt'.held.Perm (doneMessages gs') ∧
      ∀ j g, gs[j]? = some g →
        ∃ g', gs'[j]? = some g' ∧ min 2 (g.phase.rank + sched.count j) ≤ g'.phase.rank := by
  induction sched generalizing mt gs with
  | nil =>
    refine ⟨mt, gs, rfl, h, hcap, hms, hperm, fun j g hj => ⟨g, hj, ?_⟩⟩
    simp only [List.count_nil, Nat.add_zero]
    omega
  | cons i rest ih =>
    cases hgi : gs[i]? with
    | none =>
      obtain ⟨mt', gs', r1, r2, r3, r4, r5, r6⟩ := ih mt gs h hcap hms hperm
      refine ⟨mt', gs', by simp [runSchedule, hgi, r1], r2, r3, r4, r5, fun j g hj => ?_⟩
      have hne : i ≠ j := by
        intro he; subst he; rw [hgi] at hj; cases hj
      obtain ⟨g', k1, k2⟩ := r6 j g hj
      refine ⟨g', k1, ?_⟩
      rw [List.count_cons_of_ne (Ne.symm hne)]
      exact k2
    | some g =>
      obtain ⟨hi, hgi'⟩ := List.getElem?_eq_some.mp hgi
      by_cases hdone : g.phase = Phase.done
      · have hset : gs.set i g = gs := by
          obtain ⟨pre, post, e1, _, e3⟩ := @List.exists_of_set _ i g gs hi
          rw [e3, ← hgi']
          exact e1.symm
        obtain ⟨mt', gs', r1, r2, r3, r4, r5, r6⟩ := ih mt gs h hcap hms hperm
        refine ⟨mt', gs', ?_, r2, r3, r4, r5, fun j g0 hj => ?_⟩
        · simp [runSchedule, hgi, mt.stepAdd_done g hdone, hset, r1]
        · obtain ⟨g', k1, k2⟩ := r6 j g0 hj
          refine ⟨g', k1, ?_⟩
          by_cases hji : i = j
          · subst hji
            rw [hgi] at hj
            cases hj
            have : g.phase.rank = 2 := by rw [hdone]; rfl
            omega
          · rw [List.count_cons_of_ne (Ne.symm hji)]
            exact k2
      · -- the goroutine moves
        obtain ⟨pre, post, e1, e2, _⟩ := @List.exists_of_set _ i g gs hi
        rw [hgi'] at e1
        have hdm : doneMessages gs = doneMessages pre ++ doneMessages post := by
          rw [e1, doneMessages_append, doneMessages_cons_other g post hdone]
        have hids : ((pre ++ g :: post).map (fun x => x.message.ID)).Nodup := by
          have : (gs.map Goroutine.message).map (fun m => m.ID) = ms.map (fun m => m.ID) := by
            rw [hms]
          rw [← this, List.map_map, e1] at hd
          exact hd
        have hnew : Fifo.has mt.held g.message.ID = false := by
          rw [has_eq_false_iff]
          intro x hx hxid
          have hx' : x ∈ doneMessages pre ++ doneMessages post := by
            rw [← hdm]; exact hperm.subset hx
          rw [List.map_append, List.map_cons] at hids
          rcases List.mem_append.mp hx' with hp | hp
          · obtain ⟨g0, hg0, hm0⟩ := mem_doneMessages x pre hp
            refine (List.nodup_append.mp hids).2.2
              (List.mem_map_of_mem (fun x => x.message.ID) hg0) ?_
            simp only [hm0, hxid]
            exact List.mem_cons_self _ _
          · obtain ⟨g0, hg0, hm0⟩ := mem_doneMessages x post hp
            have hnd := (List.nodup_cons.mp (List.nodup_append.mp hids).2.1).1
            apply hnd
            have := List.mem_map_of_mem (fun x => x.message.ID) hg0
            simp only [hm0, hxid] at this
            exact this
        have hroom : (mt.held.length : Int) < mt.capacity := by
          have h1 : mt.held.length = (doneMessages pre ++ doneMessages post).length := by
            rw [← hdm]; exact hperm.length_eq
          have h2 := doneMessages_length_le pre
          have h3 := doneMessages_length_le post
          have h4 : ms.length = gs.length := by rw [← hms, List.length_map]
          have h5 : gs.length = pre.length + (post.length + 1) := by
            rw [e1, List.length_append, List.length_cons]
          rw [List.length_append] at h1
          rw [hcap]
          omega
        obtain ⟨mt1, g1, s1, s2, s3, s4, s5, s6⟩ := mt.stepAdd_spec h g hdone hnew hroom
        obtain ⟨pre', post', e1', e2', e3'⟩ := @List.exists_of_set _ i g1 gs hi
        rw [hgi'] at e1'
        have hpre : pre' = pre ∧ post' = post := by
          have := e1.symm.trans e1'
          have hl : pre.length = pre'.length := by rw [e2, e2']
          exact ⟨(List.append_inj this hl).1.symm,
            (List.cons.inj (List.append_inj this hl).2).2.symm⟩
        rw [hpre.1, hpre.2] at e3'
        have hms1 : (gs.set i g1).map Goroutine.message = ms := by
          rw [e3', ← hms, e1]
          simp [s4]
        have hperm1 : mt1.held.Perm (doneMessages (gs.set i g1)) := by
          rw [e3', doneMessages_append]
          rcases s6 with ⟨p1, p2⟩ | ⟨p1, p2⟩
          · rw [doneMessages_cons_done g1 post p1, p2, s4]
            have : (mt.held ++ [g.message]).Perm
                ((doneMessages pre ++ doneMessages post) ++ [g.message]) := by
              rw [← hdm]
              exact List.Perm.append_right _ hperm
            refine this.trans ?_
            rw [List.append_assoc]
            exact List.Perm.append_left _ (List.perm_append_singleton _ _)
          · rw [doneMessages_cons_other g1 post p1, p2, ← hdm]
            exact hperm
        obtain ⟨mt', gs', r1, r2, r3, r4, r5, r6⟩ :=
          ih mt1 (gs.set i g1) s2 (by rw [s3, hcap]) hms1 hperm1
        refine ⟨mt', gs', ?_, r2, r3, r4, r5, fun j g0 hj => ?_⟩
        · simp [runSchedule, hgi, s1, r1]
        · by_cases hji : i = j
          · subst hji
            rw [hgi] at hj
            cases hj
            obtain ⟨g', k1, k2⟩ := r6 i g1 (List.getElem?_set_self hi)
            refine ⟨g', k1, ?_⟩
            rw [List.count_cons_self]
            omega
          · obtain ⟨g', k1, k2⟩ := r6 j g0 (by rw [List.getElem?_set_ne hji]; exact hj)
            refine ⟨g', k1, ?_⟩
            rw [List.count_cons_of_ne (Ne.symm hji)]
            exact k2

theorem goroutines_messages (ms : List network.Message) :
    (goroutines ms).map Goroutine.message = ms := by
  simp [goroutines, List.map_map, Function.comp_def]

theorem doneMessages_goroutines (ms : List network.Message) :
    doneMessages (goroutines ms) = [] := by
  simp [doneMessages, goroutines, List.filter_eq_nil_iff]


/-! ## Trackers of one kind that hold the same messages -/

theorem network.MessageTracker.run_kind (calls : List Call) (mt mt' : network.MessageTracker)
    (rets : List Ret) (hr : mt.run calls = .ok (mt', rets)) :
    mt'.isSinglemap = mt.isSinglemap := by
  induction calls generalizing mt rets with
  | nil =>
    simp only [network.MessageTracker.run, Except.ok.injEq, Prod.mk.injEq] at hr
    rw [← hr.1]
  | cons c rest ih =>
    simp only [network.MessageTracker.run] at hr
    cases hc : mt.call c with
    | error p => simp [hc] at hr
    | ok res =>
      obtain ⟨mt1, r⟩ := res
      simp only [hc] at hr
      cases hrest : mt1.run rest with
      | error p => simp [hrest] at hr
      | ok res2 =>
        obtain ⟨mt2, rs⟩ := res2
        simp only [hrest, Except.ok.injEq, Prod.mk.injEq] at hr
        obtain ⟨hr1, _⟩ := hr
        subst hr1
        rw [ih mt1 rs hrest, mt.call_kind mt1 c r hc]

theorem network.MessageTracker.listing_after (mt mt' : network.MessageTracker) (h : mt.Inv)
    (h' : mt'.Inv) (xs : List network.Message) (hl : mt.listing = .ok xs)
    (hk : mt'.isSinglemap = mt.isSinglemap) (hc : mt'.capacity = mt.capacity)
    (hlen : mt'.held.length ≤ mt.held.length) : mt'.listing = .ok mt'.held :=
  mt'.listing_ok h' (mt.fits_of_fits mt' h h' (mt.fits_of_listing h xs hl) hk hc hlen)

theorem network.MessageTracker.listing_congr (mt mt' : network.MessageTracker) (h : mt.Inv)
    (h' : mt'.Inv) (hk : mt'.isSinglemap = mt.isSinglemap) (hc : mt'.capacity = mt.capacity)
    (hh : mt'.held = mt.held) : mt'.listing = mt.listing := by
  by_cases hf : mt.fits
  · rw [mt.listing_ok h hf,
      mt'.listing_ok h' (mt.fits_of_fits mt' h h' hf hk hc (by rw [hh])), hh]
  · have hf' : ¬ mt'.fits := fun hf' =>
      hf (mt'.fits_of_fits mt h' h hf' hk.symm hc.symm (by rw [hh]))
    rw [mt.listing_error h hf, mt'.listing_error h' hf']

theorem network.MessageTracker.call_congr (mt mt' : network.MessageTracker) (h : mt.Inv)
    (h' : mt'.Inv) (hk : mt'.isSinglemap = mt.isSinglemap) (hc : mt'.capacity = mt.capacity)
    (hh : mt'.held = mt.held) (c : Call) :
    (∃ p, mt.call c = .error p ∧ mt'.call c = .error p) ∨
    (∃ mt1 mt1' r, mt.call c = .ok (mt1, r) ∧ mt'.call c = .ok (mt1', r) ∧ mt1.Inv ∧
      mt1'.Inv ∧ mt1'.isSinglemap = mt1.isSinglemap ∧ mt1'.capacity = mt1.capacity ∧
      mt1'.held = mt1.held) := by
  have key : ∀ ys r, Fifo.step mt.capacity mt.held c = .ok (ys, r) →
      (c = Call.Messages → mt.fits) →
      ∃ mt1 mt1' r, mt.call c = .ok (mt1, r) ∧ mt'.call c = .ok (mt1', r) ∧ mt1.Inv ∧
        mt1'.Inv ∧ mt1'.isSinglemap = mt1.isSinglemap ∧ mt1'.capacity = mt1.capacity ∧
        mt1'.held = mt1.held := by
    intro ys r hs hm
    obtain ⟨mt1, a1, a2, a3, a4⟩ := mt.call_ok h c ys r hs hm
    obtain ⟨mt1', b1, b2, b3, b4⟩ := mt'.call_ok h' c ys r (by rw [hc, hh]; exact hs)
      (fun e => mt.fits_of_fits mt' h h' (hm e) hk hc (by rw [hh]))
    exact ⟨mt1, mt1', r, a1, b1, a2, b2,
      by rw [mt'.call_kind mt1' c r b1, mt.call_kind mt1 c r a1, hk],
      by rw [b4, a4, hc], by rw [b3, a3]⟩
  by_cases hm : c = Call.Messages
  · by_cases hf : mt.fits
    · subst hm
      exact Or.inr (key mt.held (Ret.Messages mt.held) rfl (fun _ => hf))
    · have hf' : ¬ mt'.fits := fun hf' =>
        hf (mt'.fits_of_fits mt h' h hf' hk.symm hc.symm (by rw [hh]))
      subst hm
      refine Or.inl ⟨Panic.makeslice, ?_, ?_⟩
      · rcases mt.Messages_eq h with ⟨hfit, _⟩ | ⟨_, he⟩
        · exact absurd hfit hf
        · simp [network.MessageTracker.call, he, Except.map]
      · rcases mt'.Messages_eq h' with ⟨hfit, _⟩ | ⟨_, he⟩
        · exact absurd hfit hf'
        · simp [network.MessageTracker.call, he, Except.map]
  · cases hs : Fifo.step mt.capacity mt.held c with
    | error p =>
      exact Or.inl ⟨p, mt.call_error h c p hs, mt'.call_error h' c p (by rw [hc, hh]; exact hs)⟩
    | ok res =>
      obtain ⟨ys, r⟩ := res
      exact Or.inr (key ys r hs (fun e => absurd e hm))

theorem network.MessageTracker.run_congr (calls : List Call) (mt mt' : network.MessageTracker)
    (h : mt.Inv) (h' : mt'.Inv) (hk : mt'.isSinglemap = mt.isSinglemap)
    (hc : mt'.capacity = mt.capacity) (hh : mt'.held = mt.held) :
    (mt'.run calls).map (fun r => r.2) = (mt.run calls).map (fun r => r.2) := by
  induction calls generalizing mt mt' with
  | nil => rfl
  | cons c rest ih =>
    rcases mt.call_congr mt' h h' hk hc hh c with ⟨p, e1, e2⟩ | ⟨mt1, mt1', r, e1, e2, i1, i2, k, cc, hd⟩
    · simp [network.MessageTracker.run, e1, e2, Except.map]
    · have := ih mt1 mt1' i1 i2 k cc hd
      simp only [network.MessageTracker.run, e1, e2]
      cases hr : mt1.run rest with
      | error p =>
        cases hr' : mt1'.run rest with
        | error q =>
          rw [hr, hr'] at this
          simpa [Except.map] using this
        | ok res' => rw [hr, hr'] at this; simp [Except.map] at this
      | ok res =>
        cases hr' : mt1'.run rest with
        | error q => rw [hr, hr'] at this; simp [Except.map] at this
        | ok res' =>
          rw [hr, hr'] at this
          simp only [Except.map, Except.ok.injEq] at this
          simp [Except.map, this]

theorem Fifo.run_writes (C : Int) (calls : List Call) (xs ys : List network.Message)
    (rets : List Ret) (h : Fifo.run C xs calls = .ok (ys, rets)) :
    Fifo.run C xs (calls.filter Call.isWrite) = .ok (ys, writeRets calls rets) := by
  induction calls generalizing xs rets with
  | nil =>
    simp only [Fifo.run, Except.ok.injEq, Prod.mk.injEq] at h
    simp [Fifo.run, writeRets, h.1]
  | cons c rest ih =>
    simp only [Fifo.run] at h
    cases hc : Fifo.step C xs c with
    | error p => simp [hc] at h
    | ok res =>
      obtain ⟨zs, r⟩ := res
      simp only [hc] at h
      cases hrest : Fifo.run C zs rest with
      | error p => simp [hrest] at h
      | ok res2 =>
        obtain ⟨ws, rs⟩ := res2
        simp only [hrest, Except.ok.injEq, Prod.mk.injEq] at h
        obtain ⟨h1, h2⟩ := h
        subst h1; subst h2
        have hi := ih zs rs hrest
        cases hw : c.isWrite with
        | false =>
          obtain ⟨r', hr'⟩ := Fifo.step_read C c hw xs
          rw [hr'] at hc
          simp only [Except.ok.injEq, Prod.mk.injEq] at hc
          rw [List.filter_cons_of_neg (by simp [hw]), hc.1, hi]
          simp [writeRets, hw]
        | true =>
          rw [List.filter_cons_of_pos (by simp [hw])]
          simp [Fifo.run, hc, hi, writeRets, hw]

theorem not_mem_filter_isWrite (calls : List Call) :
    Call.Messages ∉ calls.filter Call.isWrite := by
  intro h
  have := (List.mem_filter.mp h).2
  simp [Call.isWrite] at this

theorem network.MessageTracker.run_error_writes (calls : List Call)
    (mt : network.MessageTracker) (h : mt.Inv) (p : Panic) (hr : mt.run calls = .error p) :
    mt.run (calls.filter Call.isWrite) = .error p ∨ p = Panic.makeslice := by
  induction calls generalizing mt with
  | nil => simp [network.MessageTracker.run] at hr
  | cons c rest ih =>
    simp only [network.MessageTracker.run] at hr
    cases hc : mt.call c with
    | error q =>
      simp only [hc, Except.error.injEq] at hr
      subst hr
      cases hw : c.isWrite with
      | true =>
        rw [List.filter_cons_of_pos (by simp [hw])]
        exact Or.inl (by simp [network.MessageTracker.run, hc])
      | false =>
        right
        cases c with
        | Add m => simp [Call.isWrite] at hw
        | Delete id => simp [Call.isWrite] at hw
        | Message id =>
          simp [network.MessageTracker.call, mt.Message_eq h, Except.map] at hc
        | Messages =>
          rcases mt.Messages_eq h with ⟨_, mt1, e1, _⟩ | ⟨_, he⟩
          · simp [network.MessageTracker.call, e1, Except.map] at hc
          · simp only [network.MessageTracker.call, he, Except.map,
              Except.error.injEq] at hc
            exact hc.symm
    | ok res =>
      obtain ⟨mt1, r⟩ := res
      simp only [hc] at hr
      cases hrest : mt1.run rest with
      | ok res2 => simp [hrest] at hr
      | error q =>
        simp only [hrest, Except.error.injEq] at hr
        subst hr
        obtain ⟨i1, c1, s1⟩ := mt.call_sound mt1 h c r hc
        rcases ih mt1 i1 hrest with hi | hi
        · left
          cases hw : c.isWrite with
          | true =>
            rw [List.filter_cons_of_pos (by simp [hw])]
            simp [network.MessageTracker.run, hc, hi]
          | false =>
            rw [List.filter_cons_of_neg (by simp [hw])]
            obtain ⟨r', hstep⟩ := Fifo.step_read mt.capacity c hw mt.held
            rw [hstep] at s1
            simp only [Except.ok.injEq, Prod.mk.injEq] at s1
            have hcg := network.MessageTracker.run_congr (rest.filter Call.isWrite) mt mt1 h i1
              (mt.call_kind mt1 c r hc) c1 s1.1.symm
            rw [hi] at hcg
            cases hm : mt.run (rest.filter Call.isWrite) with
            | error q' =>
              rw [hm] at hcg
              simp only [Except.map, Except.error.injEq] at hcg
              rw [hcg]
            | ok res3 => rw [hm] at hcg; simp [Except.map] at hcg
        · exact Or.inr hi

/-! ## Runs below the limit of `make` -/

/-- Below the limit of `make` no call panics: for `C ≥ 1`, a run on a new tracker in which
`Messages` is called only when `C ≤ maxCap` returns one result per call, every `Add`
returns a nil error, `Delete` and `Message` return a nil error or `ErrMessageNotFound`,
and in the state reached the eviction test implies a non-nil `Front()` and every value in
the list and in the index has the asserted type. -/
theorem network.MessageTracker.run_returns_below_limit
    (creator : Int → network.MessageTracker) (hc : creator ∈ getTrackerMethods) (C : Int)
    (hC : 1 ≤ C) (calls : List Call) (hM : Call.Messages ∈ calls → C ≤ maxCap) :
    ∃ mt rets, (creator C).run calls = .ok (mt, rets) ∧ rets.length = calls.length ∧
      (∀ r ∈ rets, r.expected) ∧ mt.WellTyped := by
  obtain ⟨h0, x0, c0⟩ := network.MessageTracker.new_inv creator hc C
  obtain ⟨mt, rets, h1, h2, h3, h4⟩ := (creator C).run_total h0 (by rw [c0]; exact hC) calls
    (fun hm => by rw [c0]; exact hM hm)
  exact ⟨mt, rets, h1, Fifo.run_length _ _ _ _ _ h4, Fifo.run_expected _ _ _ _ _ h4,
    mt.wellTyped h2 (by rw [h3, c0]; exact hC)⟩

/-- Below the limit of `make` the two implementations agree: a run in which `Messages` is
called only when `0 ≤ C ≤ maxCap` ends alike on the two new trackers of capacity `C`, with
the same results or with the same panic. -/
theorem network.MessageTracker.run_agrees_below_limit (C : Int) (calls : List Call)
    (hM : Call.Messages ∈ calls → 0 ≤ C ∧ C ≤ maxCap) :
    ((singlemap.NewMessageTracker C).run calls).map (fun r => r.2) =
      ((syncmap.NewMessageTracker C).run calls).map (fun r => r.2) := by
  obtain ⟨h1, x1, c1⟩ := network.MessageTracker.new_inv singlemap.NewMessageTracker
    (by simp [getTrackerMethods]) C
  obtain ⟨h2, x2, c2⟩ := network.MessageTracker.new_inv syncmap.NewMessageTracker
    (by simp [getTrackerMethods]) C
  rw [network.MessageTracker.run_rets_eq _ h1 calls (by rw [c1]; exact hM),
    network.MessageTracker.run_rets_eq _ h2 calls (by rw [c2]; exact hM), x1, x2, c1, c2]

/-! ## The claims -/

/-- C1 (FIFO eviction, closed form). For each of the two implementations, every capacity
`C ≥ 1` and every list `ms` of more than `C` messages with pairwise distinct ids: adding
them in order to a new tracker of capacity `C` returns every time; the linked list then
holds exactly the last `C` messages of `ms`, in their order, and `Messages()` returns
exactly these. The condition `C ≤ maxCap` on the last part is the limit of `make`: a
listing of more than `2^45` messages cannot be allocated. -/
theorem C1_fifo_eviction (creator : Int → network.MessageTracker)
    (hc : creator ∈ getTrackerMethods) (C : Int) (hC : 1 ≤ C) (ms : List network.Message)
    (hN : C < (ms.length : Int)) (hd : (ms.map (fun m => m.ID)).Nodup) :
    ∃ mt rets, (creator C).run (ms.map Call.Add) = .ok (mt, rets) ∧
      mt.traversal = .ok (ms.drop (ms.length - C.toNat)) ∧
      (C ≤ maxCap → mt.listing = .ok (ms.drop (ms.length - C.toNat))) ∧
      (ms.drop (ms.length - C.toNat)).length = C.toNat := by
  obtain ⟨h0, x0, c0⟩ := network.MessageTracker.new_inv creator hc C
  obtain ⟨rets, hrun⟩ := Fifo.run_adds C hC ms [] (by simp; omega) (by simpa using hd)
  rw [← c0, ← x0] at hrun
  obtain ⟨mt, h1, h2, h3, h4⟩ :=
    network.MessageTracker.run_ok (ms.map Call.Add) (creator C) h0 (fun hm => by simp at hm)
      _ rets hrun
  have hheld : mt.held = ms.drop (ms.length - C.toNat) := by
    rw [h3, x0, c0]
    simp
  refine ⟨mt, rets, h1, ?_, ?_, ?_⟩
  · rw [mt.traversal_eq h2, hheld]
  · intro hM
    rw [mt.listing_ok h2 (mt.fits_of_capacity h2 (by rw [h4, c0]; omega)), hheld]
  · simp only [List.length_drop]
    omega

/-- C1 at capacity 5 with the ten messages `generateMessage 0 .. generateMessage 9` of the
test suite, on the `syncmap` tracker: ids 5, 6, 7, 8, 9 remain. -/
theorem C1_fifo_eviction_witness :
    ∃ mt rets, (syncmap.NewMessageTracker 5).run
        ((List.map generateMessage [0, 1, 2, 3, 4, 5, 6, 7, 8, 9]).map Call.Add) =
        .ok (mt, rets) ∧
      mt.traversal = .ok (List.map generateMessage [5, 6, 7, 8, 9]) ∧
      ((5 : Int) ≤ maxCap → mt.listing = .ok (List.map generateMessage [5, 6, 7, 8, 9])) ∧
      (List.map generateMessage [5, 6, 7, 8, 9]).length = 5 :=
  C1_fifo_eviction syncmap.NewMessageTracker (by simp [getTrackerMethods]) 5 (by decide)
    (List.map generateMessage [0, 1, 2, 3, 4, 5, 6, 7, 8, 9]) (by decide) (by decide)

/-- C2 (duplicate suppression). For each implementation and every tracker state reached
from a new tracker: if `Messages()` is `xs` and `orig ∈ xs` has the id of `m` (whatever
`PeerID` and `Data` of `m` are), then `Add(m)` returns a nil error, `Messages()` is `xs`
afterwards as before (nothing is evicted, nothing moves), and `Message(m.ID)` returns the
stored `orig`, before and after the call. -/
theorem C2_duplicate_suppression (creator : Int → network.MessageTracker)
    (hc : creator ∈ getTrackerMethods) (C : Int) (mt : network.MessageTracker)
    (hr : Reachable (creator C) mt) (m orig : network.Message) (xs : List network.Message)
    (hl : mt.listing = .ok xs) (ho : orig ∈ xs) (hid : orig.ID = m.ID) :
    ∃ mt', mt.Add m = .ok (mt', none) ∧ mt'.listing = .ok xs ∧
      mt'.Message m.ID = .ok (some orig, none) ∧ mt.Message m.ID = .ok (some orig, none) := by
  obtain ⟨hinv, hcap⟩ := Reachable.inv creator hc C mt hr
  have hxs := mt.listing_sound hinv xs hl
  subst hxs
  have hhas : Fifo.has mt.held m.ID = true := (has_iff _ _).mpr ⟨orig, ho, hid⟩
  have hadd : Fifo.add mt.capacity mt.held m = .ok mt.held := by simp [Fifo.add, hhas]
  obtain ⟨mt', h1, h2, h3, h4⟩ := mt.Add_ok hinv m _ hadd
  have hget := Fifo.get_of_mem mt.held (mt.held_nodup hinv) orig ho
  rw [hid] at hget
  refine ⟨mt', h1, ?_, ?_, ?_⟩
  · rw [mt.listing_after mt' hinv h2 _ hl (mt.Add_kind mt' m none h1) h4 (by rw [h3]), h3]
  · rw [mt'.Message_eq h2, h3, hget]
  · rw [mt.Message_eq hinv, hget]

/-- C2 on a full `singlemap` tracker of capacity 1 holding id "a" from peer "p": adding id
"a" again from peer "q" with other data changes nothing. -/
theorem C2_duplicate_suppression_witness :
    ∃ mt', (network.MessageTracker.singlemap
        { length := 1,
          list := ⟨[⟨0, GoAny.message ⟨"a", "p", []⟩⟩], 1⟩,
          listMap := [("a", some ⟨0, GoAny.message ⟨"a", "p", []⟩⟩)],
          messages := none }).Add ⟨"a", "q", [7]⟩ = .ok (mt', none) ∧
      mt'.listing = .ok [⟨"a", "p", []⟩] ∧
      mt'.Message "a" = .ok (some ⟨"a", "p", []⟩, none) ∧
      (network.MessageTracker.singlemap
        { length := 1,
          list := ⟨[⟨0, GoAny.message ⟨"a", "p", []⟩⟩], 1⟩,
          listMap := [("a", some ⟨0, GoAny.message ⟨"a", "p", []⟩⟩)],
          messages := none }).Message "a" = .ok (some ⟨"a", "p", []⟩, none) :=
  C2_duplicate_suppression singlemap.NewMessageTracker (by simp [getTrackerMethods]) 1 _
    ⟨[Call.Add ⟨"a", "p", []⟩], [Ret.Add none], rfl⟩ ⟨"a", "q", [7]⟩ ⟨"a", "p", []⟩
    [⟨"a", "p", []⟩] rfl (by simp) rfl

/-- C3 (delete of a present id). For each implementation and every reachable state whose
`Messages()` is `xs`, with `x ∈ xs`: `Delete(x.ID)` returns a nil error; `xs` splits as
`pre ++ x :: post`, `Messages()` is `pre ++ post` afterwards, no other element has the id
of `x`, and `Message(x.ID)` then returns `ErrMessageNotFound`. -/
theorem C3_delete_present (creator : Int → network.MessageTracker)
    (hc : creator ∈ getTrackerMethods) (C : Int) (mt : network.MessageTracker)
    (hr : Reachable (creator C) mt) (xs : List network.Message)
    (hl : mt.listing = .ok xs) (x : network.Message) (hx : x ∈ xs) :
    ∃ mt' pre post, mt.Delete x.ID = .ok (mt', none) ∧ xs = pre ++ x :: post ∧
      mt'.listing = .ok (pre ++ post) ∧ (∀ y ∈ pre ++ post, y.ID ≠ x.ID) ∧
      mt'.Message x.ID = .ok (none, some network.ErrMessageNotFound) := by
  obtain ⟨hinv, hcap⟩ := Reachable.inv creator hc C mt hr
  have hxs := mt.listing_sound hinv xs hl
  subst hxs
  have hhas : Fifo.has mt.held x.ID = true := (has_iff _ _).mpr ⟨x, hx, rfl⟩
  obtain ⟨pre, post, h1, h2, h3⟩ := eraseP_of_mem_nodup mt.held (mt.held_nodup hinv) x hx
  obtain ⟨mt', d1, d2, d3, d4, _⟩ := mt.Delete_eq hinv x.ID
  simp only [Fifo.delete, hhas, if_true] at d1 d3
  rw [h2] at d3
  refine ⟨mt', pre, post, d1, h1, ?_, h3, ?_⟩
  · rw [mt.listing_after mt' hinv d2 _ hl (mt.Delete_kind mt' x.ID none d1) d4
      (by rw [d3, h1]; simp), d3]
  · rw [mt'.Message_eq d2, d3, Fifo.get_of_not_has _ _ h3]

/-- C3 on a `syncmap` tracker holding ids "a", "b", "c": deleting "b" leaves "a", "c". -/
theorem C3_delete_present_witness :
    ∃ mt' pre post, (network.MessageTracker.syncmap
        { length := 3,
          list := ⟨[⟨0, GoAny.message ⟨"a", "p", []⟩⟩, ⟨1, GoAny.message ⟨"b", "p", []⟩⟩,
            ⟨2, GoAny.message ⟨"c", "p", []⟩⟩], 3⟩,
          listMap := [("c", GoAny.element 2 (GoAny.message ⟨"c", "p", []⟩)),
            ("b", GoAny.element 1 (GoAny.message ⟨"b", "p", []⟩)),
            ("a", GoAny.element 0 (GoAny.message ⟨"a", "p", []⟩))],
          messages := none }).Delete "b" = .ok (mt', none) ∧
      [(⟨"a", "p", []⟩ : network.Message), ⟨"b", "p", []⟩, ⟨"c", "p", []⟩] =
        pre ++ ⟨"b", "p", []⟩ :: post ∧
      mt'.listing = .ok (pre ++ post) ∧
      (∀ y ∈ pre ++ post, y.ID ≠ "b") ∧
      mt'.Message "b" = .ok (none, some network.ErrMessageNotFound) :=
  C3_delete_present syncmap.NewMessageTracker (by simp [getTrackerMethods]) 3 _
    ⟨[Call.Add ⟨"a", "p", []⟩, Call.Add ⟨"b", "p", []⟩, Call.Add ⟨"c", "p", []⟩],
      [Ret.Add none, Ret.Add none, Ret.Add none], rfl⟩
    [⟨"a", "p", []⟩, ⟨"b", "p", []⟩, ⟨"c", "p", []⟩] rfl ⟨"b", "p", []⟩ (by simp)

/-- C4 (delete of an absent id). For each implementation and every reachable state (the
new tracker included): the messages held are the front-to-back traversal `xs` of the
linked list, which is what `Messages()` lists whenever it returns. For every id that no
message of `xs` has, `Delete(id)` returns exactly `ErrMessageNotFound` and the tracker
afterwards is the tracker before, so that `Messages()` and `Message(j)` for every `j`
give what they gave before. -/
theorem C4_delete_absent (creator : Int → network.MessageTracker)
    (hc : creator ∈ getTrackerMethods) (C : Int) (mt : network.MessageTracker)
    (hr : Reachable (creator C) mt) (id : String) (xs : List network.Message)
    (ht : mt.traversal = .ok xs) (hab : ∀ x ∈ xs, x.ID ≠ id) :
    ∃ mt', mt.Delete id = .ok (mt', some network.ErrMessageNotFound) ∧ mt' = mt ∧
      mt'.listing = mt.listing ∧ (∀ j, mt'.Message j = mt.Message j) ∧
      (∀ ys, mt.listing = .ok ys → ys = xs) := by
  obtain ⟨hinv, hcap⟩ := Reachable.inv creator hc C mt hr
  rw [mt.traversal_eq hinv, Except.ok.injEq] at ht
  subst ht
  have hhas : Fifo.has mt.held id = false := (has_eq_false_iff _ _).mpr hab
  obtain ⟨mt', d1, _, _, _, d5⟩ := mt.Delete_eq hinv id
  have hmt := d5 hhas
  subst hmt
  simp only [Fifo.delete, hhas] at d1
  exact ⟨mt', d1, rfl, rfl, fun _ => rfl, fun ys hys => mt'.listing_sound hinv ys hys⟩

/-- C4 on a `singlemap` tracker of capacity `2^62` that holds id "a", and the id "b" (at
this capacity `Messages()` panics before and after the call). -/
theorem C4_delete_absent_witness :
    ∃ mt', (network.MessageTracker.singlemap
        { length := 4611686018427387904,
          list := ⟨[⟨0, GoAny.message ⟨"a", "p", []⟩⟩], 1⟩,
          listMap := [("a", some ⟨0, GoAny.message ⟨"a", "p", []⟩⟩)],
          messages := none }).Delete "b" = .ok (mt', some network.ErrMessageNotFound) ∧
      mt' = network.MessageTracker.singlemap
        { length := 4611686018427387904,
          list := ⟨[⟨0, GoAny.message ⟨"a", "p", []⟩⟩], 1⟩,
          listMap := [("a", some ⟨0, GoAny.message ⟨"a", "p", []⟩⟩)],
          messages := none } ∧
      mt'.listing = (network.MessageTracker.singlemap
        { length := 4611686018427387904,
          list := ⟨[⟨0, GoAny.message ⟨"a", "p", []⟩⟩], 1⟩,
          listMap := [("a", some ⟨0, GoAny.message ⟨"a", "p", []⟩⟩)],
          messages := none }).listing ∧
      (∀ j, mt'.Message j = (network.MessageTracker.singlemap
        { length := 4611686018427387904,
          list := ⟨[⟨0, GoAny.message ⟨"a", "p", []⟩⟩], 1⟩,
          listMap := [("a", some ⟨0, GoAny.message ⟨"a", "p", []⟩⟩)],
          messages := none }).Message j) ∧
      (∀ ys, (network.MessageTracker.singlemap
        { length := 4611686018427387904,
          list := ⟨[⟨0, GoAny.message ⟨"a", "p", []⟩⟩], 1⟩,
          listMap := [("a", some ⟨0, GoAny.message ⟨"a", "p", []⟩⟩)],
          messages := none }).listing = .ok ys → ys = [⟨"a", "p", []⟩]) :=
  C4_delete_absent singlemap.NewMessageTracker (by simp [getTrackerMethods])
    4611686018427387904 _ ⟨[Call.Add ⟨"a", "p", []⟩], [Ret.Add none], rfl⟩ "b"
    [⟨"a", "p", []⟩] rfl (by simp)

/-- C5 (get correctness). For each implementation, every state reached from a new
tracker of capacity `C` and every id: whenever `Messages()` returns `xs`, `Message(id)`
returns `(m, nil)` exactly when `m` is an element of `xs` with this id, and
`(nil, ErrMessageNotFound)` exactly when no element of `xs` has the id. `Messages()`
returns the front-to-back traversal `ys` of the linked list when `0 ≤ C ≤ maxCap`, and
returns it or panics in `make` otherwise; the same two equivalences hold against `ys` in
every case. `Message(id)` returns one of the two results and never panics, and on a new
tracker of any capacity it returns `(nil, ErrMessageNotFound)`. -/
theorem C5_get_correctness (creator : Int → network.MessageTracker)
    (hc : creator ∈ getTrackerMethods) (C : Int) (mt : network.MessageTracker)
    (hr : Reachable (creator C) mt) (id : String) :
    (∀ xs, mt.listing = .ok xs →
      (∀ m, mt.Message id = .ok (some m, none) ↔ (m ∈ xs ∧ m.ID = id)) ∧
      ((∀ x ∈ xs, x.ID ≠ id) ↔
        mt.Message id = .ok (none, some network.ErrMessageNotFound))) ∧
    (∃ ys, mt.traversal = .ok ys ∧
      (0 ≤ C ∧ C ≤ maxCap → mt.listing = .ok ys) ∧
      (mt.listing = .ok ys ∨ mt.listing = .error Panic.makeslice) ∧
      (∀ m, mt.Message id = .ok (some m, none) ↔ (m ∈ ys ∧ m.ID = id)) ∧
      ((∀ x ∈ ys, x.ID ≠ id) ↔
        mt.Message id = .ok (none, some network.ErrMessageNotFound))) ∧
    ((∃ m, mt.Message id = .ok (some m, none)) ∨
      mt.Message id = .ok (none, some network.ErrMessageNotFound)) ∧
    (creator C).Message id = .ok (none, some network.ErrMessageNotFound) := by
  obtain ⟨hinv, hcap⟩ := Reachable.inv creator hc C mt hr
  obtain ⟨h0, x0, _⟩ := network.MessageTracker.new_inv creator hc C
  have hnd := mt.held_nodup hinv
  have key : (∀ m, mt.Message id = .ok (some m, none) ↔ (m ∈ mt.held ∧ m.ID = id)) ∧
      ((∀ x ∈ mt.held, x.ID ≠ id) ↔
        mt.Message id = .ok (none, some network.ErrMessageNotFound)) := by
    rw [mt.Message_eq hinv]
    constructor
    · intro m
      constructor
      · intro hm
        simp only [Fifo.get] at hm
        split at hm
        · next m' hf =>
          obtain ⟨h1, h2⟩ := mem_of_find? _ _ _ hf
          simp only [Except.ok.injEq, Prod.mk.injEq, Option.some.injEq, and_true] at hm
          subst hm
          exact ⟨h1, h2⟩
        · simp at hm
      · rintro ⟨h1, h2⟩
        rw [← h2, Fifo.get_of_mem _ hnd m h1]
    · constructor
      · intro hno
        rw [Fifo.get_of_not_has _ _ hno]
      · intro hg x hx hid
        rw [← hid, Fifo.get_of_mem _ hnd x hx] at hg
        simp at hg
  refine ⟨?_, ⟨mt.held, mt.traversal_eq hinv, ?_, ?_, key⟩, ?_, ?_⟩
  · intro xs hl
    rw [mt.listing_sound hinv xs hl]
    exact key
  · intro hC
    exact mt.listing_ok hinv (mt.fits_of_capacity hinv (by rw [hcap]; exact hC))
  · by_cases hf : mt.fits
    · exact Or.inl (mt.listing_ok hinv hf)
    · exact Or.inr (mt.listing_error hinv hf)
  · rw [mt.Message_eq hinv]
    simp only [Fifo.get]
    split
    · next m hf => exact Or.inl ⟨m, rfl⟩
    · exact Or.inr rfl
  · rw [(creator C).Message_eq h0, x0]
    rfl

/-- C5 on a `syncmap` tracker of capacity 2 holding ids "a" and "b", asked for "b": the
listing is `[a, b]` and `Message("b")` returns the stored message. -/
theorem C5_get_correctness_witness :
    (network.MessageTracker.syncmap
      { length := 2,
        list := ⟨[⟨0, GoAny.message ⟨"a", "p", []⟩⟩, ⟨1, GoAny.message ⟨"b", "q", []⟩⟩], 2⟩,
        listMap := [("b", GoAny.element 1 (GoAny.message ⟨"b", "q", []⟩)),
          ("a", GoAny.element 0 (GoAny.message ⟨"a", "p", []⟩))],
        messages := none }).listing = .ok [⟨"a", "p", []⟩, ⟨"b", "q", []⟩] ∧
    (∀ m, (network.MessageTracker.syncmap
        { length := 2,
          list := ⟨[⟨0, GoAny.message ⟨"a", "p", []⟩⟩, ⟨1, GoAny.message ⟨"b", "q", []⟩⟩], 2⟩,
          listMap := [("b", GoAny.element 1 (GoAny.message ⟨"b", "q", []⟩)),
            ("a", GoAny.element 0 (GoAny.message ⟨"a", "p", []⟩))],
          messages := none }).Message "b" = .ok (some m, none) ↔
        (m ∈ [(⟨"a", "p", []⟩ : network.Message), ⟨"b", "q", []⟩] ∧ m.ID = "b")) ∧
    (syncmap.NewMessageTracker 2).Message "b" =
      .ok (none, some network.ErrMessageNotFound) :=
  ⟨rfl,
    ((C5_get_correctness syncmap.NewMessageTracker (by simp [getTrackerMethods]) 2 _
      ⟨[Call.Add ⟨"a", "p", []⟩, Call.Add ⟨"b", "q", []⟩], [Ret.Add none, Ret.Add none],
        rfl⟩ "b").1 [⟨"a", "p", []⟩, ⟨"b", "q", []⟩] rfl).1,
    (C5_get_correctness syncmap.NewMessageTracker (by simp [getTrackerMethods]) 2
      (syncmap.NewMessageTracker 2) ⟨[], [], rfl⟩ "b").2.2.2⟩

/-- C6 (add is observed by get). For each implementation, every capacity `C ≥ 1`, every
reachable state and every message `m`: `Add(m)` returns a nil error, and afterwards
`Message(m.ID)` returns a nil error and a message with the id of `m`. With `xs` the
messages held before the call and `ys` those held after it (the traversals of the linked
list, which are what `Messages()` lists whenever it returns): when no element of `xs` has
the id of `m`, the message returned is `m` itself and `m` is the last element of `ys`.
`Messages()` after the call returns `ys` when `C ≤ maxCap`. -/
theorem C6_add_then_get (creator : Int → network.MessageTracker)
    (hc : creator ∈ getTrackerMethods) (C : Int) (hC : 1 ≤ C) (mt : network.MessageTracker)
    (hr : Reachable (creator C) mt) (m : network.Message) :
    ∃ mt' m' xs ys, mt.Add m = .ok (mt', none) ∧ mt'.Message m.ID = .ok (some m', none) ∧
      m'.ID = m.ID ∧ mt.traversal = .ok xs ∧ mt'.traversal = .ok ys ∧
      ((∀ x ∈ xs, x.ID ≠ m.ID) → m' = m ∧ ys.getLast? = some m) ∧
      (∀ zs, mt.listing = .ok zs → zs = xs) ∧ (∀ zs, mt'.listing = .ok zs → zs = ys) ∧
      (C ≤ maxCap → mt'.listing = .ok ys) := by
  obtain ⟨hinv, hcap⟩ := Reachable.inv creator hc C mt hr
  have hb := mt.held_length_le hinv
  have fin : ∀ mt' : network.MessageTracker, mt'.Inv → mt'.capacity = mt.capacity →
      (∀ zs, mt.listing = .ok zs → zs = mt.held) ∧
      (∀ zs, mt'.listing = .ok zs → zs = mt'.held) ∧
      (C ≤ maxCap → mt'.listing = .ok mt'.held) := fun mt' h2 h4 =>
    ⟨fun zs hz => mt.listing_sound hinv zs hz, fun zs hz => mt'.listing_sound h2 zs hz,
      fun hM => mt'.listing_ok h2 (mt'.fits_of_capacity h2 (by rw [h4, hcap]; omega))⟩
  by_cases hhas : Fifo.has mt.held m.ID = true
  · obtain ⟨orig, ho, hid⟩ := (has_iff _ _).mp hhas
    have hadd : Fifo.add mt.capacity mt.held m = .ok mt.held := by simp [Fifo.add, hhas]
    obtain ⟨mt', h1, h2, h3, h4⟩ := mt.Add_ok hinv m _ hadd
    have hget := Fifo.get_of_mem mt.held (mt.held_nodup hinv) orig ho
    rw [hid] at hget
    refine ⟨mt', orig, mt.held, mt'.held, h1, ?_, hid, mt.traversal_eq hinv,
      mt'.traversal_eq h2, ?_, fin mt' h2 h4⟩
    · rw [mt'.Message_eq h2, h3, hget]
    · intro hno
      exact absurd hid (hno orig ho)
  · have hhas' : Fifo.has mt.held m.ID = false := by simpa using hhas
    have hadd := Fifo.add_new mt.capacity (by omega) mt.held (by omega) m hhas'
    rw [List.drop_append_of_le_length (by omega)] at hadd
    obtain ⟨mt', h1, h2, h3, h4⟩ := mt.Add_ok hinv m _ hadd
    have hget := Fifo.get_of_mem mt'.held (mt'.held_nodup h2) m (by rw [h3]; simp)
    refine ⟨mt', m, mt.held, mt'.held, h1, ?_, rfl, mt.traversal_eq hinv,
      mt'.traversal_eq h2, ?_, fin mt' h2 h4⟩
    · rw [mt'.Message_eq h2, hget]
    · intro _
      exact ⟨rfl, by rw [h3]; simp⟩

/-- C6 on a full `singlemap` tracker of capacity 1 holding id "a", adding id "b". -/
theorem C6_add_then_get_witness :
    ∃ mt' m' xs ys, (network.MessageTracker.singlemap
        { length := 1,
          list := ⟨[⟨0, GoAny.message ⟨"a", "p", []⟩⟩], 1⟩,
          listMap := [("a", some ⟨0, GoAny.message ⟨"a", "p", []⟩⟩)],
          messages := none }).Add ⟨"b", "q", [1]⟩ = .ok (mt', none) ∧
      mt'.Message "b" = .ok (some m', none) ∧ m'.ID = "b" ∧
      (network.MessageTracker.singlemap
        { length := 1,
          list := ⟨[⟨0, GoAny.message ⟨"a", "p", []⟩⟩], 1⟩,
          listMap := [("a", some ⟨0, GoAny.message ⟨"a", "p", []⟩⟩)],
          messages := none }).traversal = .ok xs ∧
      mt'.traversal = .ok ys ∧
      ((∀ x ∈ xs, x.ID ≠ "b") → m' = ⟨"b", "q", [1]⟩ ∧ ys.getLast? = some ⟨"b", "q", [1]⟩) ∧
      (∀ zs, (network.MessageTracker.singlemap
        { length := 1,
          list := ⟨[⟨0, GoAny.message ⟨"a", "p", []⟩⟩], 1⟩,
          listMap := [("a", some ⟨0, GoAny.message ⟨"a", "p", []⟩⟩)],
          messages := none }).listing = .ok zs → zs = xs) ∧
      (∀ zs, mt'.listing = .ok zs → zs = ys) ∧
      ((1 : Int) ≤ maxCap → mt'.listing = .ok ys) :=
  C6_add_then_get singlemap.NewMessageTracker (by simp [getTrackerMethods]) 1 (by decide) _
    ⟨[Call.Add ⟨"a", "p", []⟩], [Ret.Add none], rfl⟩ ⟨"b", "q", [1]⟩

/-- C7 (capacity bound). For each implementation, every capacity `C ≥ 1` and every finite
sequence of `Add`, `Delete`, `Message` and `Messages` calls on a new tracker of capacity
`C`, with arbitrary arguments: after every run that returned, the linked list holds at
most `C` messages and every `Messages()` that returns has at most `C` elements. When
`C ≤ maxCap` the run returns and `Messages()` returns after it; for every `C`, a run
without `Messages` calls returns. As the sequence is arbitrary, this holds after every
call of a run. -/
theorem C7_capacity_bound (creator : Int → network.MessageTracker)
    (hc : creator ∈ getTrackerMethods) (C : Int) (hC : 1 ≤ C) (calls : List Call) :
    (∀ mt rets, (creator C).run calls = .ok (mt, rets) →
      (∃ xs, mt.traversal = .ok xs ∧ (xs.length : Int) ≤ C) ∧
      (∀ ys, mt.listing = .ok ys → (ys.length : Int) ≤ C)) ∧
    (C ≤ maxCap → ∃ mt rets ys, (creator C).run calls = .ok (mt, rets) ∧
      mt.listing = .ok ys ∧ (ys.length : Int) ≤ C) ∧
    (Call.Messages ∉ calls → ∃ mt rets, (creator C).run calls = .ok (mt, rets)) := by
  obtain ⟨h0, x0, c0⟩ := network.MessageTracker.new_inv creator hc C
  refine ⟨?_, ?_, ?_⟩
  · intro mt rets hrun
    obtain ⟨h2, h3, _⟩ := network.MessageTracker.run_sound calls (creator C) mt h0 rets hrun
    have hb := mt.held_length_le h2
    rw [h3, c0] at hb
    refine ⟨⟨mt.held, mt.traversal_eq h2, by omega⟩, fun ys hys => ?_⟩
    rw [mt.listing_sound h2 ys hys]
    omega
  · intro hM
    obtain ⟨mt, rets, h1, h2, h3, _⟩ := (creator C).run_total h0 (by rw [c0]; exact hC) calls
      (fun _ => by rw [c0]; exact hM)
    have hb := mt.held_length_le h2
    rw [h3, c0] at hb
    exact ⟨mt, rets, mt.held, h1,
      mt.listing_ok h2 (mt.fits_of_capacity h2 (by rw [h3, c0]; omega)), by omega⟩
  · intro hno
    obtain ⟨mt, rets, h1, _⟩ := (creator C).run_total h0 (by rw [c0]; exact hC) calls
      (fun hm => absurd hm hno)
    exact ⟨mt, rets, h1⟩

/-- C7 on a `singlemap` tracker of capacity 1 after two adds, a delete and a listing. -/
theorem C7_capacity_bound_witness :
    (1 : Int) ≤ 1 ∧
    ∃ mt rets ys, (singlemap.NewMessageTracker 1).run
        [Call.Add ⟨"a", "p", []⟩, Call.Add ⟨"b", "p", []⟩, Call.Delete "a", Call.Messages] =
        .ok (mt, rets) ∧ mt.listing = .ok ys ∧ (ys.length : Int) ≤ 1 :=
  ⟨by decide, (C7_capacity_bound singlemap.NewMessageTracker (by simp [getTrackerMethods]) 1
    (by decide)
    [Call.Add ⟨"a", "p", []⟩, Call.Add ⟨"b", "p", []⟩, Call.Delete "a", Call.Messages]).2.1
    (by decide)⟩

/-- C8 (zero capacity), what the code does: on a new tracker of capacity 0, of either
implementation, `Add` of any message panics with a nil dereference (`Front()` of the
empty list is nil and is handed to `Remove`); it does not return a nil error. -/
theorem C8_zero_capacity_add_panics (m : network.Message) :
    (singlemap.NewMessageTracker 0).Add m = .error Panic.nilDereference ∧
    (syncmap.NewMessageTracker 0).Add m = .error Panic.nilDereference :=
  ⟨rfl, rfl⟩

/-- C9 (no crash for a positive capacity), what the code does: `Messages()` of the
`singlemap` tracker asks `make` for room for `t.length` pointers, the capacity the tracker
was built with, and `make` panics (`makeslice: cap out of range`) above `maxCap`. On the
new `singlemap` tracker of capacity `2^62`, `Add` and `Message` return, and `Messages()`
panics, as the first call and after them. The `syncmap` tracker asks for room for
`t.list.Len()` pointers and returns on the same calls. -/
theorem C9_messages_panics_at_large_capacity :
    (1 : Int) ≤ 4611686018427387904 ∧
    (singlemap.NewMessageTracker 4611686018427387904).Messages = .error Panic.makeslice ∧
    ((singlemap.NewMessageTracker 4611686018427387904).run
      [Call.Add ⟨"a", "p", []⟩, Call.Message "a"]).map (fun r => r.2) =
      .ok [Ret.Add none, Ret.Message (some ⟨"a", "p", []⟩) none] ∧
    ((singlemap.NewMessageTracker 4611686018427387904).run
      [Call.Add ⟨"a", "p", []⟩, Call.Message "a", Call.Messages]).map (fun r => r.2) =
      .error Panic.makeslice ∧
    (syncmap.NewMessageTracker 4611686018427387904).listing = .ok [] ∧
    ((syncmap.NewMessageTracker 4611686018427387904).run
      [Call.Add ⟨"a", "p", []⟩, Call.Message "a", Call.Messages]).map (fun r => r.2) =
      .ok [Ret.Add none, Ret.Message (some ⟨"a", "p", []⟩) none,
        Ret.Messages [⟨"a", "p", []⟩]] :=
  ⟨by decide, rfl, rfl, rfl, rfl, rfl⟩

/-- C10 (reads do not change the tracker). For each implementation and every state
reached from a new tracker of any capacity `C`: a `Message(id)` or `Messages()` call that
returns leaves a tracker with the same `Messages()` and on which every later sequence of
calls gives the same results, a panic included; `Message(id)` always returns, and
`Messages()` returns when `0 ≤ C ≤ maxCap`. For every sequence of calls that returns, the
sequence without its `Message` and `Messages` calls returns too, with the same results of
the `Add` and `Delete` calls and the same `Messages()` at the end, so that what is evicted
does not depend on what was read. A sequence of calls that panics either panics in the
same way without its reads, or the panic is that of `make` in one of its `Messages()`
calls. When `0 ≤ C ≤ maxCap` the two sequences agree in the results of their `Add` and
`Delete` calls and in the final `Messages()` in every case, a panic included. -/
theorem C10_reads_do_not_change (creator : Int → network.MessageTracker)
    (hc : creator ∈ getTrackerMethods) (C : Int) (mt : network.MessageTracker)
    (hr : Reachable (creator C) mt) :
    (∀ c, c.isWrite = false → ∀ mt' r, mt.call c = .ok (mt', r) →
      mt'.listing = mt.listing ∧
      ∀ calls, (mt'.run calls).map (fun r => r.2) = (mt.run calls).map (fun r => r.2)) ∧
    (∀ id, ∃ r, mt.call (Call.Message id) = .ok (mt, r)) ∧
    (0 ≤ C ∧ C ≤ maxCap → ∃ mt' r, mt.call Call.Messages = .ok (mt', r)) ∧
    (∀ calls mt1 rets, mt.run calls = .ok (mt1, rets) →
      ∃ mt2, mt.run (calls.filter Call.isWrite) = .ok (mt2, writeRets calls rets) ∧
        mt2.listing = mt1.listing) ∧
    (∀ calls p, mt.run calls = .error p →
      mt.run (calls.filter Call.isWrite) = .error p ∨ p = Panic.makeslice) ∧
    (0 ≤ C ∧ C ≤ maxCap →
      ∀ calls, mt.observe calls = mt.observe (calls.filter Call.isWrite)) := by
  obtain ⟨hinv, hcap⟩ := Reachable.inv creator hc C mt hr
  refine ⟨?_, ?_, ?_, ?_, ?_, ?_⟩
  · intro c hw mt' r hcall
    obtain ⟨h2, h3, h4⟩ := mt.call_sound mt' hinv c r hcall
    obtain ⟨r', hstep⟩ := Fifo.step_read mt.capacity c hw mt.held
    rw [hstep] at h4
    simp only [Except.ok.injEq, Prod.mk.injEq] at h4
    have hk := mt.call_kind mt' c r hcall
    exact ⟨mt.listing_congr mt' hinv h2 hk h3 h4.1.symm,
      fun calls => network.MessageTracker.run_congr calls mt mt' hinv h2 hk h3 h4.1.symm⟩
  · intro id
    exact ⟨Ret.Message (Fifo.get mt.held id).1 (Fifo.get mt.held id).2,
      by simp [network.MessageTracker.call, mt.Message_eq hinv, Except.map]⟩
  · intro hC
    obtain ⟨mt', h1, _⟩ := mt.call_ok hinv Call.Messages mt.held (Ret.Messages mt.held) rfl
      (fun _ => mt.fits_of_capacity hinv (by rw [hcap]; exact hC))
    exact ⟨mt', _, h1⟩
  · intro calls mt1 rets hrun
    obtain ⟨i1, c1, f1⟩ := network.MessageTracker.run_sound calls mt mt1 hinv rets hrun
    have f2 := Fifo.run_writes _ _ _ _ _ f1
    obtain ⟨mt2, r2, i2, x2, c2⟩ := network.MessageTracker.run_ok
      (calls.filter Call.isWrite) mt hinv
      (fun hm => absurd hm (not_mem_filter_isWrite calls)) _ _ f2
    refine ⟨mt2, r2, mt1.listing_congr mt2 i1 i2 ?_ (by rw [c2, c1]) x2⟩
    rw [network.MessageTracker.run_kind _ mt mt2 _ r2,
      network.MessageTracker.run_kind _ mt mt1 _ hrun]
  · intro calls p hrun
    exact network.MessageTracker.run_error_writes calls mt hinv p hrun
  · intro hC calls
    have hC' : 0 ≤ mt.capacity ∧ mt.capacity ≤ maxCap := by rw [hcap]; exact hC
    rw [mt.observe_eq hinv hC', mt.observe_eq hinv hC', Fifo.observe_writes]

/-- C10 on a full `singlemap` tracker of capacity 2 holding "a" and "b": reading "a"
before adding "c" does not save "a" from eviction. -/
theorem C10_reads_do_not_change_witness :
    (network.MessageTracker.singlemap
      { length := 2,
        list := ⟨[⟨0, GoAny.message ⟨"a", "p", []⟩⟩, ⟨1, GoAny.message ⟨"b", "p", []⟩⟩], 2⟩,
        listMap := [("b", some ⟨1, GoAny.message ⟨"b", "p", []⟩⟩),
          ("a", some ⟨0, GoAny.message ⟨"a", "p", []⟩⟩)],
        messages := none }).observe
      [Call.Message "a", Call.Messages, Call.Add ⟨"c", "p", []⟩, Call.Message "a"] =
    (network.MessageTracker.singlemap
      { length := 2,
        list := ⟨[⟨0, GoAny.message ⟨"a", "p", []⟩⟩, ⟨1, GoAny.message ⟨"b", "p", []⟩⟩], 2⟩,
        listMap := [("b", some ⟨1, GoAny.message ⟨"b", "p", []⟩⟩),
          ("a", some ⟨0, GoAny.message ⟨"a", "p", []⟩⟩)],
        messages := none }).observe [Call.Add ⟨"c", "p", []⟩] :=
  (C10_reads_do_not_change singlemap.NewMessageTracker
    (by simp [getTrackerMethods]) 2 _
    ⟨[Call.Add ⟨"a", "p", []⟩, Call.Add ⟨"b", "p", []⟩], [Ret.Add none, Ret.Add none],
      rfl⟩).2.2.2.2.2 ⟨by decide, by decide⟩
    [Call.Message "a", Call.Messages, Call.Add ⟨"c", "p", []⟩, Call.Message "a"]

/-- C11 (the two implementations are interchangeable), what the code does: the two
`Messages()` methods give `make` different capacities, `t.length` in `singlemap` and
`t.list.Len()` in `syncmap`. At capacity `2^62` the calls `Add(a)`, `Message("a")`,
`Messages()` end in a panic of `make` on the `singlemap` tracker and return, with the
listing `[a]`, on the `syncmap` tracker. -/
theorem C11_implementations_differ_at_large_capacity :
    (0 : Int) ≤ 4611686018427387904 ∧
    ((singlemap.NewMessageTracker 4611686018427387904).run
      [Call.Add ⟨"a", "p", []⟩, Call.Message "a", Call.Messages]).map (fun r => r.2) =
      .error Panic.makeslice ∧
    ((syncmap.NewMessageTracker 4611686018427387904).run
      [Call.Add ⟨"a", "p", []⟩, Call.Message "a", Call.Messages]).map (fun r => r.2) =
      .ok [Ret.Add none, Ret.Message (some ⟨"a", "p", []⟩) none,
        Ret.Messages [⟨"a", "p", []⟩]] ∧
    ((singlemap.NewMessageTracker 4611686018427387904).run
      [Call.Add ⟨"a", "p", []⟩, Call.Message "a", Call.Messages]).map (fun r => r.2) ≠
    ((syncmap.NewMessageTracker 4611686018427387904).run
      [Call.Add ⟨"a", "p", []⟩, Call.Message "a", Call.Messages]).map (fun r => r.2) :=
  ⟨by decide, rfl, rfl, fun h => Except.noConfusion h⟩

/-- C12 (unique keys). For each implementation, every capacity `C ≥ 1` and every finite
sequence of calls on a new tracker: after every run that returned, the ids of the
messages in the linked list are pairwise distinct, and so are the ids of the elements of
every `Messages()` that returns. When `C ≤ maxCap` the run returns and `Messages()`
returns after it; for every `C`, a run of `Add` and `Delete` calls returns. As the
sequence is arbitrary, this holds after every call. -/
theorem C12_unique_keys (creator : Int → network.MessageTracker)
    (hc : creator ∈ getTrackerMethods) (C : Int) (hC : 1 ≤ C) (calls : List Call) :
    (∀ mt rets, (creator C).run calls = .ok (mt, rets) →
      (∃ xs, mt.traversal = .ok xs ∧ (xs.map (fun m => m.ID)).Nodup) ∧
      (∀ ys, mt.listing = .ok ys → (ys.map (fun m => m.ID)).Nodup)) ∧
    (C ≤ maxCap → ∃ mt rets ys, (creator C).run calls = .ok (mt, rets) ∧
      mt.listing = .ok ys ∧ (ys.map (fun m => m.ID)).Nodup) ∧
    ((∀ c ∈ calls, c.isWrite = true) → ∃ mt rets, (creator C).run calls = .ok (mt, rets)) := by
  obtain ⟨h0, x0, c0⟩ := network.MessageTracker.new_inv creator hc C
  refine ⟨?_, ?_, ?_⟩
  · intro mt rets hrun
    obtain ⟨h2, h3, _⟩ := network.MessageTracker.run_sound calls (creator C) mt h0 rets hrun
    refine ⟨⟨mt.held, mt.traversal_eq h2, mt.held_nodup h2⟩, fun ys hys => ?_⟩
    rw [mt.listing_sound h2 ys hys]
    exact mt.held_nodup h2
  · intro hM
    obtain ⟨mt, rets, h1, h2, h3, _⟩ := (creator C).run_total h0 (by rw [c0]; exact hC) calls
      (fun _ => by rw [c0]; exact hM)
    exact ⟨mt, rets, mt.held, h1,
      mt.listing_ok h2 (mt.fits_of_capacity h2 (by rw [h3, c0]; omega)), mt.held_nodup h2⟩
  · intro hw
    obtain ⟨mt, rets, h1, _⟩ := (creator C).run_total h0 (by rw [c0]; exact hC) calls
      (fun hm => by have := hw _ hm; simp [Call.isWrite] at this)
    exact ⟨mt, rets, h1⟩

/-- C12 on a `syncmap` tracker of capacity 2 after adds of "a", "b", "a", a delete of "a"
and an add of "a". -/
theorem C12_unique_keys_witness :
    (1 : Int) ≤ 2 ∧
    ∃ mt rets ys, (syncmap.NewMessageTracker 2).run
        [Call.Add ⟨"a", "p", []⟩, Call.Add ⟨"b", "p", []⟩, Call.Add ⟨"a", "q", []⟩,
          Call.Delete "a", Call.Add ⟨"a", "r", []⟩] = .ok (mt, rets) ∧
      mt.listing = .ok ys ∧ (ys.map (fun m => m.ID)).Nodup :=
  ⟨by decide, (C12_unique_keys syncmap.NewMessageTracker (by simp [getTrackerMethods]) 2
    (by decide)
    [Call.Add ⟨"a", "p", []⟩, Call.Add ⟨"b", "p", []⟩, Call.Add ⟨"a", "q", []⟩,
      Call.Delete "a", Call.Add ⟨"a", "r", []⟩]).2.1 (by decide)⟩

/-- C13, as stated, fails: `Messages()` returns the cached slice itself. On a tracker of
capacity 2 holding "a", "b" (either implementation), `Messages()` returns `[a, b]`; after
the caller has swapped the two elements of the returned slice, with no `Add` or `Delete`
in between, the next `Messages()` returns `[b, a]`, while the traversal of the linked
list, the true FIFO contents, is still `[a, b]`. -/
theorem C13_returned_slice_is_shared :
    (∃ mt rets mt1, (singlemap.NewMessageTracker 2).run
        [Call.Add ⟨"a", "p", []⟩, Call.Add ⟨"b", "p", []⟩] = .ok (mt, rets) ∧
      mt.Messages = .ok (mt1, [⟨"a", "p", []⟩, ⟨"b", "p", []⟩]) ∧
      (mt1.callerWrites [⟨"b", "p", []⟩, ⟨"a", "p", []⟩]).listing =
        .ok [⟨"b", "p", []⟩, ⟨"a", "p", []⟩] ∧
      (mt1.callerWrites [⟨"b", "p", []⟩, ⟨"a", "p", []⟩]).traversal =
        .ok [⟨"a", "p", []⟩, ⟨"b", "p", []⟩]) ∧
    (∃ mt rets mt1, (syncmap.NewMessageTracker 2).run
        [Call.Add ⟨"a", "p", []⟩, Call.Add ⟨"b", "p", []⟩] = .ok (mt, rets) ∧
      mt.Messages = .ok (mt1, [⟨"a", "p", []⟩, ⟨"b", "p", []⟩]) ∧
      (mt1.callerWrites [⟨"b", "p", []⟩, ⟨"a", "p", []⟩]).listing =
        .ok [⟨"b", "p", []⟩, ⟨"a", "p", []⟩] ∧
      (mt1.callerWrites [⟨"b", "p", []⟩, ⟨"a", "p", []⟩]).traversal =
        .ok [⟨"a", "p", []⟩, ⟨"b", "p", []⟩]) :=
  ⟨⟨_, _, _, rfl, rfl, rfl, rfl⟩, ⟨_, _, _, rfl, rfl, rfl, rfl⟩⟩

/-- C13, amended. For each implementation and every reachable state: whenever
`Messages()` returns, it returns the traversal `xs` of the linked list and keeps the
returned slice as its cache. When the caller then assigns `ys` to the elements of that
slice, the next `Messages()` returns `ys`. Nothing but the cached listing is reached by
the write: the traversal of the linked list is still `xs`, `Message(id)` returns for every
id what it returned before, and an `Add` of an id not in `xs` or a `Delete` of an id in
`xs` returns the same result and the same tracker as without the write. `Messages()`
returns when the capacity `C` of the tracker is `0 ≤ C ≤ maxCap`. -/
theorem C13_caller_writes_reach_the_cache_only (creator : Int → network.MessageTracker)
    (hc : creator ∈ getTrackerMethods) (C : Int) (mt : network.MessageTracker)
    (hr : Reachable (creator C) mt) :
    (∀ mt1 xs, mt.Messages = .ok (mt1, xs) →
      mt.traversal = .ok xs ∧ mt1.traversal = .ok xs ∧
      ∀ ys : List network.Message, ys.length = xs.length →
        (mt1.callerWrites ys).Messages = .ok (mt1.callerWrites ys, ys) ∧
        (mt1.callerWrites ys).traversal = .ok xs ∧
        (∀ id, (mt1.callerWrites ys).Message id = mt1.Message id) ∧
        (∀ m, (∀ x ∈ xs, x.ID ≠ m.ID) → (mt1.callerWrites ys).Add m = mt1.Add m) ∧
        (∀ x ∈ xs, (mt1.callerWrites ys).Delete x.ID = mt1.Delete x.ID)) ∧
    (0 ≤ C ∧ C ≤ maxCap → ∃ mt1 xs, mt.Messages = .ok (mt1, xs)) := by
  obtain ⟨hinv, hcap⟩ := Reachable.inv creator hc C mt hr
  constructor
  · intro mt1 xs m1
    have hcached := mt.Messages_cached mt1 xs m1
    rcases mt.Messages_eq hinv with ⟨_, mt', e0, i1, e1, _⟩ | ⟨_, he⟩
    · rw [e0] at m1
      simp only [Except.ok.injEq, Prod.mk.injEq] at m1
      obtain ⟨a1, a2⟩ := m1
      subst a1; subst a2
      refine ⟨mt.traversal_eq hinv, by rw [mt'.traversal_eq i1, e1], fun ys hlen =>
        ⟨?_, ?_, ?_, ?_, ?_⟩⟩
      · exact mt'.Messages_callerWrites mt.held ys hcached hlen
      · rw [mt'.traversal_callerWrites, mt'.traversal_eq i1, e1]
      · exact fun id => mt'.Message_callerWrites ys id
      · intro m hnew
        exact mt'.Add_callerWrites i1 ys m (by rw [e1]; exact (has_eq_false_iff _ _).mpr hnew)
      · intro x hx
        exact mt'.Delete_callerWrites i1 ys x.ID
          (by rw [e1]; exact (has_iff _ _).mpr ⟨x, hx, rfl⟩)
    · rw [he] at m1
      cases m1
  · intro hC
    obtain ⟨mt1, m1, _⟩ := mt.Messages_ok hinv
      (mt.fits_of_capacity hinv (by rw [hcap]; exact hC))
    exact ⟨mt1, mt.held, m1⟩

/-- C13 amended, on a `singlemap` tracker of capacity 2 holding "a", "b": `Messages()`
returns `[a, b]` and caches it; after the caller has swapped the two elements of the
returned slice, `Messages()` returns `[b, a]` and the linked list still holds `[a, b]`. -/
theorem C13_caller_writes_reach_the_cache_only_witness :
    (network.MessageTracker.singlemap
      { length := 2,
        list := ⟨[⟨0, GoAny.message ⟨"a", "p", []⟩⟩, ⟨1, GoAny.message ⟨"b", "p", []⟩⟩], 2⟩,
        listMap := [("b", some ⟨1, GoAny.message ⟨"b", "p", []⟩⟩),
          ("a", some ⟨0, GoAny.message ⟨"a", "p", []⟩⟩)],
        messages := none }).Messages =
      .ok ((network.MessageTracker.singlemap
        { length := 2,
          list := ⟨[⟨0, GoAny.message ⟨"a", "p", []⟩⟩, ⟨1, GoAny.message ⟨"b", "p", []⟩⟩], 2⟩,
          listMap := [("b", some ⟨1, GoAny.message ⟨"b", "p", []⟩⟩),
            ("a", some ⟨0, GoAny.message ⟨"a", "p", []⟩⟩)],
          messages := some [⟨"a", "p", []⟩, ⟨"b", "p", []⟩] }),
        [⟨"a", "p", []⟩, ⟨"b", "p", []⟩]) ∧
    (((network.MessageTracker.singlemap
        { length := 2,
          list := ⟨[⟨0, GoAny.message ⟨"a", "p", []⟩⟩, ⟨1, GoAny.message ⟨"b", "p", []⟩⟩], 2⟩,
          listMap := [("b", some ⟨1, GoAny.message ⟨"b", "p", []⟩⟩),
            ("a", some ⟨0, GoAny.message ⟨"a", "p", []⟩⟩)],
          messages := some [⟨"a", "p", []⟩, ⟨"b", "p", []⟩] })).callerWrites
      [⟨"b", "p", []⟩, ⟨"a", "p", []⟩]).Messages =
      .ok ((((network.MessageTracker.singlemap
          { length := 2,
            list := ⟨[⟨0, GoAny.message ⟨"a", "p", []⟩⟩, ⟨1, GoAny.message ⟨"b", "p", []⟩⟩], 2⟩,
            listMap := [("b", some ⟨1, GoAny.message ⟨"b", "p", []⟩⟩),
              ("a", some ⟨0, GoAny.message ⟨"a", "p", []⟩⟩)],
            messages := some [⟨"a", "p", []⟩, ⟨"b", "p", []⟩] })).callerWrites
        [⟨"b", "p", []⟩, ⟨"a", "p", []⟩]), [⟨"b", "p", []⟩, ⟨"a", "p", []⟩]) ∧
    (((network.MessageTracker.singlemap
        { length := 2,
          list := ⟨[⟨0, GoAny.message ⟨"a", "p", []⟩⟩, ⟨1, GoAny.message ⟨"b", "p", []⟩⟩], 2⟩,
          listMap := [("b", some ⟨1, GoAny.message ⟨"b", "p", []⟩⟩),
            ("a", some ⟨0, GoAny.message ⟨"a", "p", []⟩⟩)],
          messages := some [⟨"a", "p", []⟩, ⟨"b", "p", []⟩] })).callerWrites
      [⟨"b", "p", []⟩, ⟨"a", "p", []⟩]).traversal = .ok [⟨"a", "p", []⟩, ⟨"b", "p", []⟩] :=
  ⟨rfl,
    (((C13_caller_writes_reach_the_cache_only singlemap.NewMessageTracker
      (by simp [getTrackerMethods]) 2 _
      ⟨[Call.Add ⟨"a", "p", []⟩, Call.Add ⟨"b", "p", []⟩], [Ret.Add none, Ret.Add none],
        rfl⟩).1 _ [⟨"a", "p", []⟩, ⟨"b", "p", []⟩] rfl).2.2
      [⟨"b", "p", []⟩, ⟨"a", "p", []⟩] rfl).1,
    (((C13_caller_writes_reach_the_cache_only singlemap.NewMessageTracker
      (by simp [getTrackerMethods]) 2 _
      ⟨[Call.Add ⟨"a", "p", []⟩, Call.Add ⟨"b", "p", []⟩], [Ret.Add none, Ret.Add none],
        rfl⟩).1 _ [⟨"a", "p", []⟩, ⟨"b", "p", []⟩] rfl).2.2
      [⟨"b", "p", []⟩, ⟨"a", "p", []⟩] rfl).2.1⟩

/-- C14 (concurrent adds of distinct ids lose nothing). For each implementation, every
capacity `C ≥ 1`, every list `ms` of at most `C` messages with pairwise distinct ids, one
goroutine per message running `Add`, and every interleaving `sched` of their atomic steps
(`singlemap`: the whole locked `Add`; `syncmap`: the lookup in the index, then the locked
rest): no step panics; when the schedule gives every goroutine at least two steps, all
goroutines have returned; and whenever all goroutines have returned, the linked list
holds a permutation `xs` of `ms` with pairwise distinct ids: one entry per id added, none
lost, none twice. Every `Messages()` that then returns is `xs`, and `Messages()` returns
when `C ≤ maxCap`. -/
theorem C14_concurrent_adds (creator : Int → network.MessageTracker)
    (hc : creator ∈ getTrackerMethods) (C : Int) (hC : 1 ≤ C) (ms : List network.Message)
    (hd : (ms.map (fun m => m.ID)).Nodup) (hk : (ms.length : Int) ≤ C) (sched : List Nat) :
    ∃ mt gs, runSchedule (creator C) (goroutines ms) sched = .ok (mt, gs) ∧
      ((∀ i, i < ms.length → 2 ≤ sched.count i) → ∀ g ∈ gs, g.phase = Phase.done) ∧
      ((∀ g ∈ gs, g.phase = Phase.done) →
        ∃ xs, mt.traversal = .ok xs ∧ xs.Perm ms ∧ (xs.map (fun m => m.ID)).Nodup ∧
          (∀ ys, mt.listing = .ok ys → ys = xs) ∧ (C ≤ maxCap → mt.listing = .ok xs)) := by
  obtain ⟨h0, x0, c0⟩ := network.MessageTracker.new_inv creator hc C
  obtain ⟨mt, gs, r1, r2, r3, r4, r5, r6⟩ := runSchedule_inv C ms hd hk sched (creator C)
    (goroutines ms) h0 c0 (goroutines_messages ms)
    (by rw [x0, doneMessages_goroutines])
  refine ⟨mt, gs, r1, ?_, ?_⟩
  · intro hfair g hg
    obtain ⟨j, hj⟩ := List.getElem?_of_mem hg
    have hlen : gs.length = ms.length := by rw [← r4, List.length_map]
    have hjlt : j < ms.length := by
      obtain ⟨hj', _⟩ := List.getElem?_eq_some.mp hj
      omega
    have hj0 : (goroutines ms)[j]? = some { message := ms[j], phase := Phase.start } := by
      simp [goroutines, hjlt]
    obtain ⟨g', k1, k2⟩ := r6 j _ hj0
    rw [hj] at k1
    cases k1
    have := hfair j hjlt
    apply Phase.rank_done
    change min 2 (0 + sched.count j) ≤ g.phase.rank at k2
    omega
  · intro hall
    rw [doneMessages_of_all_done gs hall, r4] at r5
    exact ⟨mt.held, mt.traversal_eq r2, r5, mt.held_nodup r2,
      fun ys hys => mt.listing_sound r2 ys hys,
      fun hM => mt.listing_ok r2 (mt.fits_of_capacity r2 (by rw [r3]; omega))⟩

/-- C14 on a `syncmap` tracker of capacity 2 with goroutines for "a" and "b", scheduled
as: lookup of "a", lookup of "b", locked part of "b", locked part of "a". -/
theorem C14_concurrent_adds_witness :
    (1 : Int) ≤ 2 ∧
    ∃ mt gs, runSchedule (syncmap.NewMessageTracker 2)
        (goroutines [⟨"a", "p", []⟩, ⟨"b", "p", []⟩]) [0, 1, 1, 0] = .ok (mt, gs) ∧
      ((∀ i, i < ([⟨"a", "p", []⟩, ⟨"b", "p", []⟩] : List network.Message).length →
        2 ≤ ([0, 1, 1, 0] : List Nat).count i) → ∀ g ∈ gs, g.phase = Phase.done) ∧
      ((∀ g ∈ gs, g.phase = Phase.done) →
        ∃ xs, mt.traversal = .ok xs ∧ xs.Perm [⟨"a", "p", []⟩, ⟨"b", "p", []⟩] ∧
          (xs.map (fun m => m.ID)).Nodup ∧ (∀ ys, mt.listing = .ok ys → ys = xs) ∧
          ((2 : Int) ≤ maxCap → mt.listing = .ok xs)) :=
  ⟨by decide, C14_concurrent_adds syncmap.NewMessageTracker (by simp [getTrackerMethods]) 2
    (by decide) [⟨"a", "p", []⟩, ⟨"b", "p", []⟩] (by decide) (by decide) [0, 1, 1, 0]⟩

/-- C15 (one-step effect of adding a new id). For each implementation, every capacity
`C ≥ 1`, every reachable state whose `Messages()` is `xs` and every message `m` whose id
no element of `xs` has: `Add(m)` returns a nil error and the tracker then holds
`ys = xs ++ [m]` when `xs` is shorter than `C`, and `ys = tail xs ++ [m]` when `xs` has
length `C`; `xs` is never longer than `C`, and the length goes from `n` to
`min (n + 1) C`. `ys` is the traversal of the linked list and what every `Messages()`
that returns gives; `Messages()` returns `ys` unless the tracker held `maxCap = 2^45`
messages already and has room for more, so that `make` refuses the listing. -/
theorem C15_add_new_id (creator : Int → network.MessageTracker)
    (hc : creator ∈ getTrackerMethods) (C : Int) (hC : 1 ≤ C) (mt : network.MessageTracker)
    (hr : Reachable (creator C) mt) (xs : List network.Message) (hl : mt.listing = .ok xs)
    (m : network.Message) (hnew : ∀ x ∈ xs, x.ID ≠ m.ID) :
    ∃ mt' ys, mt.Add m = .ok (mt', none) ∧ mt'.traversal = .ok ys ∧
      (∀ zs, mt'.listing = .ok zs → zs = ys) ∧
      ((xs.length : Int) < maxCap ∨ C ≤ maxCap → mt'.listing = .ok ys) ∧
      ((xs.length : Int) < C → ys = xs ++ [m]) ∧
      ((xs.length : Int) = C → ys = xs.tail ++ [m]) ∧
      (xs.length : Int) ≤ C ∧ (ys.length : Int) = min ((xs.length : Int) + 1) C := by
  obtain ⟨hinv, hcap⟩ := Reachable.inv creator hc C mt hr
  have hxs := mt.listing_sound hinv xs hl
  subst hxs
  have hb := mt.held_length_le hinv
  rw [hcap] at hb
  have hfit := mt.fits_of_listing hinv _ hl
  have hhas : Fifo.has mt.held m.ID = false := (has_eq_false_iff _ _).mpr hnew
  have fin : ∀ (mt' : network.MessageTracker), mt.Add m = .ok (mt', none) → mt'.Inv →
      mt'.capacity = mt.capacity →
      (mt'.held.length : Int) = min ((mt.held.length : Int) + 1) C →
      mt'.traversal = .ok mt'.held ∧ (∀ zs, mt'.listing = .ok zs → zs = mt'.held) ∧
      ((mt.held.length : Int) < maxCap ∨ C ≤ maxCap → mt'.listing = .ok mt'.held) := by
    intro mt' h1 h2 h4 hlen
    refine ⟨mt'.traversal_eq h2, fun zs hz => mt'.listing_sound h2 zs hz, fun hM => ?_⟩
    apply mt'.listing_ok h2
    have hk := mt.Add_kind mt' m none h1
    unfold network.MessageTracker.fits at hfit ⊢
    rw [mt.makeArg_eq hinv] at hfit
    rw [mt'.makeArg_eq h2, hk, h4, hcap]
    rw [hcap] at hfit
    split at hfit
    · next hs => simp only [hs, if_true]; exact hfit
    · next hs =>
      simp only [hs, Bool.false_eq_true, if_false]
      omega
  by_cases hroom : (mt.held.length : Int) < C
  · have hadd := Fifo.add_room mt.capacity mt.held m hhas (by rw [hcap]; exact hroom)
    obtain ⟨mt', h1, h2, h3, h4⟩ := mt.Add_ok hinv m _ hadd
    have hlen : (mt'.held.length : Int) = min ((mt.held.length : Int) + 1) C := by
      rw [h3]
      simp only [List.length_append, List.length_singleton, Nat.cast_add, Nat.cast_one]
      omega
    obtain ⟨f1, f2, f3⟩ := fin mt' h1 h2 h4 hlen
    exact ⟨mt', mt'.held, h1, f1, f2, f3, fun _ => h3, fun h => by omega, by omega, hlen⟩
  · have hfull : (mt.held.length : Int) = C := by omega
    have hadd := Fifo.add_full mt.capacity (by rw [hcap]; exact hC) mt.held m hhas
      (by rw [hcap]; omega)
    obtain ⟨mt', h1, h2, h3, h4⟩ := mt.Add_ok hinv m _ hadd
    have hlen : (mt'.held.length : Int) = min ((mt.held.length : Int) + 1) C := by
      rw [h3]
      simp only [List.length_append, List.length_tail, List.length_singleton, Nat.cast_add,
        Nat.cast_one]
      omega
    obtain ⟨f1, f2, f3⟩ := fin mt' h1 h2 h4 hlen
    exact ⟨mt', mt'.held, h1, f1, f2, f3, fun h => by omega, fun _ => h3, by omega, hlen⟩

/-- C15 on a full `singlemap` tracker of capacity 2 holding "a", "b": adding "c". -/
theorem C15_add_new_id_witness :
    ∃ mt' ys, (network.MessageTracker.singlemap
        { length := 2,
          list := ⟨[⟨0, GoAny.message ⟨"a", "p", []⟩⟩, ⟨1, GoAny.message ⟨"b", "p", []⟩⟩], 2⟩,
          listMap := [("b", some ⟨1, GoAny.message ⟨"b", "p", []⟩⟩),
            ("a", some ⟨0, GoAny.message ⟨"a", "p", []⟩⟩)],
          messages := none }).Add ⟨"c", "p", []⟩ = .ok (mt', none) ∧
      mt'.traversal = .ok ys ∧
      (∀ zs, mt'.listing = .ok zs → zs = ys) ∧
      ((([⟨"a", "p", []⟩, ⟨"b", "p", []⟩] : List network.Message).length : Int) < maxCap ∨
        (2 : Int) ≤ maxCap → mt'.listing = .ok ys) ∧
      ((([⟨"a", "p", []⟩, ⟨"b", "p", []⟩] : List network.Message).length : Int) < 2 →
        ys = [⟨"a", "p", []⟩, ⟨"b", "p", []⟩] ++ [⟨"c", "p", []⟩]) ∧
      ((([⟨"a", "p", []⟩, ⟨"b", "p", []⟩] : List network.Message).length : Int) = 2 →
        ys = ([⟨"a", "p", []⟩, ⟨"b", "p", []⟩] : List network.Message).tail ++
          [⟨"c", "p", []⟩]) ∧
      (([⟨"a", "p", []⟩, ⟨"b", "p", []⟩] : List network.Message).length : Int) ≤ 2 ∧
      (ys.length : Int) =
        min ((([⟨"a", "p", []⟩, ⟨"b", "p", []⟩] : List network.Message).length : Int) + 1) 2 :=
  C15_add_new_id singlemap.NewMessageTracker (by simp [getTrackerMethods]) 2 (by decide) _
    ⟨[Call.Add ⟨"a", "p", []⟩, Call.Add ⟨"b", "p", []⟩], [Ret.Add none, Ret.Add none], rfl⟩
    [⟨"a", "p", []⟩, ⟨"b", "p", []⟩] rfl ⟨"c", "p", []⟩ (by simp)

/-- C16 (index and sequence stay consistent). For each implementation, every capacity
`C ≥ 1` and every finite sequence of calls on a new tracker: in the state after every run
that returned, for every id, the id is a key of the index `listMap` exactly when some
element of the linked list holds a message with this id, and what the index stores under
the id is a non-nil pointer to an element of the list whose message has this id. The run
returns when `C ≤ maxCap` or no `Messages` call is in it. As the sequence is arbitrary,
this holds after every call. -/
theorem C16_index_consistent (creator : Int → network.MessageTracker)
    (hc : creator ∈ getTrackerMethods) (C : Int) (hC : 1 ≤ C) (calls : List Call) :
    (∀ mt rets, (creator C).run calls = .ok (mt, rets) → ∀ id,
      ((mt.indexed id).isSome ↔
        ∃ e ∈ mt.elements, ∃ m, e.Value = GoAny.message m ∧ m.ID = id) ∧
      (∀ r, mt.indexed id = some r →
        ∃ e m, r = .ok (some e) ∧ e ∈ mt.elements ∧ e.Value = GoAny.message m ∧
          m.ID = id)) ∧
    (C ≤ maxCap ∨ Call.Messages ∉ calls →
      ∃ mt rets, (creator C).run calls = .ok (mt, rets)) := by
  obtain ⟨h0, x0, c0⟩ := network.MessageTracker.new_inv creator hc C
  constructor
  · intro mt rets h1 id
    obtain ⟨h2, h3, _⟩ := network.MessageTracker.run_sound calls (creator C) mt h0 rets h1
    rw [mt.indexed_eq h2 id]
    constructor
    · rw [Option.isSome_map', List.find?_isSome]
      constructor
      · rintro ⟨e, he, hh⟩
        obtain ⟨m, hm, hid⟩ := (holdsID_iff e id).mp hh
        exact ⟨e, he, m, hm, hid⟩
      · rintro ⟨e, he, m, hm, hid⟩
        exact ⟨e, he, (holdsID_iff e id).mpr ⟨m, hm, hid⟩⟩
    · intro r hr
      cases hf : mt.elements.find? (list.Element.holdsID id) with
      | none => simp [hf] at hr
      | some e =>
        simp only [hf, Option.map_some', Option.some.injEq] at hr
        obtain ⟨m, hm, hid⟩ := (holdsID_iff e id).mp (List.find?_some hf)
        exact ⟨e, m, hr.symm, List.mem_of_find?_eq_some hf, hm, hid⟩
  · intro hM
    obtain ⟨mt, rets, h1, _⟩ := (creator C).run_total h0 (by rw [c0]; exact hC) calls
      (fun hm => by
        rw [c0]
        rcases hM with h | h
        · exact h
        · exact absurd hm h)
    exact ⟨mt, rets, h1⟩

/-- C16 on a `syncmap` tracker of capacity 1 after an add, an evicting add and a delete
of the evicted id. -/
theorem C16_index_consistent_witness :
    (1 : Int) ≤ 1 ∧
    ∀ id,
      (((network.MessageTracker.syncmap
        { length := 1,
          list := ⟨[⟨1, GoAny.message ⟨"b", "p", []⟩⟩], 2⟩,
          listMap := [("b", GoAny.element 1 (GoAny.message ⟨"b", "p", []⟩))],
          messages := none }).indexed id).isSome ↔
        ∃ e ∈ (network.MessageTracker.syncmap
          { length := 1,
            list := ⟨[⟨1, GoAny.message ⟨"b", "p", []⟩⟩], 2⟩,
            listMap := [("b", GoAny.element 1 (GoAny.message ⟨"b", "p", []⟩))],
            messages := none }).elements, ∃ m, e.Value = GoAny.message m ∧ m.ID = id) ∧
      (∀ r, (network.MessageTracker.syncmap
        { length := 1,
          list := ⟨[⟨1, GoAny.message ⟨"b", "p", []⟩⟩], 2⟩,
          listMap := [("b", GoAny.element 1 (GoAny.message ⟨"b", "p", []⟩))],
          messages := none }).indexed id = some r →
        ∃ e m, r = .ok (some e) ∧ e ∈ (network.MessageTracker.syncmap
          { length := 1,
            list := ⟨[⟨1, GoAny.message ⟨"b", "p", []⟩⟩], 2⟩,
            listMap := [("b", GoAny.element 1 (GoAny.message ⟨"b", "p", []⟩))],
            messages := none }).elements ∧ e.Value = GoAny.message m ∧ m.ID = id) :=
  ⟨by decide, (C16_index_consistent syncmap.NewMessageTracker (by simp [getTrackerMethods]) 1
    (by decide) [Call.Add ⟨"a", "p", []⟩, Call.Add ⟨"b", "p", []⟩, Call.Delete "a"]).1 _
    [Ret.Add none, Ret.Add none, Ret.Delete (some network.ErrMessageNotFound)] rfl⟩

/-- C18 (an evicted id is forgotten everywhere). For each implementation, every capacity
`C ≥ 1`, every reachable state whose `Messages()` is `o :: rest` of length `C`, and every
message `m` whose id is not held: `Add(m)` returns nil; afterwards `Message(o.ID)` and
`Delete(o.ID)` both return `ErrMessageNotFound` (the latter leaving the tracker as it is),
and `Add` of a message `m2` with the id of `o` is an add of a new entry: `m2` goes to the
back of `Messages()`, the front entry of the full tracker being evicted for it. -/
theorem C18_evicted_forgotten (creator : Int → network.MessageTracker)
    (hc : creator ∈ getTrackerMethods) (C : Int) (hC : 1 ≤ C) (mt : network.MessageTracker)
    (hr : Reachable (creator C) mt) (o : network.Message) (rest : List network.Message)
    (hl : mt.listing = .ok (o :: rest)) (hfull : ((o :: rest).length : Int) = C)
    (m : network.Message) (hnew : ∀ x ∈ o :: rest, x.ID ≠ m.ID) (m2 : network.Message)
    (hid : m2.ID = o.ID) :
    ∃ mt1 mt2, mt.Add m = .ok (mt1, none) ∧ mt1.listing = .ok (rest ++ [m]) ∧
      mt1.Message o.ID = .ok (none, some network.ErrMessageNotFound) ∧
      mt1.Delete o.ID = .ok (mt1, some network.ErrMessageNotFound) ∧
      mt1.Add m2 = .ok (mt2, none) ∧ mt2.listing = .ok ((rest ++ [m]).tail ++ [m2]) ∧
      ((rest ++ [m]).tail ++ [m2]).getLast? = some m2 := by
  obtain ⟨hinv, hcap⟩ := Reachable.inv creator hc C mt hr
  have hheld : mt.held = o :: rest := (mt.listing_sound hinv _ hl).symm
  have hnd := mt.held_nodup hinv
  rw [hheld] at hnd
  have hhas : Fifo.has mt.held m.ID = false := by
    rw [hheld]; exact (has_eq_false_iff _ _).mpr hnew
  have hadd : Fifo.add mt.capacity mt.held m = .ok (rest ++ [m]) := by
    have := Fifo.add_full mt.capacity (by rw [hcap]; exact hC) mt.held m hhas
      (by rw [hcap, hheld]; omega)
    rw [this, hheld, List.tail_cons]
  obtain ⟨mt1, h1, h2, h3, h4⟩ := mt.Add_ok hinv m _ hadd
  have hcap1 : mt1.capacity = C := by rw [h4, hcap]
  have hgone : ∀ y ∈ rest ++ [m], y.ID ≠ o.ID := by
    intro y hy
    rw [List.map_cons, List.nodup_cons] at hnd
    rcases List.mem_append.mp hy with h | h
    · intro he
      exact hnd.1 (by rw [← he]; exact List.mem_map_of_mem (fun m => m.ID) h)
    · simp only [List.mem_singleton] at h
      subst h
      exact fun he => hnew o (List.mem_cons_self _ _) he.symm
  have hhas1 : Fifo.has mt1.held o.ID = false := by
    rw [h3]; exact (has_eq_false_iff _ _).mpr hgone
  obtain ⟨mt1', d1, _, _, _, d5⟩ := mt1.Delete_eq h2 o.ID
  rw [d5 hhas1] at d1
  simp only [Fifo.delete, hhas1] at d1
  have hhas2 : Fifo.has mt1.held m2.ID = false := by rw [hid]; exact hhas1
  have hlen1 : (mt1.held.length : Int) = C := by
    rw [h3]
    simp only [List.length_append, List.length_singleton, List.length_cons, Nat.cast_add,
      Nat.cast_one] at hfull ⊢
    exact hfull
  have hadd2 := Fifo.add_full mt1.capacity (by rw [hcap1]; exact hC) mt1.held m2 hhas2
    (by rw [hcap1]; omega)
  obtain ⟨mt2, k1, k2, k3, k4⟩ := mt1.Add_ok h2 m2 _ hadd2
  have hl1 : mt1.listing = .ok mt1.held :=
    mt.listing_after mt1 hinv h2 _ hl (mt.Add_kind mt1 m none h1) h4
      (by rw [h3, hheld]; simp)
  refine ⟨mt1, mt2, h1, ?_, ?_, d1, k1, ?_, by simp⟩
  · rw [hl1, h3]
  · rw [mt1.Message_eq h2, h3, Fifo.get_of_not_has _ _ hgone]
  · rw [mt1.listing_after mt2 h2 k2 _ hl1 (mt1.Add_kind mt2 m2 none k1) k4
      (by
        rw [k3]
        simp only [List.length_append, List.length_tail, List.length_singleton]
        omega), k3, h3]

/-- C18 on a full `singlemap` tracker of capacity 2 holding "a", "b": "c" evicts "a";
"a" is then unknown, and adding "a" again puts it at the back, evicting "b". -/
theorem C18_evicted_forgotten_witness :
    ∃ mt1 mt2, (network.MessageTracker.singlemap
        { length := 2,
          list := ⟨[⟨0, GoAny.message ⟨"a", "p", []⟩⟩, ⟨1, GoAny.message ⟨"b", "p", []⟩⟩], 2⟩,
          listMap := [("b", some ⟨1, GoAny.message ⟨"b", "p", []⟩⟩),
            ("a", some ⟨0, GoAny.message ⟨"a", "p", []⟩⟩)],
          messages := none }).Add ⟨"c", "p", []⟩ = .ok (mt1, none) ∧
      mt1.listing = .ok [⟨"b", "p", []⟩, ⟨"c", "p", []⟩] ∧
      mt1.Message "a" = .ok (none, some network.ErrMessageNotFound) ∧
      mt1.Delete "a" = .ok (mt1, some network.ErrMessageNotFound) ∧
      mt1.Add ⟨"a", "q", []⟩ = .ok (mt2, none) ∧
      mt2.listing = .ok [⟨"c", "p", []⟩, ⟨"a", "q", []⟩] ∧
      ([⟨"c", "p", []⟩, ⟨"a", "q", []⟩] : List network.Message).getLast? =
        some ⟨"a", "q", []⟩ :=
  C18_evicted_forgotten singlemap.NewMessageTracker (by simp [getTrackerMethods]) 2
    (by decide) _
    ⟨[Call.Add ⟨"a", "p", []⟩, Call.Add ⟨"b", "p", []⟩], [Ret.Add none, Ret.Add none], rfl⟩
    ⟨"a", "p", []⟩ [⟨"b", "p", []⟩] rfl (by decide) ⟨"c", "p", []⟩ (by simp) ⟨"a", "q", []⟩ rfl

/-- C19 (add then delete is the identity when nothing is evicted). For each
implementation, every capacity `C ≥ 1`, every reachable state whose `Messages()` is `xs`
with fewer than `C` elements, and every message `m` whose id is not held: `Add(m)` and
then `Delete(m.ID)` both return nil, `Messages()` is `xs` again, and `Message(j)` returns
for every id `j` what it returned before. -/
theorem C19_add_then_delete (creator : Int → network.MessageTracker)
    (hc : creator ∈ getTrackerMethods) (C : Int) (hC : 1 ≤ C) (mt : network.MessageTracker)
    (hr : Reachable (creator C) mt) (xs : List network.Message) (hl : mt.listing = .ok xs)
    (hroom : (xs.length : Int) < C) (m : network.Message) (hnew : ∀ x ∈ xs, x.ID ≠ m.ID) :
    ∃ mt1 mt2, mt.Add m = .ok (mt1, none) ∧ mt1.Delete m.ID = .ok (mt2, none) ∧
      mt2.listing = .ok xs ∧ ∀ j, mt2.Message j = mt.Message j := by
  have _ := hC
  obtain ⟨hinv, hcap⟩ := Reachable.inv creator hc C mt hr
  have hxs := mt.listing_sound hinv xs hl
  subst hxs
  have hhas : Fifo.has mt.held m.ID = false := (has_eq_false_iff _ _).mpr hnew
  have hadd := Fifo.add_room mt.capacity mt.held m hhas (by rw [hcap]; exact hroom)
  obtain ⟨mt1, h1, h2, h3, h4⟩ := mt.Add_ok hinv m _ hadd
  have hhas1 : Fifo.has mt1.held m.ID = true := by
    rw [h3]; exact (has_iff _ _).mpr ⟨m, by simp, rfl⟩
  obtain ⟨mt2, d1, d2, d3, d4, _⟩ := mt1.Delete_eq h2 m.ID
  simp only [Fifo.delete, hhas1, if_true] at d1 d3
  have herase : mt1.held.eraseP (fun x => decide (x.ID = m.ID)) = mt.held := by
    rw [h3, List.eraseP_append_right]
    · simp
    · intro x hx
      simpa using hnew x hx
  rw [herase] at d3
  refine ⟨mt1, mt2, h1, d1, ?_, fun j => ?_⟩
  · rw [mt.listing_after mt2 hinv d2 _ hl
      (by rw [mt1.Delete_kind mt2 m.ID none d1, mt.Add_kind mt1 m none h1])
      (by rw [d4, h4]) (by rw [d3]), d3]
  · rw [mt2.Message_eq d2, mt.Message_eq hinv, d3]

/-- C19 on a `syncmap` tracker of capacity 2 holding "a": adding "b", then deleting it. -/
theorem C19_add_then_delete_witness :
    ∃ mt1 mt2, (network.MessageTracker.syncmap
        { length := 2,
          list := ⟨[⟨0, GoAny.message ⟨"a", "p", []⟩⟩], 1⟩,
          listMap := [("a", GoAny.element 0 (GoAny.message ⟨"a", "p", []⟩))],
          messages := none }).Add ⟨"b", "p", []⟩ = .ok (mt1, none) ∧
      mt1.Delete "b" = .ok (mt2, none) ∧
      mt2.listing = .ok [⟨"a", "p", []⟩] ∧
      ∀ j, mt2.Message j = (network.MessageTracker.syncmap
        { length := 2,
          list := ⟨[⟨0, GoAny.message ⟨"a", "p", []⟩⟩], 1⟩,
          listMap := [("a", GoAny.element 0 (GoAny.message ⟨"a", "p", []⟩))],
          messages := none }).Message j :=
  C19_add_then_delete syncmap.NewMessageTracker (by simp [getTrackerMethods]) 2 (by decide) _
    ⟨[Call.Add ⟨"a", "p", []⟩], [Ret.Add none], rfl⟩ [⟨"a", "p", []⟩] rfl (by decide)
    ⟨"b", "p", []⟩ (by simp)

/-- C20 (delete then re-add moves an entry to the back and frees a slot). For each
implementation, every capacity `C ≥ 1`, every reachable state whose `Messages()` is `xs`
with `x ∈ xs`, and every message `m` with the id of `x`: `Delete(x.ID)` and then `Add(m)`
both return nil; `xs` splits as `pre ++ x :: post` and `Messages()` is then
`pre ++ post ++ [m]`, nothing being evicted even when `xs` had length `C`; and
`Message(x.ID)` returns `m`. -/
theorem C20_delete_then_add (creator : Int → network.MessageTracker)
    (hc : creator ∈ getTrackerMethods) (C : Int) (hC : 1 ≤ C) (mt : network.MessageTracker)
    (hr : Reachable (creator C) mt) (xs : List network.Message) (hl : mt.listing = .ok xs)
    (x : network.Message) (hx : x ∈ xs) (m : network.Message) (hid : m.ID = x.ID) :
    ∃ mt1 mt2 pre post, mt.Delete x.ID = .ok (mt1, none) ∧ mt1.Add m = .ok (mt2, none) ∧
      xs = pre ++ x :: post ∧ mt2.listing = .ok (pre ++ post ++ [m]) ∧
      mt2.Message x.ID = .ok (some m, none) := by
  obtain ⟨hinv, hcap⟩ := Reachable.inv creator hc C mt hr
  have hxs := mt.listing_sound hinv xs hl
  subst hxs
  have hb := mt.held_length_le hinv
  rw [hcap] at hb
  have hhas : Fifo.has mt.held x.ID = true := (has_iff _ _).mpr ⟨x, hx, rfl⟩
  obtain ⟨pre, post, e1, e2, e3⟩ := eraseP_of_mem_nodup mt.held (mt.held_nodup hinv) x hx
  obtain ⟨mt1, d1, d2, d3, d4, _⟩ := mt.Delete_eq hinv x.ID
  simp only [Fifo.delete, hhas, if_true] at d1 d3
  rw [e2] at d3
  have hhas1 : Fifo.has mt1.held m.ID = false := by
    rw [d3, hid]; exact (has_eq_false_iff _ _).mpr e3
  have hlen : (mt1.held.length : Int) < C := by
    rw [d3]
    rw [e1] at hb
    simp only [List.length_append, List.length_cons, Nat.cast_add, Nat.cast_one] at hb ⊢
    omega
  have hadd := Fifo.add_room mt1.capacity mt1.held m hhas1 (by rw [d4, hcap]; exact hlen)
  obtain ⟨mt2, k1, k2, k3, k4⟩ := mt1.Add_ok d2 m _ hadd
  have hget := Fifo.get_of_mem mt2.held (mt2.held_nodup k2) m (by rw [k3]; simp)
  refine ⟨mt1, mt2, pre, post, d1, k1, e1, ?_, ?_⟩
  · rw [mt.listing_after mt2 hinv k2 _ hl
      (by rw [mt1.Add_kind mt2 m none k1, mt.Delete_kind mt1 x.ID none d1])
      (by rw [k4, d4]) (by rw [k3, d3, e1]; simp), k3, d3]
  · rw [mt2.Message_eq k2, ← hid, hget]

/-- C20 on a full `singlemap` tracker of capacity 2 holding "a", "b": deleting "a" and
adding "a" from another peer gives "b", "a" with nothing evicted. -/
theorem C20_delete_then_add_witness :
    ∃ mt1 mt2 pre post, (network.MessageTracker.singlemap
        { length := 2,
          list := ⟨[⟨0, GoAny.message ⟨"a", "p", []⟩⟩, ⟨1, GoAny.message ⟨"b", "p", []⟩⟩], 2⟩,
          listMap := [("b", some ⟨1, GoAny.message ⟨"b", "p", []⟩⟩),
            ("a", some ⟨0, GoAny.message ⟨"a", "p", []⟩⟩)],
          messages := none }).Delete "a" = .ok (mt1, none) ∧
      mt1.Add ⟨"a", "q", [9]⟩ = .ok (mt2, none) ∧
      [(⟨"a", "p", []⟩ : network.Message), ⟨"b", "p", []⟩] = pre ++ ⟨"a", "p", []⟩ :: post ∧
      mt2.listing = .ok (pre ++ post ++ [⟨"a", "q", [9]⟩]) ∧
      mt2.Message "a" = .ok (some ⟨"a", "q", [9]⟩, none) :=
  C20_delete_then_add singlemap.NewMessageTracker (by simp [getTrackerMethods]) 2
    (by decide) _
    ⟨[Call.Add ⟨"a", "p", []⟩, Call.Add ⟨"b", "p", []⟩], [Ret.Add none, Ret.Add none], rfl⟩
    [⟨"a", "p", []⟩, ⟨"b", "p", []⟩] rfl ⟨"a", "p", []⟩ (by simp) ⟨"a", "q", [9]⟩ rfl
